import Mathlib

/-!
Verification development for the `nclist` library (nested containment lists).

The C++ sources are header-only templates over an index type `Index_` and a
position type `Position_`.  The shallow embedding fixes `Index_ := Nat` and
`Position_ := Int` (a signed position type); where the code consults
`std::numeric_limits<Position_>::max()` the embedding takes that value as an
explicit parameter `pmax`.  `std::vector` becomes `List`, out-parameters become
return values, and the explicit-stack `while` loops of the query functions
become fuel-indexed recursions (the fuel given to each query is provably
sufficient for any index produced by `build`).
-/

namespace NclistSpec

/-- Mirror of `Nclist<Index_, Position_>::Node` (src/include/nclist/build.hpp):
subject id plus half-open slices into `nodes` (children) and `duplicates`. -/
structure NCNode where
  id : Nat
  children_start : Nat
  children_end : Nat
  duplicates_start : Nat
  duplicates_end : Nat
  deriving Repr, DecidableEq, Inhabited

/-- Mirror of `Nclist<Index_, Position_>` (src/include/nclist/build.hpp):
root child count, the node array, the parallel start/end position arrays and
the flattened duplicates array. -/
structure Nclist where
  root_children : Nat
  nodes : List NCNode
  starts : List Int
  ends : List Int
  duplicates : List Nat
  deriving Repr, DecidableEq, Inhabited

/-- Mirror of `nclist::safe_subtract_gap` (src/include/nclist/utils.hpp).
`Position_` is embedded as the signed type `Int`, so the
`std::is_unsigned` clamp is inactive and the function is plain subtraction. -/
def safe_subtract_gap (query_start max_gap : Int) : Int :=
  query_start - max_gap

/-- Mirror of `nclist::diff_above_gap` (src/include/nclist/utils.hpp). -/
def diff_above_gap (pos1 pos2 max_gap : Int) : Bool :=
  if pos1 > pos2 then pos1 - pos2 > max_gap else pos2 - pos1 > max_gap

/-! ### The build algorithm (src/include/nclist/build.hpp, `build_internal`)

`build_internal` first sorts the subject indices by increasing start and
decreasing end (the comparator `cmp` at build.hpp:110).  `std::sort` realizes
an arbitrary order consistent with this strict weak order; the embedding picks
the stable such order via `List.insertionSort`. -/

/-- The comparator `cmp` of build.hpp:110-116 as a non-strict total preorder:
`buildLe l r` holds iff `¬ cmp r l`, i.e. `l` may come before `r`. -/
def buildLe (starts ends : List Int) (l r : Nat) : Prop :=
  starts.getD l 0 < starts.getD r 0 ∨
    (starts.getD l 0 = starts.getD r 0 ∧ ends.getD r 0 ≤ ends.getD l 0)

instance (starts ends : List Int) : DecidableRel (buildLe starts ends) := by
  intro l r
  unfold buildLe
  infer_instance

/-- Sorted order of subject indices used by the tree-building pass.
Models `of_interest` after the sort at build.hpp:117-119, with
`of_interest = [0, n)` as produced by the all-intervals `build()` overload
(build.hpp:372-376). -/
def buildOrder (starts ends : List Int) : List Nat :=
  (List.range starts.length).insertionSort (buildLe starts ends)

/-- The working tree produced by the tree-building pass: one node per
non-duplicate interval, carrying its bounds, the subject ids collapsed into it
as duplicates (in encounter order), and its completed children in insertion
order.  This materializes the `working_list`/`working_children`/
`working_duplicates` arena of build.hpp:123-153: the arena stores, for every
working node, exactly its list of child offsets (right-to-left, un-reversed at
emission) and duplicate ids. -/
inductive IvlTree where
  | node (id : Nat) (s e : Int) (dups : List Nat) (children : List IvlTree)
  deriving Repr

/-- Open entry of the `levels` stack (build.hpp:155-163): the interval is still
able to receive children and duplicates. -/
structure OpenFrame where
  id : Nat
  s : Int
  e : Int
  dups : List Nat
  kids : List IvlTree
  deriving Repr

/-- State of the tree-building pass: the open `levels` above the virtual root
(stack top first), the completed children of the virtual root, and `last_id`
(build.hpp:201). -/
structure BuildState where
  stack : List OpenFrame
  roots : List IvlTree
  last_id : Nat
  deriving Repr

/-- Closing an open frame yields its finished working-tree node
(`process_level` at build.hpp:167-181 freezes its children/duplicate slices). -/
def closeFrame (f : OpenFrame) : IvlTree :=
  .node f.id f.s f.e f.dups f.kids

/-- Inner recursion of the pop loop of build.hpp:210-214: `t` is the node just
closed; it becomes the next child of the entry below it (or of the virtual
root), and popping continues while the receiving entry's end is before
`curend`. -/
def popInto (curend : Int) (t : IvlTree) (stack : List OpenFrame) (roots : List IvlTree) :
    List OpenFrame × List IvlTree :=
  match stack with
  | [] => ([], roots ++ [t])
  | g :: rest =>
    let g2 := { g with kids := g.kids ++ [t] }
    if g2.e < curend then popInto curend (closeFrame g2) rest roots
    else (g2 :: rest, roots)

/-- The pop loop of build.hpp:210-214: close stack entries whose end is
before `curend`; each closed node becomes the next child of the entry below
it (or of the virtual root). -/
def popAttach (curend : Int) (stack : List OpenFrame) (roots : List IvlTree) :
    List OpenFrame × List IvlTree :=
  match stack with
  | [] => ([], roots)
  | f :: rest =>
    if f.e < curend then popInto curend (closeFrame f) rest roots
    else (f :: rest, roots)

/-- Inner recursion of the final drain of the stack (build.hpp:239-243). -/
def popAllInto (t : IvlTree) (stack : List OpenFrame) (roots : List IvlTree) : List IvlTree :=
  match stack with
  | [] => roots ++ [t]
  | g :: rest => popAllInto (closeFrame { g with kids := g.kids ++ [t] }) rest roots

/-- The final drain of the stack (build.hpp:239-243). -/
def popAll (stack : List OpenFrame) (roots : List IvlTree) : List IvlTree :=
  match stack with
  | [] => roots
  | f :: rest => popAllInto (closeFrame f) rest roots

/-- Opening a new level for interval `curid` (build.hpp:227-234). -/
def pushFrame (starts ends : List Int) (curid : Nat) (st : BuildState) : BuildState :=
  { stack := ⟨curid, starts.getD curid 0, ends.getD curid 0, [], []⟩ :: st.stack
    roots := st.roots
    last_id := curid }

/-- One iteration of the main loop of build.hpp:202-235 on interval `curid`:
pop no-longer-enclosing levels, or collapse a duplicate into the top level,
then (in the non-duplicate cases) open a new level. -/
def buildStep (starts ends : List Int) (st : BuildState) (curid : Nat) : BuildState :=
  let curend := ends.getD curid 0
  match st.stack with
  | [] => pushFrame starts ends curid st
  | f :: rest =>
    if f.e < curend then
      let pr := popAttach curend (f :: rest) st.roots
      pushFrame starts ends curid { stack := pr.1, roots := pr.2, last_id := st.last_id }
    else if f.e = curend ∧ starts.getD curid 0 = starts.getD st.last_id 0 then
      { st with stack := { f with dups := f.dups ++ [curid] } :: rest }
    else
      pushFrame starts ends curid st

/-- The tree-building pass (build.hpp:201-244): fold the sorted intervals
through `buildStep` and drain the stack.  Returns the children of the virtual
root, in insertion order. -/
def buildForest (starts ends : List Int) : List IvlTree :=
  let fin := (buildOrder starts ends).foldl (buildStep starts ends) ⟨[], [], 0⟩
  popAll fin.stack fin.roots

/-! ### The emission pass (build.hpp:249-327)

The emission walks the working tree depth-first.  When a node is processed its
children are granted the next contiguous slice of the output arrays
(`output_children_used`) and its duplicates are appended to
`output.duplicates`; the node's own payload was already written at the offset
granted by its parent.  Equivalently: slice offsets are assigned by a preorder
walk threading the `output_children_used` / `output.duplicates.size()`
counters, and the `nodes`/`starts`/`ends` arrays list the root slice followed
by the children slices of every node in preorder. -/

/-- Fields of an emitted node before erasing the bounds. -/
structure AnnInfo where
  id : Nat
  s : Int
  e : Int
  dups : List Nat
  cs : Nat
  ce : Nat
  ds : Nat
  de : Nat
  deriving Repr, DecidableEq

/-- Working tree annotated with the output offsets of every node's children
slice and duplicates slice. -/
inductive AnnTree where
  | node (info : AnnInfo) (children : List AnnTree)
  deriving Repr

/-- Payload of an annotated node. -/
def AnnTree.info : AnnTree → AnnInfo
  | .node i _ => i

/-- Children of an annotated node. -/
def AnnTree.children : AnnTree → List AnnTree
  | .node _ c => c

mutual

/-- Assign output offsets to one working-tree node, threading the
children-slice allocator (`output_children_used`, build.hpp:276,320-322) and
the duplicates length (`output.duplicates.size()`, build.hpp:307-316).  Nodes
without children or duplicates keep the zero offsets of the default-initialized
`Node` (build.hpp:44-51). -/
def annTree (t : IvlTree) (alloc dlen : Nat) : AnnTree × Nat × Nat :=
  match t with
  | .node id s e dups children =>
    let cs := if children.length = 0 then 0 else alloc
    let ce := if children.length = 0 then 0 else alloc + children.length
    let ds := if dups.length = 0 then 0 else dlen
    let de := if dups.length = 0 then 0 else dlen + dups.length
    let rec2 := annList children (alloc + children.length) (dlen + dups.length)
    (.node ⟨id, s, e, dups, cs, ce, ds, de⟩ rec2.1, rec2.2)
  termination_by structural t

/-- Assign output offsets to a list of sibling working-tree nodes, in order. -/
def annList (ts : List IvlTree) (alloc dlen : Nat) : List AnnTree × Nat × Nat :=
  match ts with
  | [] => ([], alloc, dlen)
  | t :: rest =>
    let r1 := annTree t alloc dlen
    let r2 := annList rest r1.2.1 r1.2.2
    (r1.1 :: r2.1, r2.2)
  termination_by structural ts

end

mutual

/-- Depth-first preorder of an annotated tree. -/
def preT : AnnTree → List AnnTree
  | .node i c => .node i c :: preA c
  termination_by structural t => t

/-- Depth-first preorder of an annotated forest: the order in which the
emission loop of build.hpp:279-325 processes nodes (and hence the order in
which children slices are allocated and duplicates appended). -/
def preA : List AnnTree → List AnnTree
  | [] => []
  | t :: rest => preT t ++ preA rest
  termination_by structural ts => ts

end

/-- The annotated nodes in output-array order: the root slice first
(offsets `[0, root_children)`), then the children slice of every node in
preorder, each slice contiguous — the layout produced by the emission loop. -/
def layoutA (f : List AnnTree) : List AnnTree :=
  f ++ (preA f).flatMap AnnTree.children

/-- Erase an annotated node to the output `Node` record. -/
def toNCNode (t : AnnTree) : NCNode :=
  ⟨t.info.id, t.info.cs, t.info.ce, t.info.ds, t.info.de⟩

/-- The annotated forest of the built index: children-slice offsets start at
`root_children` (build.hpp:275-277) and duplicate offsets at `0`. -/
def annForest (starts ends : List Int) : List AnnTree :=
  (annList (buildForest starts ends) (buildForest starts ends).length 0).1

/-- Mirror of `nclist::build` over all `n` intervals
(build.hpp:410-412 → build_custom → build_internal). -/
def build (starts ends : List Int) : Nclist :=
  let f := annForest starts ends
  { root_children := (buildForest starts ends).length
    nodes := (layoutA f).map toNCNode
    starts := (layoutA f).map (fun t => t.info.s)
    ends := (layoutA f).map (fun t => t.info.e)
    duplicates := (preA f).flatMap (fun t => t.info.dups) }

/-! ### The query traversal skeleton

Each query function walks the index with an explicit stack of
`(child_at, child_end[, skip_search])` frames.  The `while (1)` loops become
fuel-indexed recursions; every query function passes fuel
`3 * nodes.length + 3`, which suffices for any index produced by `build`
(each iteration pops a frame, visits a fresh node, or terminates).
`std::upper_bound`/`std::lower_bound` are specified by their postcondition on
the sorted `ends` slices of a built index: the first position in the slice
whose value is greater (resp. not less) than the key. -/

/-- Inner recursion of `firstFrom`, structurally on the remaining length. -/
def firstFromGo (p : Nat → Bool) : Nat → Nat → Nat
  | 0, i => i
  | k + 1, i => if p i then i else firstFromGo p k (i + 1)

/-- First index in `[i, e)` satisfying `p`, else `e` (for `i ≤ e`). -/
def firstFrom (p : Nat → Bool) (i e : Nat) : Nat :=
  firstFromGo p (e - i) i

/-- Index form of `std::upper_bound(begin + cs, begin + ce, v) - begin`
on the `ends` array: first position in `[cs, ce)` with `v < ends[j]`. -/
def upperBound (ends : List Int) (cs ce : Nat) (v : Int) : Nat :=
  firstFrom (fun j => v < ends.getD j 0) cs ce

/-- Index form of `std::lower_bound(begin + cs, begin + ce, v) - begin`
on the `ends` array: first position in `[cs, ce)` with `v ≤ ends[j]`. -/
def lowerBound (ends : List Int) (cs ce : Nat) (v : Int) : Nat :=
  firstFrom (fun j => v ≤ ends.getD j 0) cs ce

/-- The duplicate ids of a node: the slice
`[duplicates_start, duplicates_end)` of `duplicates` that every query function
appends after the node's own id. -/
def dupSlice (subject : Nclist) (nd : NCNode) : List Nat :=
  (subject.duplicates.drop nd.duplicates_start).take (nd.duplicates_end - nd.duplicates_start)

/-- Stack frame of the walks that carry a `skip_search` flag
(`OverlapsAnyWorkspace::State` and its clones in overlaps_start.hpp,
overlaps_extend.hpp, nearest.hpp). -/
structure Frame where
  childAt : Nat
  childEnd : Nat
  skip : Bool
  deriving Repr, DecidableEq

/-- Stack frame of the walks without a `skip_search` flag
(overlaps_within.hpp, overlaps_equal.hpp, overlaps_end.hpp). -/
structure PFrame where
  childAt : Nat
  childEnd : Nat
  deriving Repr, DecidableEq

/-- Outcome of the per-node body of a query loop: `halt` returns from the
query function immediately with the final matches (a `return` in the body),
`go` continues the loop with updated matches and says whether the node's
children may be traversed (`continue` before the push corresponds to
`descend = false`). -/
inductive StepRes where
  | halt (m : List Nat)
  | go (m : List Nat) (descend : Bool)

/-- Frame push performed after visiting a node with a non-empty child slice
(e.g. overlaps_any.hpp:256-265): with the lineage `skip_search` flag set the
whole slice is taken, otherwise the kind's binary search `ffc` trims the slice
and the new flag is `canSkip` of the first retained child's start. -/
def pushChild (subject : Nclist) (ffc : Nat → Nat → Nat) (canSkip : Int → Bool)
    (nd : NCNode) (skip : Bool) (hist : List Frame) : List Frame :=
  if nd.children_start ≠ nd.children_end then
    if skip then ⟨nd.children_start, nd.children_end, true⟩ :: hist
    else
      let sp := ffc nd.children_start nd.children_end
      if sp ≠ nd.children_end then ⟨sp, nd.children_end, canSkip (subject.starts.getD sp 0)⟩ :: hist
      else hist
  else hist

/-- The `while (1)` loop shared by overlaps_any.hpp:219-266,
overlaps_start.hpp:215-280 and overlaps_extend.hpp:189-246, parameterized by
the kind's binary search `ffc`, `canSkip` predicate, `is_finished` predicate
and per-node body `process`. -/
def walkSkip (subject : Nclist) (ffc : Nat → Nat → Nat) (canSkip : Int → Bool)
    (isFin : Int → Bool) (process : Nat → List Nat → StepRes) :
    Nat → Nat → Bool → List Frame → List Nat → List Nat
  | 0, _, _, _, m => m
  | fuel + 1, rootAt, rootSkip, hist, m =>
    match hist with
    | [] =>
      if rootAt = subject.root_children ∨ isFin (subject.starts.getD rootAt 0) then m
      else
        match process rootAt m with
        | .halt m2 => m2
        | .go m2 descend =>
          let nd := subject.nodes.getD rootAt default
          walkSkip subject ffc canSkip isFin process fuel (rootAt + 1) rootSkip
            (if descend then pushChild subject ffc canSkip nd rootSkip [] else []) m2
    | fr :: rest =>
      if fr.childAt = fr.childEnd ∨ isFin (subject.starts.getD fr.childAt 0) then
        walkSkip subject ffc canSkip isFin process fuel rootAt rootSkip rest m
      else
        match process fr.childAt m with
        | .halt m2 => m2
        | .go m2 descend =>
          let nd := subject.nodes.getD fr.childAt default
          let hist2 := { fr with childAt := fr.childAt + 1 } :: rest
          walkSkip subject ffc canSkip isFin process fuel rootAt rootSkip
            (if descend then pushChild subject ffc canSkip nd fr.skip hist2 else hist2) m2

/-- Frame push of the walks without a `skip_search` flag
(e.g. overlaps_within.hpp:189-194). -/
def pushChildP (ffc : Nat → Nat → Nat) (nd : NCNode)
    (hist : List PFrame) : List PFrame :=
  if nd.children_start ≠ nd.children_end then
    let sp := ffc nd.children_start nd.children_end
    if sp ≠ nd.children_end then ⟨sp, nd.children_end⟩ :: hist else hist
  else hist

/-- The `while (1)` loop shared by overlaps_within.hpp:147-195,
overlaps_equal.hpp:196-254 and overlaps_end.hpp:186-241 (no `skip_search`). -/
def walkPlain (subject : Nclist) (ffc : Nat → Nat → Nat) (isFin : Int → Bool)
    (process : Nat → List Nat → StepRes) :
    Nat → Nat → List PFrame → List Nat → List Nat
  | 0, _, _, m => m
  | fuel + 1, rootAt, hist, m =>
    match hist with
    | [] =>
      if rootAt = subject.root_children ∨ isFin (subject.starts.getD rootAt 0) then m
      else
        match process rootAt m with
        | .halt m2 => m2
        | .go m2 descend =>
          let nd := subject.nodes.getD rootAt default
          walkPlain subject ffc isFin process fuel (rootAt + 1)
            (if descend then pushChildP ffc nd [] else []) m2
    | fr :: rest =>
      if fr.childAt = fr.childEnd ∨ isFin (subject.starts.getD fr.childAt 0) then
        walkPlain subject ffc isFin process fuel rootAt rest m
      else
        match process fr.childAt m with
        | .halt m2 => m2
        | .go m2 descend =>
          let nd := subject.nodes.getD fr.childAt default
          let hist2 := ({ fr with childAt := fr.childAt + 1 } : PFrame) :: rest
          walkPlain subject ffc isFin process fuel rootAt
            (if descend then pushChildP ffc nd hist2 else hist2) m2

/-- The fuel passed to every query walk; provably sufficient on any index
produced by `build`. -/
def walkFuel (subject : Nclist) : Nat :=
  3 * subject.nodes.length + 3

/-! ### overlaps_any (src/include/nclist/overlaps_any.hpp) -/

/-- Mirror of `OverlapsAnyParameters` (overlaps_any.hpp:48-69). -/
structure OverlapsAnyParameters where
  max_gap : Option Int := none
  min_overlap : Int := 0
  quit_on_first : Bool := false

/-- Mirror of the mode enum of overlaps_any.hpp:100. -/
inductive OverlapsAnyMode where
  | BASIC
  | MIN_OVERLAP
  | MAX_GAP
  deriving DecidableEq

/-- Mirror of `nclist::overlaps_any` (overlaps_any.hpp:87-267).  `pmax` stands
for `std::numeric_limits<Position_>::max()`; the returned list is the contents
of the out-parameter `matches`. -/
def overlaps_any (pmax : Int) (subject : Nclist) (query_start query_end : Int)
    (params : OverlapsAnyParameters) : List Nat :=
  if subject.root_children = 0 then []
  else
    let mode : OverlapsAnyMode :=
      if params.min_overlap > 0 then .MIN_OVERLAP
      else if params.max_gap.isSome then .MAX_GAP
      else .BASIC
    if mode = .MIN_OVERLAP ∧ query_end - query_start < params.min_overlap then []
    else if mode = .MIN_OVERLAP ∧ pmax - params.min_overlap < query_start then []
    else
      let effective_query_start : Int :=
        match mode with
        | .BASIC => pmax
        | .MAX_GAP => safe_subtract_gap query_start (params.max_gap.getD 0)
        | .MIN_OVERLAP => query_start + params.min_overlap
      let ffc : Nat → Nat → Nat := fun cs ce =>
        match mode with
        | .BASIC => upperBound subject.ends cs ce query_start
        | _ => lowerBound subject.ends cs ce effective_query_start
      let canSkip : Int → Bool := fun s =>
        match mode with
        | .BASIC => s > query_start
        | _ => s ≥ effective_query_start
      let isFin : Int → Bool := fun s =>
        match mode with
        | .BASIC => s ≥ query_end
        | .MAX_GAP => if s < query_end then false else s - query_end > params.max_gap.getD 0
        | .MIN_OVERLAP => if s ≥ query_end then true else query_end - s < params.min_overlap
      let process : Nat → List Nat → StepRes := fun p m =>
        let nd := subject.nodes.getD p default
        if mode = .MIN_OVERLAP ∧
            min query_end (subject.ends.getD p 0) - max query_start (subject.starts.getD p 0)
              < params.min_overlap then
          .go m false
        else
          let m1 := m ++ [nd.id]
          if params.quit_on_first then .halt m1
          else .go (m1 ++ dupSlice subject nd) true
      let rootSkip := canSkip (subject.starts.getD 0 0)
      let rootAt := if rootSkip then 0 else ffc 0 subject.root_children
      walkSkip subject ffc canSkip isFin process (walkFuel subject) rootAt rootSkip [] []

/-! ### overlaps_within (src/include/nclist/overlaps_within.hpp) -/

/-- Mirror of `OverlapsWithinParameters` (overlaps_within.hpp:45-64). -/
structure OverlapsWithinParameters where
  max_gap : Option Int := none
  min_overlap : Int := 0
  quit_on_first : Bool := false

/-- Mirror of `nclist::overlaps_within` (overlaps_within.hpp:82-196). -/
def overlaps_within (subject : Nclist) (query_start query_end : Int)
    (params : OverlapsWithinParameters) : List Nat :=
  if subject.root_children = 0 then []
  else
    let query_width := query_end - query_start
    if params.min_overlap > 0 ∧ query_width < params.min_overlap then []
    else
      let ffc : Nat → Nat → Nat := fun cs ce => lowerBound subject.ends cs ce query_end
      let isFin : Int → Bool := fun s => s > query_start
      let process : Nat → List Nat → StepRes := fun p m =>
        let nd := subject.nodes.getD p default
        let add_self : Bool :=
          match params.max_gap with
          | some g =>
            ¬((subject.ends.getD p 0 - subject.starts.getD p 0) - query_width > g)
          | none => true
        if add_self then
          let m1 := m ++ [nd.id]
          if params.quit_on_first then .halt m1
          else .go (m1 ++ dupSlice subject nd) true
        else .go m true
      walkPlain subject ffc isFin process (walkFuel subject)
        (ffc 0 subject.root_children) [] []

/-! ### overlaps_equal (src/include/nclist/overlaps_equal.hpp) -/

/-- Mirror of `OverlapsEqualParameters` (overlaps_equal.hpp:45-63); here
`max_gap` is a plain position, not optional. -/
structure OverlapsEqualParameters where
  max_gap : Int := 0
  min_overlap : Int := 0
  quit_on_first : Bool := false

/-- Mirror of `nclist::overlaps_equal` (overlaps_equal.hpp:84-255). -/
def overlaps_equal (subject : Nclist) (query_start query_end : Int)
    (params : OverlapsEqualParameters) : List Nat :=
  if subject.root_children = 0 then []
  else if params.min_overlap > 0 ∧ query_end - query_start < params.min_overlap then []
  else
    let effective_query_end : Int :=
      if params.max_gap > 0 then safe_subtract_gap query_end params.max_gap else query_end
    let ffc : Nat → Nat → Nat := fun cs ce => lowerBound subject.ends cs ce effective_query_end
    let isFin : Int → Bool := fun s =>
      if s > query_start then
        if params.max_gap > 0 then
          if s - query_start > params.max_gap then true
          else if params.min_overlap > 0 ∧ (s ≥ query_end ∨ query_end - s < params.min_overlap) then true
          else false
        else true
      else if params.min_overlap > 0 ∧ query_end - s < params.min_overlap then true
      else false
    let process : Nat → List Nat → StepRes := fun p m =>
      let nd := subject.nodes.getD p default
      let ss := subject.starts.getD p 0
      let se := subject.ends.getD p 0
      if params.min_overlap > 0 ∧
          (min se query_end ≤ max ss query_start ∨
            min se query_end - max ss query_start < params.min_overlap) then
        .go m false
      else
        let okay : Bool :=
          if params.max_gap > 0 then
            ¬ diff_above_gap query_start ss params.max_gap ∧
              ¬ diff_above_gap query_end se params.max_gap
          else ss = query_start ∧ se = query_end
        if okay then
          let m1 := m ++ [nd.id]
          if params.quit_on_first then .halt m1
          else
            let m2 := m1 ++ dupSlice subject nd
            if params.max_gap = 0 then .halt m2 else .go m2 true
        else .go m true
    walkPlain subject ffc isFin process (walkFuel subject)
      (ffc 0 subject.root_children) [] []

/-! ### overlaps_start (src/include/nclist/overlaps_start.hpp) -/

/-- Mirror of `OverlapsStartParameters` (overlaps_start.hpp:48-66). -/
structure OverlapsStartParameters where
  max_gap : Int := 0
  min_overlap : Int := 0
  quit_on_first : Bool := false

/-- Mirror of `nclist::overlaps_start` (overlaps_start.hpp:84-281). -/
def overlaps_start (pmax : Int) (subject : Nclist) (query_start query_end : Int)
    (params : OverlapsStartParameters) : List Nat :=
  if subject.root_children = 0 then []
  else if params.min_overlap > 0 ∧ query_end - query_start < params.min_overlap then []
  else if params.min_overlap > 0 ∧ pmax - params.min_overlap < query_start then []
  else
    let effective_query_start : Int :=
      if params.min_overlap > 0 then query_start + params.min_overlap
      else if params.max_gap > 0 then safe_subtract_gap query_start params.max_gap
      else query_start
    let is_simple : Bool := ¬(params.min_overlap > 0) ∧ ¬(params.max_gap > 0)
    let ffc : Nat → Nat → Nat := fun cs ce => lowerBound subject.ends cs ce effective_query_start
    let canSkip : Int → Bool := fun s => s ≥ effective_query_start
    let isFin : Int → Bool := fun s =>
      if s > query_start then
        if params.max_gap = 0 then true
        else if s - query_start > params.max_gap then true
        else if params.min_overlap > 0 ∧ (s ≥ query_end ∨ query_end - s < params.min_overlap) then true
        else false
      else if params.min_overlap > 0 ∧ query_end - s < params.min_overlap then true
      else false
    let process : Nat → List Nat → StepRes := fun p m =>
      let nd := subject.nodes.getD p default
      let ss := subject.starts.getD p 0
      let se := subject.ends.getD p 0
      let check : Option Bool :=
        if is_simple then some (ss = query_start)
        else if params.min_overlap > 0 ∧
            (min se query_end ≤ max ss query_start ∨
              min se query_end - max ss query_start < params.min_overlap) then none
        else some (if params.max_gap > 0 then ¬ diff_above_gap query_start ss params.max_gap
          else ss = query_start)
      match check with
      | none => .go m false
      | some okay =>
        if okay then
          let m1 := m ++ [nd.id]
          if params.quit_on_first then .halt m1
          else .go (m1 ++ dupSlice subject nd) true
        else .go m true
    let rootSkip := canSkip (subject.starts.getD 0 0)
    let rootAt := if rootSkip then 0 else ffc 0 subject.root_children
    walkSkip subject ffc canSkip isFin process (walkFuel subject) rootAt rootSkip [] []

/-! ### overlaps_end (src/include/nclist/overlaps_end.hpp) -/

/-- Mirror of `OverlapsEndParameters` (overlaps_end.hpp). -/
structure OverlapsEndParameters where
  max_gap : Int := 0
  min_overlap : Int := 0
  quit_on_first : Bool := false

/-- Mirror of `nclist::overlaps_end` (overlaps_end.hpp:83-242). -/
def overlaps_end (subject : Nclist) (query_start query_end : Int)
    (params : OverlapsEndParameters) : List Nat :=
  if subject.root_children = 0 then []
  else if params.min_overlap > 0 ∧ query_end - query_start < params.min_overlap then []
  else
    let effective_query_end : Int :=
      if params.max_gap > 0 then safe_subtract_gap query_end params.max_gap else query_end
    let ffc : Nat → Nat → Nat := fun cs ce => lowerBound subject.ends cs ce effective_query_end
    let isFin : Int → Bool := fun s =>
      if s > query_end then
        if params.max_gap = 0 then true
        else if params.min_overlap > 0 then true
        else if s - query_end > params.max_gap then true
        else false
      else if params.min_overlap > 0 ∧ query_end - s < params.min_overlap then true
      else false
    let process : Nat → List Nat → StepRes := fun p m =>
      let nd := subject.nodes.getD p default
      let ss := subject.starts.getD p 0
      let se := subject.ends.getD p 0
      if params.min_overlap > 0 ∧
          (min se query_end ≤ max ss query_start ∨
            min se query_end - max ss query_start < params.min_overlap) then
        .go m false
      else
        let okay : Bool :=
          if params.max_gap = 0 then se = query_end
          else ¬ diff_above_gap query_end se params.max_gap
        if okay then
          let m1 := m ++ [nd.id]
          if params.quit_on_first then .halt m1
          else .go (m1 ++ dupSlice subject nd) true
        else .go m true
    walkPlain subject ffc isFin process (walkFuel subject)
      (ffc 0 subject.root_children) [] []

/-! ### overlaps_extend (src/include/nclist/overlaps_extend.hpp) -/

/-- Mirror of `OverlapsExtendParameters` (overlaps_extend.hpp:47-66). -/
structure OverlapsExtendParameters where
  max_gap : Option Int := none
  min_overlap : Int := 0
  quit_on_first : Bool := false

/-- Mirror of `nclist::overlaps_extend` (overlaps_extend.hpp:85-247). -/
def overlaps_extend (pmax : Int) (subject : Nclist) (query_start query_end : Int)
    (params : OverlapsExtendParameters) : List Nat :=
  if subject.root_children = 0 then []
  else
    let query_width := query_end - query_start
    if params.min_overlap > 0 ∧ query_width < params.min_overlap then []
    else if params.min_overlap > 0 ∧ pmax - params.min_overlap < query_start then []
    else
      let effective_query_start : Int :=
        if params.min_overlap > 0 then query_start + params.min_overlap else query_start
      let ffc : Nat → Nat → Nat := fun cs ce => lowerBound subject.ends cs ce effective_query_start
      let canSkip : Int → Bool := fun s => s ≥ effective_query_start
      let isFin : Int → Bool := fun s =>
        if params.min_overlap > 0 then
          if s ≥ query_end then true else query_end - s < params.min_overlap
        else s > query_end
      let process : Nat → List Nat → StepRes := fun p m =>
        let nd := subject.nodes.getD p default
        let ss := subject.starts.getD p 0
        let se := subject.ends.getD p 0
        let sw := se - ss
        if params.min_overlap > 0 ∧ sw < params.min_overlap then .go m false
        else if params.max_gap.isSome ∧ query_width - sw > params.max_gap.getD 0 then .go m false
        else if query_start ≤ ss ∧ query_end ≥ se then
          let m1 := m ++ [nd.id]
          if params.quit_on_first then .halt m1
          else .go (m1 ++ dupSlice subject nd) true
        else .go m true
      let rootSkip := canSkip (subject.starts.getD 0 0)
      let rootAt := if rootSkip then 0 else ffc 0 subject.root_children
      walkSkip subject ffc canSkip isFin process (walkFuel subject) rootAt rootSkip [] []

/-! ### nearest (src/include/nclist/nearest.hpp) -/

/-- Mirror of `NearestParameters` (nearest.hpp:47-61). -/
structure NearestParameters where
  quit_on_first : Bool := false
  adjacent_equals_overlap : Bool := false

/-- Mirror of `nclist::nearest_before` (nearest.hpp:66-92): collect the node
`root_index` and then the chain of last children whose end still equals
`end_position`.  The loop becomes a fuel recursion; `nodes.length + 1` fuel
suffices on any built index (the chain is strictly descending). -/
def nearest_before (subject : Nclist) : Nat → Nat → Int → Bool → List Nat → List Nat
  | 0, _, _, _, m => m
  | fuel + 1, cur, end_position, quit_on_first, m =>
    let nd := subject.nodes.getD cur default
    let m1 := m ++ [nd.id]
    if quit_on_first then m1
    else
      let m2 := m1 ++ dupSlice subject nd
      if nd.children_start = nd.children_end then m2
      else
        let nxt := nd.children_end - 1
        if subject.ends.getD nxt 0 ≠ end_position then m2
        else nearest_before subject fuel nxt end_position quit_on_first m2

/-- Mirror of `nclist::nearest_after` (nearest.hpp:94-120): collect the node
`root_index` and then the chain of first children whose start still equals
`start_position`. -/
def nearest_after (subject : Nclist) : Nat → Nat → Int → Bool → List Nat → List Nat
  | 0, _, _, _, m => m
  | fuel + 1, cur, start_position, quit_on_first, m =>
    let nd := subject.nodes.getD cur default
    let m1 := m ++ [nd.id]
    if quit_on_first then m1
    else
      let m2 := m1 ++ dupSlice subject nd
      if nd.children_start = nd.children_end then m2
      else
        let nxt := nd.children_start
        if subject.starts.getD nxt 0 ≠ start_position then m2
        else nearest_after subject fuel nxt start_position quit_on_first m2

/-- The `while (1)` loop of `nclist::nearest_overlaps` (nearest.hpp:197-268),
including the `adjacent_equals_overlap` hooks; returns the matches and the
final `root_child_at`. -/
def nearestLoop (subject : Nclist) (query_start query_end : Int)
    (quit_on_first adjacent : Bool) :
    Nat → Nat → Bool → List Frame → List Nat → List Nat × Nat
  | 0, rootAt, _, _, m => (m, rootAt)
  | fuel + 1, rootAt, rootSkip, hist, m =>
    let ffc : Nat → Nat → Nat := fun cs ce => upperBound subject.ends cs ce query_start
    let canSkip : Int → Bool := fun s => s > query_start
    let isFin : Int → Bool := fun s => s ≥ query_end
    match hist with
    | [] =>
      if rootAt = subject.root_children then (m, rootAt)
      else
        let next_start := subject.starts.getD rootAt 0
        if isFin next_start then
          if adjacent ∧ next_start = query_end then
            (nearest_after subject (subject.nodes.length + 1) rootAt query_end quit_on_first m, rootAt)
          else (m, rootAt)
        else
          let nd := subject.nodes.getD rootAt default
          let m1 := m ++ [nd.id]
          if quit_on_first then (m1, rootAt + 1)
          else
            let m2 := m1 ++ dupSlice subject nd
            let hist2 : List Frame :=
              if nd.children_start ≠ nd.children_end then
                if rootSkip then [⟨nd.children_start, nd.children_end, true⟩]
                else
                  let sp := ffc nd.children_start nd.children_end
                  if sp ≠ nd.children_end then [⟨sp, nd.children_end, canSkip (subject.starts.getD sp 0)⟩]
                  else []
              else []
            let m3 :=
              if nd.children_start ≠ nd.children_end ∧ ¬rootSkip then
                let sp := ffc nd.children_start nd.children_end
                if adjacent ∧ sp > nd.children_start ∧
                    query_start = subject.ends.getD (sp - 1) 0 then
                  nearest_before subject (subject.nodes.length + 1) (sp - 1) query_start false m2
                else m2
              else m2
            nearestLoop subject query_start query_end quit_on_first adjacent fuel
              (rootAt + 1) rootSkip hist2 m3
    | fr :: rest =>
      if fr.childAt = fr.childEnd then
        nearestLoop subject query_start query_end quit_on_first adjacent fuel rootAt rootSkip rest m
      else
        let next_start := subject.starts.getD fr.childAt 0
        if isFin next_start then
          let m2 :=
            if adjacent ∧ next_start = query_end then
              nearest_after subject (subject.nodes.length + 1) fr.childAt query_end false m
            else m
          nearestLoop subject query_start query_end quit_on_first adjacent fuel rootAt rootSkip rest m2
        else
          let p := fr.childAt
          let nd := subject.nodes.getD p default
          let m1 := m ++ [nd.id]
          if quit_on_first then (m1, rootAt)
          else
            let m2 := m1 ++ dupSlice subject nd
            let hist2 := { fr with childAt := fr.childAt + 1 } :: rest
            let hist3 : List Frame :=
              if nd.children_start ≠ nd.children_end then
                if fr.skip then ⟨nd.children_start, nd.children_end, true⟩ :: hist2
                else
                  let sp := ffc nd.children_start nd.children_end
                  if sp ≠ nd.children_end then
                    ⟨sp, nd.children_end, canSkip (subject.starts.getD sp 0)⟩ :: hist2
                  else hist2
              else hist2
            let m3 :=
              if nd.children_start ≠ nd.children_end ∧ ¬fr.skip then
                let sp := ffc nd.children_start nd.children_end
                if adjacent ∧ sp > nd.children_start ∧
                    query_start = subject.ends.getD (sp - 1) 0 then
                  nearest_before subject (subject.nodes.length + 1) (sp - 1) query_start false m2
                else m2
              else m2
            nearestLoop subject query_start query_end quit_on_first adjacent fuel
              rootAt rootSkip hist3 m3

/-- Mirror of `nclist::nearest_overlaps` (nearest.hpp:122-271): seed the
root cursor (with the `adjacent_equals_overlap` backtrack on the root slice)
and run the loop.  Returns the matches and the final `root_child_at`. -/
def nearest_overlaps (subject : Nclist) (query_start query_end : Int)
    (quit_on_first adjacent : Bool) : List Nat × Nat :=
  let ffc : Nat → Nat → Nat := fun cs ce => upperBound subject.ends cs ce query_start
  let canSkip : Int → Bool := fun s => s > query_start
  let rootSkip := canSkip (subject.starts.getD 0 0)
  let rootAt := if rootSkip then 0 else ffc 0 subject.root_children
  let m0 : List Nat :=
    if ¬rootSkip ∧ adjacent ∧ rootAt > 0 ∧ query_start = subject.ends.getD (rootAt - 1) 0 then
      nearest_before subject (subject.nodes.length + 1) (rootAt - 1) query_start quit_on_first []
    else []
  if quit_on_first ∧ m0 ≠ [] then (m0, rootAt)
  else nearestLoop subject query_start query_end quit_on_first adjacent
    (walkFuel subject) rootAt rootSkip [] m0

/-- Mirror of `nclist::nearest` (nearest.hpp:299-375). -/
def nearest (subject : Nclist) (query_start query_end : Int)
    (params : NearestParameters) : List Nat :=
  if subject.root_children = 0 then []
  else
    let ov := nearest_overlaps subject query_start query_end
      params.quit_on_first params.adjacent_equals_overlap
    if ov.1 ≠ [] then ov.1
    else
      let root_index := ov.2
      let to_previous : Option Int :=
        if root_index ≠ 0 then some (query_start - subject.ends.getD (root_index - 1) 0) else none
      let to_next : Option Int :=
        if root_index < subject.root_children then
          some (subject.starts.getD root_index 0 - query_end)
        else none
      let m1 : List Nat :=
        if to_previous.isSome ∧ (¬to_next.isSome ∨ to_previous.getD 0 ≤ to_next.getD 0) then
          nearest_before subject (subject.nodes.length + 1) (root_index - 1)
            (subject.ends.getD (root_index - 1) 0) params.quit_on_first []
        else []
      if m1 ≠ [] ∧ params.quit_on_first then m1
      else
        if to_next.isSome ∧ (¬to_previous.isSome ∨ to_next.getD 0 ≤ to_previous.getD 0) then
          nearest_after subject (subject.nodes.length + 1) root_index
            (subject.starts.getD root_index 0) params.quit_on_first m1
        else m1



/-! ## Spec-side vocabulary -/

/-- The intervals handed to `build` are valid: `start ≤ end` for each. -/
def ValidIntervals (starts ends : List Int) : Prop :=
  starts.length = ends.length ∧
    ∀ i < starts.length, starts.getD i 0 ≤ ends.getD i 0

/-- The nearest-query distance metric of the specification:
`gap = max(0, s_start − q_end) + max(0, q_start − s_end)`. -/
def gapMetric (ss se qs qe : Int) : Int :=
  max 0 (ss - qe) + max 0 (qs - se)

/-! ## Claim C7: short queries under `min_overlap` -/

/-- C7: for each of the six overlap query kinds, if `min_overlap > 0` and
`q_end - q_start < min_overlap`, the query returns an empty matches vector. -/
theorem overlaps_empty_when_query_shorter_than_min_overlap
    (pmax : Int) (subject : Nclist) (qs qe mo : Int)
    (mg1 mg2 mg3 : Option Int) (g1 g2 g3 : Int) (q1 q2 q3 q4 q5 q6 : Bool)
    (hmo : 0 < mo) (hshort : qe - qs < mo) :
    overlaps_any pmax subject qs qe ⟨mg1, mo, q1⟩ = [] ∧
    overlaps_within subject qs qe ⟨mg2, mo, q2⟩ = [] ∧
    overlaps_equal subject qs qe ⟨g1, mo, q3⟩ = [] ∧
    overlaps_start pmax subject qs qe ⟨g2, mo, q4⟩ = [] ∧
    overlaps_end subject qs qe ⟨g3, mo, q5⟩ = [] ∧
    overlaps_extend pmax subject qs qe ⟨mg3, mo, q6⟩ = [] := by
  refine ⟨?_, ?_, ?_, ?_, ?_, ?_⟩ <;>
    simp [overlaps_any, overlaps_within, overlaps_equal, overlaps_start,
      overlaps_end, overlaps_extend, hmo, hshort]

/-- Witness for C7 at a concrete input. -/
theorem overlaps_empty_when_query_shorter_than_min_overlap_witness :
    overlaps_any 2147483647 (build [0] [10]) 3 5 ⟨none, 4, false⟩ = [] ∧
    overlaps_within (build [0] [10]) 3 5 ⟨none, 4, false⟩ = [] ∧
    overlaps_equal (build [0] [10]) 3 5 ⟨0, 4, false⟩ = [] ∧
    overlaps_start 2147483647 (build [0] [10]) 3 5 ⟨0, 4, false⟩ = [] ∧
    overlaps_end (build [0] [10]) 3 5 ⟨0, 4, false⟩ = [] ∧
    overlaps_extend 2147483647 (build [0] [10]) 3 5 ⟨none, 4, false⟩ = [] :=
  overlaps_empty_when_query_shorter_than_min_overlap 2147483647 (build [0] [10])
    3 5 4 none none none 0 0 0 false false false false false false
    (by decide) (by decide)

/-! ## Claim C8: overflow guard on the effective query start -/

/-- C8: for `overlaps_any`, `overlaps_start` and `overlaps_extend` with
`min_overlap > 0`, if `q_start + min_overlap` would exceed the maximum value
`pmax` of the position type, the query returns an empty matches vector (the
guard fires before the addition `query_start + min_overlap` is formed). -/
theorem overlaps_empty_on_effective_start_overflow
    (pmax : Int) (subject : Nclist) (qs qe mo : Int)
    (mg1 mg3 : Option Int) (g2 : Int) (q1 q4 q6 : Bool)
    (hmo : 0 < mo) (hover : pmax - mo < qs) :
    overlaps_any pmax subject qs qe ⟨mg1, mo, q1⟩ = [] ∧
    overlaps_start pmax subject qs qe ⟨g2, mo, q4⟩ = [] ∧
    overlaps_extend pmax subject qs qe ⟨mg3, mo, q6⟩ = [] := by
  refine ⟨?_, ?_, ?_⟩ <;>
    simp [overlaps_any, overlaps_start, overlaps_extend, hmo, hover]

/-- Witness for C8 at a concrete input. -/
theorem overlaps_empty_on_effective_start_overflow_witness :
    overlaps_any 100 (build [90] [99]) 95 200 ⟨none, 10, false⟩ = [] ∧
    overlaps_start 100 (build [90] [99]) 95 200 ⟨0, 10, false⟩ = [] ∧
    overlaps_extend 100 (build [90] [99]) 95 200 ⟨none, 10, false⟩ = [] :=
  overlaps_empty_on_effective_start_overflow 100 (build [90] [99]) 95 200 10
    none none 0 false false false (by decide) (by decide)

/-! ## Claim C10: `max_gap` is ignored when `min_overlap` is set -/

/-- C10: in `overlaps_any`, when `min_overlap > 0` and `max_gap` also holds a
value, `max_gap` is ignored: the matches are identical to those produced with
the same `min_overlap` and `max_gap` unset, for every index and query. -/
theorem overlaps_any_max_gap_ignored_when_min_overlap
    (pmax : Int) (subject : Nclist) (qs qe mo g : Int) (q : Bool)
    (hmo : 0 < mo) :
    overlaps_any pmax subject qs qe ⟨some g, mo, q⟩ =
      overlaps_any pmax subject qs qe ⟨none, mo, q⟩ := by
  simp [overlaps_any, hmo]

/-- Witness for C10 at a concrete input. -/
theorem overlaps_any_max_gap_ignored_when_min_overlap_witness :
    overlaps_any 2147483647 (build [0, 10] [5, 20]) 3 12 ⟨some 50, 2, false⟩ =
      overlaps_any 2147483647 (build [0, 10] [5, 20]) 3 12 ⟨none, 2, false⟩ :=
  overlaps_any_max_gap_ignored_when_min_overlap 2147483647 (build [0, 10] [5, 20])
    3 12 2 50 false (by decide)

/-! ## Claim C5 (counterexample): inverted queries are not always empty -/

/-- C5 counterexample: over the single valid subject interval `[0, 10)` the
inverted query `(5, 3)` (so `q_end < q_start`) makes `overlaps_any` with
default parameters report subject 0, not an empty vector. -/
theorem overlaps_any_nonempty_on_inverted_query :
    (3 : Int) < 5 ∧ (0 : Int) ≤ 10 ∧
    overlaps_any 2147483647 (build [0] [10]) 5 3 ⟨none, 0, false⟩ = [0] := by
  decide

/-! ## Claim C6 (counterexample): zero-width `within` reports equal-end subjects -/

/-- C6 counterexample: the zero-width query `(5, 5)` against the single
subject `[0, 5)` makes `overlaps_within` with default parameters report
subject 0, whose end position equals `q_end`. -/
theorem overlaps_within_reports_end_equal_on_zero_width :
    overlaps_within (build [0] [5]) 5 5 ⟨none, 0, false⟩ = [0] ∧
    ([5] : List Int).getD 0 0 = 5 := by
  decide

/-! ## Claim C4 (counterexample): `nearest` misses adjacent gap-0 ties -/

/-- C4 counterexample: over subjects `[0, 5)` and `[6, 7)` with query
`(5, 8)`, both subjects have `gap = 0` under the metric
`max(0, s_start − q_end) + max(0, q_start − s_end)` (subject 0 is adjacent,
subject 1 overlaps), yet `nearest` with `quit_on_first = false` and
`adjacent_equals_overlap = false` reports only subject 1. -/
theorem nearest_misses_adjacent_gap_zero_tie :
    nearest (build [0, 6] [5, 7]) 5 8 ⟨false, false⟩ = [1] ∧
    gapMetric 0 5 5 8 = 0 ∧ gapMetric 6 7 5 8 = 0 := by
  decide

/-! ## Claim C9 (counterexample): outputs are not literally sort-invariant -/

/-- C9 counterexample: permuting the input intervals permutes the subject
indices, so the same query on the two builds returns different index sets:
subjects `[(0,10), (20,30)]` versus the swapped `[(20,30), (0,10)]` under the
query `(0, 5)` give sorted outputs `[0]` and `[1]`. -/
theorem query_output_not_sort_invariant :
    (overlaps_any 2147483647 (build [0, 20] [10, 30]) 0 5 ⟨none, 0, false⟩).insertionSort (· ≤ ·) = [0] ∧
    (overlaps_any 2147483647 (build [20, 0] [30, 10]) 0 5 ⟨none, 0, false⟩).insertionSort (· ≤ ·) = [1] := by
  decide


/-! ## Structural facts about the build -/

/-- Start bound of a working-tree node. -/
def IvlTree.s : IvlTree → Int
  | .node _ s _ _ _ => s

/-- End bound of a working-tree node. -/
def IvlTree.e : IvlTree → Int
  | .node _ _ e _ _ => e

/-- Subject id of a working-tree node. -/
def IvlTree.id : IvlTree → Nat
  | .node i _ _ _ _ => i

/-- Duplicate ids of a working-tree node. -/
def IvlTree.dups : IvlTree → List Nat
  | .node _ _ _ d _ => d

/-- Children of a working-tree node. -/
def IvlTree.children : IvlTree → List IvlTree
  | .node _ _ _ _ c => c

mutual

/-- All subject ids in a working tree (own id, duplicates, descendants). -/
def idsT : IvlTree → List Nat
  | .node i _ _ d c => i :: (d ++ idsF c)
  termination_by structural t => t

/-- All subject ids in a working forest. -/
def idsF : List IvlTree → List Nat
  | [] => []
  | t :: ts => idsT t ++ idsF ts
  termination_by structural ts => ts

end

/-- All subject ids recorded in an open stack frame. -/
def idsO (f : OpenFrame) : List Nat :=
  f.id :: (f.dups ++ idsF f.kids)

/-- All subject ids recorded in a build state. -/
def idsState (st : BuildState) : List Nat :=
  st.stack.flatMap idsO ++ idsF st.roots

theorem idsT_closeFrame (f : OpenFrame) : idsT (closeFrame f) = idsO f := by
  simp [closeFrame, idsT, idsO]

theorem idsF_append (a b : List IvlTree) : idsF (a ++ b) = idsF a ++ idsF b := by
  induction a with
  | nil => simp [idsF]
  | cons t ts ih => simp [idsF, ih]

theorem popInto_ids (curend : Int) (t : IvlTree) (stack : List OpenFrame)
    (roots : List IvlTree) :
    ((popInto curend t stack roots).1.flatMap idsO ++
      idsF (popInto curend t stack roots).2).Perm
      (idsT t ++ (stack.flatMap idsO ++ idsF roots)) := by
  induction stack generalizing t roots with
  | nil =>
    simp only [popInto, List.flatMap_nil, idsF_append, idsF, List.nil_append, List.append_nil]
    rw [← Multiset.coe_eq_coe]
    simp only [← Multiset.coe_add, ← Multiset.cons_coe, ← Multiset.singleton_add]
    abel
  | cons g rest ih =>
    simp only [popInto]
    split
    · refine (ih _ _).trans ?_
      simp only [idsT_closeFrame, idsO, idsF_append, idsF, List.flatMap_cons]
      rw [← Multiset.coe_eq_coe]
      simp only [← Multiset.coe_add, ← Multiset.cons_coe, ← Multiset.singleton_add,
        List.append_nil]
      abel
    · simp only [List.flatMap_cons, idsO, idsF_append, idsF]
      rw [← Multiset.coe_eq_coe]
      simp only [← Multiset.coe_add, ← Multiset.cons_coe, ← Multiset.singleton_add,
        List.append_nil]
      abel


theorem popAttach_ids (curend : Int) (stack : List OpenFrame) (roots : List IvlTree) :
    ((popAttach curend stack roots).1.flatMap idsO ++
      idsF (popAttach curend stack roots).2).Perm
      (stack.flatMap idsO ++ idsF roots) := by
  cases stack with
  | nil => simp [popAttach]
  | cons f rest =>
    simp only [popAttach]
    split
    · refine (popInto_ids _ _ _ _).trans ?_
      simp only [idsT_closeFrame, List.flatMap_cons, List.append_assoc]
      exact List.Perm.refl _
    · exact List.Perm.refl _

theorem popAllInto_ids (t : IvlTree) (stack : List OpenFrame) (roots : List IvlTree) :
    (idsF (popAllInto t stack roots)).Perm
      (idsT t ++ (stack.flatMap idsO ++ idsF roots)) := by
  induction stack generalizing t roots with
  | nil =>
    simp only [popAllInto, List.flatMap_nil, idsF_append, idsF, List.nil_append, List.append_nil]
    rw [← Multiset.coe_eq_coe]
    simp only [← Multiset.coe_add, ← Multiset.cons_coe, ← Multiset.singleton_add]
    abel
  | cons g rest ih =>
    simp only [popAllInto]
    refine (ih _ _).trans ?_
    simp only [idsT_closeFrame, idsO, idsF_append, idsF, List.flatMap_cons]
    rw [← Multiset.coe_eq_coe]
    simp only [← Multiset.coe_add, ← Multiset.cons_coe, ← Multiset.singleton_add,
      List.append_nil]
    abel

theorem popAll_ids (stack : List OpenFrame) (roots : List IvlTree) :
    (idsF (popAll stack roots)).Perm (stack.flatMap idsO ++ idsF roots) := by
  cases stack with
  | nil => simp [popAll]
  | cons f rest =>
    simp only [popAll]
    refine (popAllInto_ids _ _ _).trans ?_
    simp only [idsT_closeFrame, List.flatMap_cons, List.append_assoc]
    exact List.Perm.refl _

theorem buildStep_ids (starts ends : List Int) (st : BuildState) (curid : Nat) :
    (idsState (buildStep starts ends st curid)).Perm (curid :: idsState st) := by
  unfold buildStep
  cases hst : st.stack with
  | nil =>
    simp only [idsState, pushFrame, hst, List.flatMap_cons, List.flatMap_nil, idsO, idsF,
      List.append_nil, List.nil_append]
    exact List.Perm.refl _
  | cons f rest =>
    simp only
    split
    · have hp := popAttach_ids (ends.getD curid 0) (f :: rest) st.roots
      simp only [idsState, pushFrame, List.flatMap_cons, idsO, idsF, List.append_nil,
        List.nil_append, List.cons_append, hst] at hp ⊢
      exact (List.Perm.cons _ hp)
    · split
      · simp only [idsState, hst, List.flatMap_cons, idsO, idsF_append, idsF]
        rw [← Multiset.coe_eq_coe]
        simp only [← Multiset.coe_add, ← Multiset.cons_coe, ← Multiset.singleton_add,
          List.append_nil]
        abel
      · simp only [idsState, pushFrame, hst, List.flatMap_cons, idsO, idsF,
          List.append_nil, List.nil_append, List.cons_append]
        exact List.Perm.refl _

theorem foldl_buildStep_ids (starts ends : List Int) (l : List Nat) (st : BuildState) :
    (idsState (l.foldl (buildStep starts ends) st)).Perm (l.reverse ++ idsState st) := by
  induction l generalizing st with
  | nil => simp
  | cons x xs ih =>
    simp only [List.foldl_cons, List.reverse_cons, List.append_assoc]
    refine (ih _).trans ?_
    refine (List.Perm.append_left _ (buildStep_ids starts ends st x)).trans ?_
    exact List.Perm.of_eq (by simp)

theorem buildForest_ids (starts ends : List Int) :
    (idsF (buildForest starts ends)).Perm (List.range starts.length) := by
  unfold buildForest
  refine (popAll_ids _ _).trans ?_
  have h1 := foldl_buildStep_ids starts ends (buildOrder starts ends) ⟨[], [], 0⟩
  simp only [idsState] at h1 ⊢
  refine h1.trans ?_
  simp only [idsF, List.append_nil, List.flatMap_nil]
  refine (List.reverse_perm _).trans ?_
  exact (List.perm_insertionSort _ _)


/-- Subject-id group of an annotated node: own id then duplicates, the unit in
which every query function emits matches. -/
def grp (t : AnnTree) : List Nat :=
  t.info.id :: t.info.dups

mutual

theorem annTree_groups (t : IvlTree) :
    ∀ a d, (preT (annTree t a d).1).flatMap grp = idsT t := by
  match t with
  | .node i s e dups c =>
    intro a d
    simp only [annTree, preT, List.flatMap_cons, grp, AnnTree.info, idsT]
    rw [annList_groups c]
    simp
  termination_by structural t

theorem annList_groups (ts : List IvlTree) :
    ∀ a d, (preA (annList ts a d).1).flatMap grp = idsF ts := by
  match ts with
  | [] => intro a d; simp [annList, preA, idsF]
  | t :: rest =>
    intro a d
    simp only [annList, preA, List.flatMap_append, idsF]
    rw [annTree_groups t, annList_groups rest]
  termination_by structural ts

end


/-- The children slices allocated while emitting a forest, in allocation
order. -/
def blocks (ts : List AnnTree) : List AnnTree :=
  (preA ts).flatMap AnnTree.children

mutual

theorem preT_perm (t : AnnTree) :
    (preT t).Perm (t :: (preT t).flatMap AnnTree.children) := by
  match t with
  | .node i c =>
    have hc := preA_perm c
    simp only [preT, List.flatMap_cons, AnnTree.children]
    exact (List.Perm.cons _ hc)
  termination_by structural t

theorem preA_perm (ts : List AnnTree) :
    (preA ts).Perm (ts ++ (preA ts).flatMap AnnTree.children) := by
  match ts with
  | [] => simp [preA]
  | t :: rest =>
    have h1 := preT_perm t
    have h2 := preA_perm rest
    simp only [preA, List.flatMap_append]
    refine (List.Perm.append h1 h2).trans ?_
    rw [← Multiset.coe_eq_coe]
    simp only [← Multiset.coe_add, ← Multiset.cons_coe, ← Multiset.singleton_add]
    abel
  termination_by structural ts

end

theorem layoutA_perm (ts : List AnnTree) : (layoutA ts).Perm (preA ts) := by
  unfold layoutA
  exact (preA_perm ts).symm

theorem map_append_flatMap_perm {α β : Type} (g : α → β) (h : α → List β) (l : List α) :
    (l.map g ++ l.flatMap h).Perm (l.flatMap (fun x => g x :: h x)) := by
  induction l with
  | nil => simp
  | cons x xs ih =>
    simp only [List.map_cons, List.flatMap_cons, List.cons_append]
    refine List.Perm.cons _ ?_
    refine List.Perm.trans ?_ (List.Perm.append_left (h x) ih)
    rw [← Multiset.coe_eq_coe]
    simp only [← Multiset.coe_add, ← Multiset.cons_coe, ← Multiset.singleton_add]
    abel


/-! ## Claim C2: count preservation -/

theorem build_ids_perm (starts ends : List Int) :
    ((build starts ends).nodes.map NCNode.id ++ (build starts ends).duplicates).Perm
      (List.range starts.length) := by
  simp only [build, List.map_map]
  have h1 : ((layoutA (annForest starts ends)).map (NCNode.id ∘ toNCNode)).Perm
      ((preA (annForest starts ends)).map (NCNode.id ∘ toNCNode)) :=
    (layoutA_perm _).map _
  refine (List.Perm.append h1 (List.Perm.refl _)).trans ?_
  have h2 := map_append_flatMap_perm (fun t : AnnTree => t.info.id)
    (fun t : AnnTree => t.info.dups) (preA (annForest starts ends))
  refine List.Perm.trans ?_ ((annList_groups (buildForest starts ends)
    (buildForest starts ends).length 0) ▸ (buildForest_ids starts ends))
  show (((preA (annForest starts ends)).map (NCNode.id ∘ toNCNode) ++
      (preA (annForest starts ends)).flatMap fun t => t.info.dups)).Perm _
  have hmap : ((preA (annForest starts ends)).map (NCNode.id ∘ toNCNode)) =
      ((preA (annForest starts ends)).map fun t : AnnTree => t.info.id) := by
    simp [toNCNode, Function.comp]
  rw [hmap]
  unfold annForest
  exact map_append_flatMap_perm _ _ _

/-- C2: the built index has `nodes.size + duplicates.size = n`, and every
input subject index appears exactly once across the node ids and the
duplicates array (the concatenation is a permutation of `[0, n)`). -/
theorem build_count_preservation (starts ends : List Int)
    (h : ValidIntervals starts ends) :
    (build starts ends).nodes.length + (build starts ends).duplicates.length
        = starts.length ∧
    ((build starts ends).nodes.map NCNode.id ++ (build starts ends).duplicates).Perm
      (List.range starts.length) := by
  refine ⟨?_, build_ids_perm starts ends⟩
  have := (build_ids_perm starts ends).length_eq
  simpa using this

/-- Witness for C2 at a concrete input. -/
theorem build_count_preservation_witness :
    (build [5, 5, 1] [9, 9, 20]).nodes.length
        + (build [5, 5, 1] [9, 9, 20]).duplicates.length = 3 ∧
    ((build [5, 5, 1] [9, 9, 20]).nodes.map NCNode.id
        ++ (build [5, 5, 1] [9, 9, 20]).duplicates).Perm (List.range 3) := by
  have h := build_count_preservation [5, 5, 1] [9, 9, 20]
    (by constructor <;> decide)
  simpa using h


/-! ### Well-formedness of the working forest

The tree-building pass produces, for valid sorted input, a forest in which
every node's bounds come from the input arrays, duplicates have exactly the
node's bounds, children are strictly nested in their parent, and every sibling
list ascends in starts (weakly) and in ends (strictly). -/

/-- Strict nesting of a child tree in parent bounds `(ps, pe)`. -/
def Contains (ps pe : Int) (t : IvlTree) : Prop :=
  ps ≤ t.s ∧ t.e ≤ pe ∧ (ps < t.s ∨ t.e < pe)

/-- Sibling ordering: starts weakly ascending, ends strictly ascending. -/
def SChain (ts : List IvlTree) : Prop :=
  List.Chain' (fun a b => a.s ≤ b.s ∧ a.e < b.e) ts

mutual

/-- Well-formed working tree over the input arrays. -/
def WFT (starts ends : List Int) : IvlTree → Prop
  | .node i s e dups c =>
    i < starts.length ∧ s = starts.getD i 0 ∧ e = ends.getD i 0 ∧
    (∀ d ∈ dups, d < starts.length ∧ starts.getD d 0 = s ∧ ends.getD d 0 = e) ∧
    SChain c ∧ (∀ x ∈ c, Contains s e x) ∧ WFL starts ends c
  termination_by structural t => t

/-- Well-formed working forest over the input arrays. -/
def WFL (starts ends : List Int) : List IvlTree → Prop
  | [] => True
  | t :: ts => WFT starts ends t ∧ WFL starts ends ts
  termination_by structural ts => ts

end

theorem WFL_iff (starts ends : List Int) (ts : List IvlTree) :
    WFL starts ends ts ↔ ∀ t ∈ ts, WFT starts ends t := by
  induction ts with
  | nil => simp [WFL]
  | cons t rest ih => simp [WFL, ih]

theorem WFT_node (starts ends : List Int) (i : Nat) (s e : Int) (dups : List Nat)
    (c : List IvlTree) :
    WFT starts ends (.node i s e dups c) ↔
      (i < starts.length ∧ s = starts.getD i 0 ∧ e = ends.getD i 0 ∧
        (∀ d ∈ dups, d < starts.length ∧ starts.getD d 0 = s ∧ ends.getD d 0 = e) ∧
        SChain c ∧ (∀ x ∈ c, Contains s e x) ∧ WFL starts ends c) := by
  rw [WFT]

/-- Stack nesting relation (`f` directly above `g`): `f` strictly inside `g`. -/
def nestRel (f g : OpenFrame) : Prop :=
  g.s ≤ f.s ∧ f.e ≤ g.e ∧ (g.s < f.s ∨ f.e < g.e)

/-- Finished children of `g` all sit left of the frame `f` directly above. -/
def kidsRel (f g : OpenFrame) : Prop :=
  ∀ k ∈ g.kids, k.s ≤ f.s ∧ k.e < f.e

/-- The standing invariant of the tree-building pass at step boundaries. -/
structure StackOK (starts ends : List Int) (st : BuildState) : Prop where
  wf_stack : ∀ f ∈ st.stack, WFT starts ends (closeFrame f)
  wf_roots : WFL starts ends st.roots
  nest : List.Chain' nestRel st.stack
  kids_adj : List.Chain' kidsRel st.stack
  top_kids : ∀ f, st.stack.head? = some f → f.kids = []
  roots_chain : SChain st.roots
  roots_bot : ∀ r ∈ st.roots, ∀ f, st.stack.getLast? = some f → r.s ≤ f.s ∧ r.e < f.e
  empty_roots : st.stack = [] → st.roots = []
  last_top : ∀ f, st.stack.head? = some f → f.id = st.last_id

theorem closeFrame_s (f : OpenFrame) : (closeFrame f).s = f.s := rfl
theorem closeFrame_e (f : OpenFrame) : (closeFrame f).e = f.e := rfl


/-- Invariant preservation through the pop cascade `popInto`.  The parameters
`sx, ex` are the bounds of the interval whose arrival triggered the pops. -/
theorem popInto_ok (starts ends : List Int) (sx ex : Int) (t : IvlTree)
    (stack : List OpenFrame) (roots : List IvlTree)
    (hwt : WFT starts ends t)
    (htS : t.s ≤ sx) (htE : t.e < ex) (htK : t.s = sx → ex ≤ t.e)
    (hwf : ∀ f ∈ stack, WFT starts ends (closeFrame f))
    (hnest : List.Chain' nestRel stack)
    (hkadj : List.Chain' kidsRel stack)
    (hK : ∀ f ∈ stack, f.s ≤ sx ∧ (f.s = sx → ex ≤ f.e))
    (hB1 : ∀ g, stack.head? = some g → ∀ k ∈ g.kids, k.s ≤ t.s ∧ k.e < t.e)
    (hB2 : ∀ g, stack.head? = some g → Contains g.s g.e t)
    (hwroots : WFL starts ends roots)
    (hrchain : SChain roots)
    (hrbot : ∀ r ∈ roots, ∀ f, stack.getLast? = some f → r.s ≤ f.s ∧ r.e < f.e)
    (hrt : stack = [] → ∀ r ∈ roots, r.s ≤ t.s ∧ r.e < t.e) :
    (∀ f ∈ (popInto ex t stack roots).1, WFT starts ends (closeFrame f)) ∧
    List.Chain' nestRel (popInto ex t stack roots).1 ∧
    List.Chain' kidsRel (popInto ex t stack roots).1 ∧
    (∀ f ∈ (popInto ex t stack roots).1, f.s ≤ sx ∧ (f.s = sx → ex ≤ f.e)) ∧
    (∀ g, (popInto ex t stack roots).1.head? = some g →
      ¬(g.e < ex) ∧ (∀ k ∈ g.kids, k.s ≤ sx ∧ k.e < ex) ∧
        (g.s ≤ sx ∧ ex ≤ g.e ∧ (g.s < sx ∨ ex < g.e))) ∧
    WFL starts ends (popInto ex t stack roots).2 ∧
    SChain (popInto ex t stack roots).2 ∧
    (∀ r ∈ (popInto ex t stack roots).2, ∀ f,
      (popInto ex t stack roots).1.getLast? = some f → r.s ≤ f.s ∧ r.e < f.e) ∧
    ((popInto ex t stack roots).1 = [] →
      ∀ r ∈ (popInto ex t stack roots).2, r.s ≤ sx ∧ r.e < ex) ∧
    (∀ f2 ∈ (popInto ex t stack roots).1, ∃ f ∈ stack, f2.s = f.s ∧ f2.e = f.e) := by
  induction stack generalizing t roots with
  | nil =>
    simp only [popInto]
    refine ⟨?_, ?_, ?_, ?_, ?_, ?_, ?_, ?_, ?_, ?_⟩
    · intro f hf; simp at hf
    · simp
    · simp
    · intro f hf; simp at hf
    · intro g hg; simp at hg
    · rw [WFL_iff] at hwroots ⊢
      intro x hx
      rcases List.mem_append.1 hx with h | h
      · exact hwroots x h
      · simp at h; subst h; exact hwt
    · unfold SChain at hrchain ⊢
      refine List.Chain'.append hrchain (List.chain'_singleton _) ?_
      intro a ha b hb
      simp at hb; subst hb
      exact hrt rfl a (List.mem_of_mem_getLast? ha)
    · intro r hr f hf; simp at hf
    · intro _ r hr
      rcases List.mem_append.1 hr with h | h
      · rcases hrt rfl r h with ⟨h1, h2⟩
        exact ⟨le_trans h1 htS, lt_trans h2 htE⟩
      · simp at h; subst h; exact ⟨htS, htE⟩
    · intro f2 hf2; simp at hf2
  | cons g rest ih =>
    by_cases hge : g.e < ex
    · -- g is popped as well: recurse with the closed g (kids extended by t).
      have hstep : popInto ex t (g :: rest) roots =
          popInto ex (closeFrame { g with kids := g.kids ++ [t] }) rest roots := by
        simp only [popInto]
        rw [if_pos hge]
      rw [hstep]
      -- well-formedness of the closed frame
      have hwg := hwf g (by simp)
      have hwg2 : WFT starts ends (closeFrame { g with kids := g.kids ++ [t] }) := by
        simp only [closeFrame] at hwg ⊢
        rw [WFT_node] at hwg ⊢
        obtain ⟨h1, h2, h3, h4, h5, h6, h7⟩ := hwg
        refine ⟨h1, h2, h3, h4, ?_, ?_, ?_⟩
        · unfold SChain at h5 ⊢
          refine List.Chain'.append h5 (List.chain'_singleton _) ?_
          intro a ha b hb
          simp at hb; subst hb
          exact hB1 g (by simp) a (List.mem_of_mem_getLast? ha)
        · intro x hx
          rcases List.mem_append.1 hx with h | h
          · exact h6 x h
          · simp at h; subst h; exact hB2 g (by simp)
        · rw [WFL_iff] at h7 ⊢
          intro x hx
          rcases List.mem_append.1 hx with h | h
          · exact h7 x h
          · simp at h; subst h; exact hwt
      have hKg := hK g (by simp)
      have ihres := ih (closeFrame { g with kids := g.kids ++ [t] })
        roots hwg2 hKg.1 hge hKg.2
        (fun f hf => hwf f (by simp [hf]))
        hnest.tail hkadj.tail
        (fun f hf => hK f (by simp [hf]))
        ?_ ?_ hwroots hrchain ?_ ?_
      · obtain ⟨c1, c2, c3, c4, c5, c6, c7, c8, c9, c10⟩ := ihres
        refine ⟨c1, c2, c3, c4, c5, c6, c7, c8, c9, ?_⟩
        intro f2 hf2
        obtain ⟨f, hf, he⟩ := c10 f2 hf2
        exact ⟨f, by simp [hf], he⟩
      · -- hB1 for the new tree against the head of rest
        intro g3 hg3 k hk
        cases rest with
        | nil => simp at hg3
        | cons a as =>
          simp at hg3; subst hg3
          have := (List.chain'_cons.1 hkadj).1 k hk
          exact this
      · -- hB2 for the new tree against the head of rest
        intro g3 hg3
        cases rest with
        | nil => simp at hg3
        | cons a as =>
          simp at hg3; subst hg3
          have := (List.chain'_cons.1 hnest).1
          exact this
      · -- roots vs getLast of rest
        intro r hr f hf
        refine hrbot r hr f ?_
        cases rest with
        | nil => simp at hf
        | cons a as => simpa using hf
      · -- rest = [] implies roots vs the new tree
        intro hrest r hr
        subst hrest
        have := hrbot r hr g (by simp)
        exact this
    · -- the cascade stops at g
      have hstep : popInto ex t (g :: rest) roots =
          (({ g with kids := g.kids ++ [t] } : OpenFrame) :: rest, roots) := by
        simp only [popInto]
        rw [if_neg hge]
      rw [hstep]
      have hwg := hwf g (by simp)
      have hwg2 : WFT starts ends (closeFrame { g with kids := g.kids ++ [t] }) := by
        simp only [closeFrame] at hwg ⊢
        rw [WFT_node] at hwg ⊢
        obtain ⟨h1, h2, h3, h4, h5, h6, h7⟩ := hwg
        refine ⟨h1, h2, h3, h4, ?_, ?_, ?_⟩
        · unfold SChain at h5 ⊢
          refine List.Chain'.append h5 (List.chain'_singleton _) ?_
          intro a ha b hb
          simp at hb; subst hb
          exact hB1 g (by simp) a (List.mem_of_mem_getLast? ha)
        · intro x hx
          rcases List.mem_append.1 hx with h | h
          · exact h6 x h
          · simp at h; subst h; exact hB2 g (by simp)
        · rw [WFL_iff] at h7 ⊢
          intro x hx
          rcases List.mem_append.1 hx with h | h
          · exact h7 x h
          · simp at h; subst h; exact hwt
      have hKg := hK g (by simp)
      refine ⟨?_, ?_, ?_, ?_, ?_, hwroots, hrchain, ?_, ?_, ?_⟩
      · intro f hf
        rcases List.mem_cons.1 hf with h | h
        · subst h; exact hwg2
        · exact hwf f (by simp [h])
      · -- nest chain: the modified head has the same bounds as g
        cases rest with
        | nil => simp
        | cons a as =>
          rw [List.chain'_cons] at hnest ⊢
          exact ⟨hnest.1, hnest.2⟩
      · cases rest with
        | nil => simp
        | cons a as =>
          rw [List.chain'_cons] at hkadj ⊢
          exact ⟨hkadj.1, hkadj.2⟩
      · intro f hf
        rcases List.mem_cons.1 hf with h | h
        · subst h; exact hKg
        · exact hK f (by simp [h])
      · intro g' hg'
        simp only [List.head?_cons, Option.some.injEq] at hg'
        subst hg'
        refine ⟨hge, ?_, hKg.1, le_of_not_lt hge, ?_⟩
        · intro k hk
          rcases List.mem_append.1 hk with h | h
          · have h1 := hB1 g (by simp) k h
            exact ⟨le_trans h1.1 htS, lt_trans h1.2 htE⟩
          · simp at h; subst h; exact ⟨htS, htE⟩
        · by_contra hcon
          push_neg at hcon
          have hgs : g.s = sx := le_antisymm hKg.1 hcon.1
          have hts : t.s = sx := by
            have := (hB2 g (by simp)).1
            omega
          have := htK hts
          omega
      · -- roots vs getLast of the new stack
        intro r hr f hf
        cases rest with
        | nil =>
          simp only [List.getLast?_singleton, Option.some.injEq] at hf
          subst hf
          have := hrbot r hr g (by simp)
          exact this
        | cons a as =>
          refine hrbot r hr f ?_
          rw [List.getLast?_cons_cons] at hf ⊢
          exact hf
      · intro hcon
        simp at hcon
      · intro f2 hf2
        rcases List.mem_cons.1 hf2 with h | h
        · subst h; exact ⟨g, by simp, rfl, rfl⟩
        · exact ⟨f2, by simp [h], rfl, rfl⟩



/-- Invariant preservation of one tree-building iteration. -/
theorem buildStep_ok (starts ends : List Int) (st : BuildState) (x : Nat)
    (hx : x < starts.length)
    (hst : StackOK starts ends st)
    (hKx : ∀ f ∈ st.stack, f.s ≤ starts.getD x 0 ∧
      (f.s = starts.getD x 0 → ends.getD x 0 ≤ f.e)) :
    StackOK starts ends (buildStep starts ends st x) ∧
    (∀ f2 ∈ (buildStep starts ends st x).stack,
      (∃ f ∈ st.stack, f2.s = f.s ∧ f2.e = f.e) ∨
        (f2.s = starts.getD x 0 ∧ f2.e = ends.getD x 0)) := by
  obtain ⟨hwf, hwroots, hnest, hkadj, htop, hrchain, hrbot, hempty, hlast⟩ := hst
  have hwfx : WFT starts ends
      (closeFrame ⟨x, starts.getD x 0, ends.getD x 0, [], []⟩) := by
    simp only [closeFrame]
    rw [WFT_node]
    refine ⟨hx, rfl, rfl, by simp, ?_, by simp, trivial⟩
    simp [SChain]
  cases hstk : st.stack with
  | nil =>
    have hroots := hempty hstk
    have hbs : buildStep starts ends st x = pushFrame starts ends x st := by
      unfold buildStep; rw [hstk]
    rw [hbs]
    constructor
    · refine ⟨?_, ?_, ?_, ?_, ?_, ?_, ?_, ?_, ?_⟩
      · intro f hf
        simp only [pushFrame, hstk, List.mem_singleton] at hf
        subst hf
        exact hwfx
      · exact hwroots
      · simp [pushFrame, hstk]
      · simp [pushFrame, hstk]
      · intro f hf
        simp only [pushFrame, hstk, List.head?_cons, Option.some.injEq] at hf
        subst hf
        rfl
      · exact hrchain
      · intro r hr
        simp only [pushFrame] at hr
        rw [hroots] at hr
        simp at hr
      · simp [pushFrame]
      · intro f hf
        simp only [pushFrame, hstk, List.head?_cons, Option.some.injEq] at hf
        subst hf
        rfl
    · intro f2 hf2
      simp only [pushFrame, hstk, List.mem_singleton] at hf2
      subst hf2
      exact Or.inr ⟨rfl, rfl⟩
  | cons f rest =>
    by_cases hfe : f.e < ends.getD x 0
    · -- pop cascade then push
      have hbs : buildStep starts ends st x =
          pushFrame starts ends x
            { stack := (popInto (ends.getD x 0) (closeFrame f) rest st.roots).1,
              roots := (popInto (ends.getD x 0) (closeFrame f) rest st.roots).2,
              last_id := st.last_id } := by
        unfold buildStep
        rw [hstk]
        simp only [popAttach]
        rw [if_pos hfe, if_pos hfe]
      have hKf := hKx f (by simp [hstk])
      have hb1 : ∀ g, rest.head? = some g → ∀ k ∈ g.kids,
          k.s ≤ (closeFrame f).s ∧ k.e < (closeFrame f).e := by
        intro g hg k hk
        cases rest with
        | nil => simp at hg
        | cons a as =>
          simp only [List.head?_cons, Option.some.injEq] at hg
          subst hg
          rw [hstk] at hkadj
          exact (List.chain'_cons.1 hkadj).1 k hk
      have hb2 : ∀ g, rest.head? = some g → Contains g.s g.e (closeFrame f) := by
        intro g hg
        cases rest with
        | nil => simp at hg
        | cons a as =>
          simp only [List.head?_cons, Option.some.injEq] at hg
          subst hg
          rw [hstk] at hnest
          exact (List.chain'_cons.1 hnest).1
      have hbot : ∀ r ∈ st.roots, ∀ g, rest.getLast? = some g → r.s ≤ g.s ∧ r.e < g.e := by
        intro r hr g hg
        refine hrbot r hr g ?_
        rw [hstk]
        cases rest with
        | nil => simp at hg
        | cons a as => rw [List.getLast?_cons_cons]; exact hg
      have hbt : rest = [] → ∀ r ∈ st.roots, r.s ≤ (closeFrame f).s ∧ r.e < (closeFrame f).e := by
        intro hrest r hr
        subst hrest
        exact hrbot r hr f (by rw [hstk]; rfl)
      have hres := popInto_ok starts ends (starts.getD x 0) (ends.getD x 0) (closeFrame f)
        rest st.roots
        (hwf f (by simp [hstk]))
        hKf.1 hfe hKf.2
        (fun g hg => hwf g (by simp [hstk, hg]))
        (by rw [hstk] at hnest; exact hnest.tail)
        (by rw [hstk] at hkadj; exact hkadj.tail)
        (fun g hg => hKx g (by simp [hstk, hg]))
        hb1 hb2 hwroots hrchain hbot hbt
      obtain ⟨c1, c2, c3, c4, c5, c6, c7, c8, c9, c10⟩ := hres
      rw [hbs]
      constructor
      · refine ⟨?_, ?_, ?_, ?_, ?_, ?_, ?_, ?_, ?_⟩
        · intro g hg
          simp only [pushFrame, List.mem_cons] at hg
          rcases hg with h | h
          · subst h; exact hwfx
          · exact c1 g h
        · exact c6
        · simp only [pushFrame]
          cases hr1 : (popInto (ends.getD x 0) (closeFrame f) rest st.roots).1 with
          | nil => simp
          | cons g gs =>
            rw [List.chain'_cons]
            refine ⟨?_, by rw [← hr1]; exact c2⟩
            have := c5 g (by rw [hr1]; rfl)
            exact ⟨this.2.2.1, this.2.2.2.1, this.2.2.2.2⟩
        · simp only [pushFrame]
          cases hr1 : (popInto (ends.getD x 0) (closeFrame f) rest st.roots).1 with
          | nil => simp
          | cons g gs =>
            rw [List.chain'_cons]
            refine ⟨?_, by rw [← hr1]; exact c3⟩
            intro k hk
            exact (c5 g (by rw [hr1]; rfl)).2.1 k hk
        · intro g hg
          simp only [pushFrame, List.head?_cons, Option.some.injEq] at hg
          subst hg
          rfl
        · exact c7
        · intro r hr g hg
          simp only [pushFrame] at hr hg
          cases hr1 : (popInto (ends.getD x 0) (closeFrame f) rest st.roots).1 with
          | nil =>
            rw [hr1] at hg
            simp only [List.getLast?_singleton, Option.some.injEq] at hg
            subst hg
            exact c9 hr1 r hr
          | cons a as =>
            rw [hr1, List.getLast?_cons_cons] at hg
            exact c8 r hr g (by rw [hr1]; exact hg)
        · simp [pushFrame]
        · intro g hg
          simp only [pushFrame, List.head?_cons, Option.some.injEq] at hg
          subst hg
          rfl
      · intro f2 hf2
        simp only [pushFrame, List.mem_cons] at hf2
        rcases hf2 with h | h
        · subst h; exact Or.inr ⟨rfl, rfl⟩
        · obtain ⟨g, hg, he⟩ := c10 f2 h
          exact Or.inl ⟨g, by simp [hstk, hg], he⟩
    · by_cases hdup : f.e = ends.getD x 0 ∧ starts.getD x 0 = starts.getD st.last_id 0
      · -- duplicate collapse into the top frame
        have hbs : buildStep starts ends st x =
            { st with stack := { f with dups := f.dups ++ [x] } :: rest } := by
          unfold buildStep
          rw [hstk]
          simp only
          rw [if_neg hfe, if_pos hdup]
        have hfid : f.id = st.last_id := hlast f (by rw [hstk]; rfl)
        have hwff := hwf f (by simp [hstk])
        have hfs : f.s = starts.getD f.id 0 := by
          simp only [closeFrame] at hwff
          rw [WFT_node] at hwff
          exact hwff.2.1
        have hfe2 : f.e = ends.getD f.id 0 := by
          simp only [closeFrame] at hwff
          rw [WFT_node] at hwff
          exact hwff.2.2.1
        have hxs : starts.getD x 0 = f.s := by
          rw [hfs, hfid]; exact hdup.2
        rw [hbs]
        constructor
        · refine ⟨?_, ?_, ?_, ?_, ?_, ?_, ?_, ?_, ?_⟩
          · intro g hg
            rcases List.mem_cons.1 hg with h | h
            · subst h
              simp only [closeFrame] at hwff ⊢
              rw [WFT_node] at hwff ⊢
              obtain ⟨h1, h2, h3, h4, h5, h6, h7⟩ := hwff
              refine ⟨h1, h2, h3, ?_, h5, h6, h7⟩
              intro d hd
              rcases List.mem_append.1 hd with h | h
              · exact h4 d h
              · simp at h; subst h
                exact ⟨hx, hxs, hdup.1.symm⟩
            · exact hwf g (by simp [hstk, h])
          · exact hwroots
          · rw [hstk] at hnest
            cases rest with
            | nil => simp
            | cons a as =>
              rw [List.chain'_cons] at hnest ⊢
              exact ⟨hnest.1, hnest.2⟩
          · rw [hstk] at hkadj
            cases rest with
            | nil => simp
            | cons a as =>
              rw [List.chain'_cons] at hkadj ⊢
              exact ⟨hkadj.1, hkadj.2⟩
          · intro g hg
            simp only [List.head?_cons, Option.some.injEq] at hg
            subst hg
            exact htop f (by rw [hstk]; rfl)
          · exact hrchain
          · intro r hr g hg
            simp only at hg
            cases rest with
            | nil =>
              simp only [List.getLast?_singleton, Option.some.injEq] at hg
              subst hg
              exact hrbot r hr f (by rw [hstk]; rfl)
            | cons a as =>
              rw [List.getLast?_cons_cons] at hg
              exact hrbot r hr g (by rw [hstk, List.getLast?_cons_cons]; exact hg)
          · simp
          · intro g hg
            simp only [List.head?_cons, Option.some.injEq] at hg
            subst hg
            exact hlast f (by rw [hstk]; rfl)
        · intro f2 hf2
          rcases List.mem_cons.1 hf2 with h | h
          · subst h; exact Or.inl ⟨f, by simp [hstk], rfl, rfl⟩
          · exact Or.inl ⟨f2, by simp [hstk, h], rfl, rfl⟩
      · -- plain push on top of the unchanged stack
        have hbs : buildStep starts ends st x = pushFrame starts ends x st := by
          unfold buildStep
          rw [hstk]
          simp only
          rw [if_neg hfe, if_neg hdup]
        have hKf := hKx f (by simp [hstk])
        have hfid : f.id = st.last_id := hlast f (by rw [hstk]; rfl)
        have hwff := hwf f (by simp [hstk])
        have hfs : f.s = starts.getD f.id 0 := by
          simp only [closeFrame] at hwff
          rw [WFT_node] at hwff
          exact hwff.2.1
        have hstrict : f.s < starts.getD x 0 ∨ ends.getD x 0 < f.e := by
          by_contra hcon
          push_neg at hcon
          have h1 : f.s = starts.getD x 0 := le_antisymm hKf.1 hcon.1
          have h2 : f.e = ends.getD x 0 := le_antisymm hcon.2 (le_of_not_lt hfe)
          exact hdup ⟨h2, by rw [← h1, hfs, hfid]⟩
        rw [hbs]
        constructor
        · refine ⟨?_, ?_, ?_, ?_, ?_, ?_, ?_, ?_, ?_⟩
          · intro g hg
            simp only [pushFrame, hstk, List.mem_cons] at hg
            rcases hg with h | h
            · subst h; exact hwfx
            · exact hwf g (by simp [hstk, h])
          · exact hwroots
          · simp only [pushFrame, hstk]
            rw [List.chain'_cons]
            refine ⟨⟨hKf.1, le_of_not_lt hfe, hstrict⟩, ?_⟩
            rw [← hstk]; exact hnest
          · simp only [pushFrame, hstk]
            rw [List.chain'_cons]
            constructor
            · intro k hk
              rw [htop f (by rw [hstk]; rfl)] at hk
              simp at hk
            · rw [← hstk]; exact hkadj
          · intro g hg
            simp only [pushFrame, List.head?_cons, Option.some.injEq] at hg
            subst hg
            rfl
          · exact hrchain
          · intro r hr g hg
            simp only [pushFrame, hstk] at hg
            rw [List.getLast?_cons_cons] at hg
            refine hrbot r hr g ?_
            rw [hstk]; exact hg
          · simp [pushFrame]
          · intro g hg
            simp only [pushFrame, List.head?_cons, Option.some.injEq] at hg
            subst hg
            rfl
        · intro f2 hf2
          simp only [pushFrame, hstk, List.mem_cons] at hf2
          rcases hf2 with h | h
          · subst h; exact Or.inr ⟨rfl, rfl⟩
          · exact Or.inl ⟨f2, by simp [hstk, h], rfl, rfl⟩


/-- Invariant preservation through the whole tree-building fold. -/
theorem foldl_buildStep_ok (starts ends : List Int) (l : List Nat) (st : BuildState)
    (hsorted : List.Pairwise (buildLe starts ends) l)
    (hn : ∀ x ∈ l, x < starts.length)
    (hst : StackOK starts ends st)
    (hKl : ∀ x ∈ l, ∀ f ∈ st.stack, f.s ≤ starts.getD x 0 ∧
      (f.s = starts.getD x 0 → ends.getD x 0 ≤ f.e)) :
    StackOK starts ends (l.foldl (buildStep starts ends) st) := by
  induction l generalizing st with
  | nil => exact hst
  | cons x xs ih =>
    rw [List.foldl_cons]
    have hstep := buildStep_ok starts ends st x (hn x (by simp)) hst
      (fun f hf => hKl x (by simp) f hf)
    refine ih _ (List.Pairwise.sublist (List.sublist_cons_self x xs) hsorted)
      (fun y hy => hn y (by simp [hy])) hstep.1 ?_
    intro y hy f2 hf2
    rcases hstep.2 f2 hf2 with ⟨f, hf, hs, he⟩ | ⟨hs, he⟩
    · rw [hs, he]
      exact hKl y (by simp [hy]) f hf
    · rw [hs, he]
      have hxy : buildLe starts ends x y := by
        rw [List.pairwise_cons] at hsorted
        exact hsorted.1 y hy
      rcases hxy with h | ⟨h1, h2⟩
      · exact ⟨le_of_lt h, fun hc => absurd (hc ▸ h) (lt_irrefl _)⟩
      · exact ⟨le_of_eq h1, fun _ => h2⟩

/-- The final drain preserves well-formedness and delivers the root chain. -/
theorem popAllInto_ok (starts ends : List Int) (t : IvlTree)
    (stack : List OpenFrame) (roots : List IvlTree)
    (hwt : WFT starts ends t)
    (hwf : ∀ f ∈ stack, WFT starts ends (closeFrame f))
    (hnest : List.Chain' nestRel stack)
    (hkadj : List.Chain' kidsRel stack)
    (hB1 : ∀ g, stack.head? = some g → ∀ k ∈ g.kids, k.s ≤ t.s ∧ k.e < t.e)
    (hB2 : ∀ g, stack.head? = some g → Contains g.s g.e t)
    (hwroots : WFL starts ends roots)
    (hrchain : SChain roots)
    (hrbot : ∀ r ∈ roots, ∀ f, stack.getLast? = some f → r.s ≤ f.s ∧ r.e < f.e)
    (hrt : stack = [] → ∀ r ∈ roots, r.s ≤ t.s ∧ r.e < t.e) :
    WFL starts ends (popAllInto t stack roots) ∧ SChain (popAllInto t stack roots) := by
  induction stack generalizing t roots with
  | nil =>
    simp only [popAllInto]
    constructor
    · rw [WFL_iff] at hwroots ⊢
      intro u hu
      rcases List.mem_append.1 hu with h | h
      · exact hwroots u h
      · simp at h; subst h; exact hwt
    · unfold SChain at hrchain ⊢
      refine List.Chain'.append hrchain (List.chain'_singleton _) ?_
      intro a ha b hb
      simp at hb; subst hb
      exact hrt rfl a (List.mem_of_mem_getLast? ha)
  | cons g rest ih =>
    simp only [popAllInto]
    have hwg := hwf g (by simp)
    have hwg2 : WFT starts ends (closeFrame { g with kids := g.kids ++ [t] }) := by
      simp only [closeFrame] at hwg ⊢
      rw [WFT_node] at hwg ⊢
      obtain ⟨h1, h2, h3, h4, h5, h6, h7⟩ := hwg
      refine ⟨h1, h2, h3, h4, ?_, ?_, ?_⟩
      · unfold SChain at h5 ⊢
        refine List.Chain'.append h5 (List.chain'_singleton _) ?_
        intro a ha b hb
        simp at hb; subst hb
        exact hB1 g (by simp) a (List.mem_of_mem_getLast? ha)
      · intro u hu
        rcases List.mem_append.1 hu with h | h
        · exact h6 u h
        · simp at h; subst h; exact hB2 g (by simp)
      · rw [WFL_iff] at h7 ⊢
        intro u hu
        rcases List.mem_append.1 hu with h | h
        · exact h7 u h
        · simp at h; subst h; exact hwt
    refine ih (closeFrame { g with kids := g.kids ++ [t] }) roots hwg2
      (fun f hf => hwf f (by simp [hf]))
      hnest.tail hkadj.tail ?_ ?_ hwroots hrchain ?_ ?_
    · intro g3 hg3 k hk
      cases rest with
      | nil => simp at hg3
      | cons a as =>
        simp only [List.head?_cons, Option.some.injEq] at hg3
        subst hg3
        exact (List.chain'_cons.1 hkadj).1 k hk
    · intro g3 hg3
      cases rest with
      | nil => simp at hg3
      | cons a as =>
        simp only [List.head?_cons, Option.some.injEq] at hg3
        subst hg3
        exact (List.chain'_cons.1 hnest).1
    · intro r hr f hf
      refine hrbot r hr f ?_
      cases rest with
      | nil => simp at hf
      | cons a as => rw [List.getLast?_cons_cons]; exact hf
    · intro hrest r hr
      subst hrest
      exact hrbot r hr g (by simp)

instance buildLe_total (starts ends : List Int) : IsTotal Nat (buildLe starts ends) := by
  constructor
  intro a b
  unfold buildLe
  rcases lt_trichotomy (starts.getD a 0) (starts.getD b 0) with h | h | h
  · exact Or.inl (Or.inl h)
  · rcases le_total (ends.getD b 0) (ends.getD a 0) with h2 | h2
    · exact Or.inl (Or.inr ⟨h, h2⟩)
    · exact Or.inr (Or.inr ⟨h.symm, h2⟩)
  · exact Or.inr (Or.inl h)

instance buildLe_trans (starts ends : List Int) : IsTrans Nat (buildLe starts ends) := by
  constructor
  intro a b c hab hbc
  unfold buildLe at *
  rcases hab with h1 | ⟨h1, h1e⟩ <;> rcases hbc with h2 | ⟨h2, h2e⟩
  · exact Or.inl (lt_trans h1 h2)
  · exact Or.inl (h2 ▸ h1)
  · exact Or.inl (h1 ▸ h2)
  · exact Or.inr ⟨h1.trans h2, le_trans h2e h1e⟩

/-- The built forest is well-formed and its roots are properly ordered. -/
theorem buildForest_ok (starts ends : List Int) :
    WFL starts ends (buildForest starts ends) ∧ SChain (buildForest starts ends) := by
  have hsorted : List.Pairwise (buildLe starts ends) (buildOrder starts ends) :=
    List.sorted_insertionSort (buildLe starts ends) (List.range starts.length)
  have hn : ∀ x ∈ buildOrder starts ends, x < starts.length := by
    intro x hx
    have := (List.perm_insertionSort (buildLe starts ends) (List.range starts.length)).mem_iff.1 hx
    simpa using this
  have hinit : StackOK starts ends ⟨[], [], 0⟩ := by
    refine ⟨?_, ?_, ?_, ?_, ?_, ?_, ?_, ?_, ?_⟩ <;> simp [WFL, SChain]
  have hfold := foldl_buildStep_ok starts ends (buildOrder starts ends) ⟨[], [], 0⟩
    hsorted hn hinit (by intro y hy f hf; simp at hf)
  obtain ⟨hwf, hwroots, hnest, hkadj, htop, hrchain, hrbot, hempty, hlast⟩ := hfold
  unfold buildForest
  set fin := (buildOrder starts ends).foldl (buildStep starts ends) ⟨[], [], 0⟩ with hfin
  show WFL starts ends (popAll fin.stack fin.roots) ∧ SChain (popAll fin.stack fin.roots)
  cases hstk : fin.stack with
  | nil =>
    simp only [popAll]
    exact ⟨hwroots, hrchain⟩
  | cons f rest =>
    simp only [popAll]
    refine popAllInto_ok starts ends (closeFrame f) rest fin.roots
      (hwf f (by rw [hstk]; simp))
      (fun g hg => hwf g (by rw [hstk]; simp [hg]))
      (by rw [hstk] at hnest; exact hnest.tail)
      (by rw [hstk] at hkadj; exact hkadj.tail)
      ?_ ?_ hwroots hrchain ?_ ?_
    · intro g hg k hk
      cases rest with
      | nil => simp at hg
      | cons a as =>
        simp only [List.head?_cons, Option.some.injEq] at hg
        subst hg
        rw [hstk] at hkadj
        exact (List.chain'_cons.1 hkadj).1 k hk
    · intro g hg
      cases rest with
      | nil => simp at hg
      | cons a as =>
        simp only [List.head?_cons, Option.some.injEq] at hg
        subst hg
        rw [hstk] at hnest
        exact (List.chain'_cons.1 hnest).1
    · intro r hr g hg
      refine hrbot r hr g ?_
      rw [hstk]
      cases rest with
      | nil => simp at hg
      | cons a as => rw [List.getLast?_cons_cons]; exact hg
    · intro hrest r hr
      subst hrest
      exact hrbot r hr f (by rw [hstk]; rfl)


/-! ### Correctness of the emission offsets -/

/-- Start bound of an annotated node. -/
def AnnTree.s (t : AnnTree) : Int := t.info.s

/-- End bound of an annotated node. -/
def AnnTree.e (t : AnnTree) : Int := t.info.e

mutual

/-- Erase the offsets of an annotated tree. -/
def eraseT : AnnTree → IvlTree
  | .node i c => .node i.id i.s i.e i.dups (eraseF c)
  termination_by structural t => t

/-- Erase the offsets of an annotated forest. -/
def eraseF : List AnnTree → List IvlTree
  | [] => []
  | t :: ts => eraseT t :: eraseF ts
  termination_by structural ts => ts

end

mutual

/-- Number of child-slice slots in a working tree below the root. -/
def kidsCntT : IvlTree → Nat
  | .node _ _ _ _ c => c.length + kidsCntF c
  termination_by structural t => t

/-- Number of child-slice slots in a working forest below the roots. -/
def kidsCntF : List IvlTree → Nat
  | [] => 0
  | t :: ts => kidsCntT t + kidsCntF ts
  termination_by structural ts => ts

end

mutual

/-- Number of duplicate ids in a working tree. -/
def dupsCntT : IvlTree → Nat
  | .node _ _ _ d c => d.length + dupsCntF c
  termination_by structural t => t

/-- Number of duplicate ids in a working forest. -/
def dupsCntF : List IvlTree → Nat
  | [] => 0
  | t :: ts => dupsCntT t + dupsCntF ts
  termination_by structural ts => ts

end

mutual

theorem annTree_core (t : IvlTree) : ∀ a d,
    eraseT (annTree t a d).1 = t ∧
    (annTree t a d).2.1 = a + kidsCntT t ∧
    (annTree t a d).2.2 = d + dupsCntT t := by
  match t with
  | .node i s e dups c =>
    intro a d
    have hc := annList_core c (a + c.length) (d + dups.length)
    refine ⟨?_, ?_, ?_⟩
    · simp only [annTree, eraseT, hc.1]
    · simp only [annTree, hc.2.1, kidsCntT]
      omega
    · simp only [annTree, hc.2.2, dupsCntT]
      omega
  termination_by structural t

theorem annList_core (ts : List IvlTree) : ∀ a d,
    eraseF (annList ts a d).1 = ts ∧
    (annList ts a d).2.1 = a + kidsCntF ts ∧
    (annList ts a d).2.2 = d + dupsCntF ts := by
  match ts with
  | [] => intro a d; simp [annList, eraseF, kidsCntF, dupsCntF]
  | t :: rest =>
    intro a d
    have h1 := annTree_core t a d
    have h2 := annList_core rest (a + kidsCntT t) (d + dupsCntT t)
    refine ⟨?_, ?_, ?_⟩
    · have h2x := annList_core rest (annTree t a d).2.1 (annTree t a d).2.2
      simp only [annList, eraseF, h1.1, h2x.1]
    · simp only [annList, kidsCntF]
      rw [h1.2.1, h1.2.2, h2.2.1]
      omega
    · simp only [annList, dupsCntF]
      rw [h1.2.1, h1.2.2, h2.2.2]
      omega
  termination_by structural ts

end

theorem annList_length (ts : List IvlTree) (a d : Nat) :
    (annList ts a d).1.length = ts.length := by
  have := (annList_core ts a d).1
  have h2 : (eraseF (annList ts a d).1).length = ts.length := by rw [this]
  have h3 : ∀ us : List AnnTree, (eraseF us).length = us.length := by
    intro us
    induction us with
    | nil => simp [eraseF]
    | cons u us ih => simp [eraseF, ih]
  rw [h3] at h2
  exact h2

theorem eraseF_map : ∀ us : List AnnTree, eraseF us = us.map eraseT := by
  intro us
  induction us with
  | nil => simp [eraseF]
  | cons u us ih => simp [eraseF, ih]


/-- Placeholder annotated node used as a lookup default. -/
def dummyA : AnnTree := .node ⟨0, 0, 0, [], 0, 0, 0, 0⟩ []

theorem AnnTree.info_node (i : AnnInfo) (c : List AnnTree) :
    (AnnTree.node i c).info = i := rfl

theorem AnnTree.children_node (i : AnnInfo) (c : List AnnTree) :
    (AnnTree.node i c).children = c := rfl

/-- The offsets recorded in an emitted node really name its children slice in
the node array `L` and its duplicates slice in the duplicates array `D`. -/
def SliceProp (L : List AnnTree) (D : List Nat) (X : AnnTree) : Prop :=
  (X.children ≠ [] → X.info.ce = X.info.cs + X.children.length ∧
    X.info.cs + X.children.length ≤ L.length ∧
    ∀ j < X.children.length, L.getD (X.info.cs + j) dummyA = X.children.getD j dummyA) ∧
  (X.children = [] → X.info.cs = 0 ∧ X.info.ce = 0) ∧
  (X.info.dups ≠ [] → X.info.de = X.info.ds + X.info.dups.length ∧
    X.info.ds + X.info.dups.length ≤ D.length ∧
    ∀ j < X.info.dups.length, D.getD (X.info.ds + j) 0 = X.info.dups.getD j 0) ∧
  (X.info.dups = [] → X.info.ds = 0 ∧ X.info.de = 0)

theorem getD_drop {α : Type} (l : List α) (a j : Nat) (d : α) :
    (l.drop a).getD j d = l.getD (a + j) d := by
  induction a generalizing l with
  | zero => simp
  | succ a ih =>
    cases l with
    | nil => simp
    | cons x xs =>
      simp only [List.drop_succ_cons, ih, List.getD_cons_succ, Nat.succ_add]

theorem getD_of_drop_eq {α : Type} (L P Q : List α) (a j : Nat) (d : α)
    (h : L.drop a = P ++ Q) (hj : j < P.length) : L.getD (a + j) d = P.getD j d := by
  rw [← getD_drop, h, List.getD_append _ _ _ _ hj]

theorem drop_of_drop_eq {α : Type} (L P Q : List α) (a : Nat) (h : L.drop a = P ++ Q) :
    L.drop (a + P.length) = Q := by
  rw [← List.drop_drop, h, List.drop_left]

mutual

theorem annTree_blocks_len (t : IvlTree) : ∀ a d,
    ((preT (annTree t a d).1).flatMap AnnTree.children).length = kidsCntT t ∧
    ((preT (annTree t a d).1).flatMap (fun X => X.info.dups)).length = dupsCntT t := by
  match t with
  | .node i s e dups c =>
    intro a d
    have hc := annList_blocks_len c (a + c.length) (d + dups.length)
    constructor
    · simp only [annTree, preT, List.flatMap_cons, AnnTree.children_node, List.length_append,
        hc.1, kidsCntT, annList_length]
    · simp only [annTree, preT, List.flatMap_cons, AnnTree.info_node, List.length_append,
        hc.2, dupsCntT]
  termination_by structural t

theorem annList_blocks_len (ts : List IvlTree) : ∀ a d,
    ((preA (annList ts a d).1).flatMap AnnTree.children).length = kidsCntF ts ∧
    ((preA (annList ts a d).1).flatMap (fun X => X.info.dups)).length = dupsCntF ts := by
  match ts with
  | [] => intro a d; simp [annList, preA, kidsCntF, dupsCntF]
  | t :: rest =>
    intro a d
    have h1 := annTree_blocks_len t a d
    have h2 := annList_blocks_len rest (annTree t a d).2.1 (annTree t a d).2.2
    constructor
    · simp only [annList, preA, List.flatMap_append, List.length_append,
        h1.1, h2.1, kidsCntF]
    · simp only [annList, preA, List.flatMap_append, List.length_append,
        h1.2, h2.2, dupsCntF]
  termination_by structural ts

end


mutual

theorem annTree_slices (L : List AnnTree) (D : List Nat) (t : IvlTree) :
    ∀ a d rest restD,
    L.drop a = (preT (annTree t a d).1).flatMap AnnTree.children ++ rest →
    D.drop d = (preT (annTree t a d).1).flatMap (fun X => X.info.dups) ++ restD →
    ∀ X ∈ preT (annTree t a d).1, SliceProp L D X := by
  match t with
  | .node i s e dups c =>
    intro a d rest restD hL hD X hX
    simp only [annTree, preT, List.flatMap_cons, AnnTree.children_node, AnnTree.info_node,
      List.mem_cons] at hX hL hD
    have hlen : (annList c (a + c.length) (d + dups.length)).1.length = c.length :=
      annList_length _ _ _
    rcases hX with hX | hX
    · subst hX
      refine ⟨?_, ?_, ?_, ?_⟩
      · intro hne
        rw [AnnTree.children_node] at hne ⊢
        have hcne : c.length ≠ 0 := by
          intro h0
          rw [← hlen] at h0
          exact hne (List.length_eq_zero.1 h0)
        simp only [AnnTree.info_node]
        rw [if_neg hcne, if_neg hcne]
        rw [List.append_assoc] at hL
        have hdlen : L.length - a =
            ((annList c (a + c.length) (d + dups.length)).1 ++
              ((preA (annList c (a + c.length) (d + dups.length)).1).flatMap
                AnnTree.children ++ rest)).length := by
          rw [← hL, List.length_drop]
        refine ⟨by rw [hlen], ?_, ?_⟩
        · rw [List.length_append, hlen] at hdlen
          omega
        · intro j hj
          exact getD_of_drop_eq L _ _ a j dummyA hL (by omega)
      · intro hemp
        rw [AnnTree.children_node] at hemp
        have hcz : c.length = 0 := by rw [← hlen, hemp]; rfl
        simp only [AnnTree.info_node]
        rw [if_pos hcz, if_pos hcz]
        exact ⟨rfl, rfl⟩
      · intro hne
        simp only [AnnTree.info_node] at hne ⊢
        have hdne : dups.length ≠ 0 := by
          intro h0
          exact hne (List.length_eq_zero.1 h0)
        rw [if_neg hdne, if_neg hdne]
        rw [List.append_assoc] at hD
        have hdlen : D.length - d =
            (dups ++
              ((preA (annList c (a + c.length) (d + dups.length)).1).flatMap
                (fun X => X.info.dups) ++ restD)).length := by
          rw [← hD, List.length_drop]
        refine ⟨rfl, ?_, ?_⟩
        · rw [List.length_append] at hdlen
          omega
        · intro j hj
          exact getD_of_drop_eq D _ _ d j 0 hD (by omega)
      · intro hemp
        simp only [AnnTree.info_node] at hemp ⊢
        have hdz : dups.length = 0 := by rw [hemp]; rfl
        rw [if_pos hdz, if_pos hdz]
        exact ⟨rfl, rfl⟩
    · -- X lies in the annotated children
      refine annList_slices L D c (a + c.length) (d + dups.length) rest restD ?_ ?_ X hX
      · rw [List.append_assoc] at hL
        have := drop_of_drop_eq L _ _ a hL
        rw [hlen] at this
        exact this
      · rw [List.append_assoc] at hD
        have := drop_of_drop_eq D _ _ d hD
        exact this
  termination_by structural t

theorem annList_slices (L : List AnnTree) (D : List Nat) (ts : List IvlTree) :
    ∀ a d rest restD,
    L.drop a = (preA (annList ts a d).1).flatMap AnnTree.children ++ rest →
    D.drop d = (preA (annList ts a d).1).flatMap (fun X => X.info.dups) ++ restD →
    ∀ X ∈ preA (annList ts a d).1, SliceProp L D X := by
  match ts with
  | [] =>
    intro a d rest restD hL hD X hX
    simp [annList, preA] at hX
  | t :: tr =>
    intro a d rest restD hL hD X hX
    simp only [annList, preA, List.flatMap_append, List.mem_append] at hX hL hD
    have hlens := annTree_blocks_len t a d
    rcases hX with hX | hX
    · refine annTree_slices L D t a d
        (((preA (annList tr (annTree t a d).2.1 (annTree t a d).2.2).1).flatMap
          AnnTree.children) ++ rest)
        (((preA (annList tr (annTree t a d).2.1 (annTree t a d).2.2).1).flatMap
          (fun X => X.info.dups)) ++ restD) ?_ ?_ X hX
      · rw [hL, List.append_assoc]
      · rw [hD, List.append_assoc]
    · refine annList_slices L D tr (annTree t a d).2.1 (annTree t a d).2.2 rest restD ?_ ?_ X hX
      · rw [List.append_assoc] at hL
        have h := drop_of_drop_eq L _ _ a hL
        rw [hlens.1, ← (annTree_core t a d).2.1] at h
        exact h
      · rw [List.append_assoc] at hD
        have h := drop_of_drop_eq D _ _ d hD
        rw [hlens.2, ← (annTree_core t a d).2.2] at h
        exact h
  termination_by structural ts

end


/-- The annotated node stored at position `p` of the built index. -/
def treeAt (starts ends : List Int) (p : Nat) : AnnTree :=
  (layoutA (annForest starts ends)).getD p dummyA

theorem getD_map {α β : Type} (f : α → β) (l : List α) (i : Nat) (d : α) :
    (l.map f).getD i (f d) = f (l.getD i d) := by
  induction l generalizing i with
  | nil => simp
  | cons x xs ih =>
    cases i with
    | zero => simp
    | succ i => simpa using ih i

theorem build_slices (starts ends : List Int) :
    ∀ X ∈ preA (annForest starts ends),
      SliceProp (layoutA (annForest starts ends)) ((build starts ends).duplicates) X := by
  intro X hX
  refine annList_slices _ _ (buildForest starts ends)
    (buildForest starts ends).length 0 [] [] ?_ ?_ X hX
  · rw [List.append_nil]
    have hdl := List.drop_left (annForest starts ends)
      ((preA (annForest starts ends)).flatMap AnnTree.children)
    rw [show (annForest starts ends).length = (buildForest starts ends).length from
      annList_length _ _ _] at hdl
    exact hdl
  · rw [List.append_nil]
    show (build starts ends).duplicates.drop 0 = _
    rw [List.drop_zero]
    rfl

theorem build_root_children (starts ends : List Int) :
    (build starts ends).root_children = (buildForest starts ends).length := rfl

theorem build_nodes_getD (starts ends : List Int) (p : Nat) :
    (build starts ends).nodes.getD p default = toNCNode (treeAt starts ends p) := by
  show ((layoutA (annForest starts ends)).map toNCNode).getD p default = _
  have : (default : NCNode) = toNCNode dummyA := rfl
  rw [this, getD_map]
  rfl

theorem build_starts_getD (starts ends : List Int) (p : Nat) :
    (build starts ends).starts.getD p 0 = (treeAt starts ends p).info.s := by
  show ((layoutA (annForest starts ends)).map (fun t => t.info.s)).getD p 0 = _
  have h0 : (0 : Int) = (fun t : AnnTree => t.info.s) dummyA := rfl
  rw [h0, getD_map]
  rfl

theorem build_ends_getD (starts ends : List Int) (p : Nat) :
    (build starts ends).ends.getD p 0 = (treeAt starts ends p).info.e := by
  show ((layoutA (annForest starts ends)).map (fun t => t.info.e)).getD p 0 = _
  have h0 : (0 : Int) = (fun t : AnnTree => t.info.e) dummyA := rfl
  rw [h0, getD_map]
  rfl

theorem build_nodes_length (starts ends : List Int) :
    (build starts ends).nodes.length = (layoutA (annForest starts ends)).length := by
  show ((layoutA (annForest starts ends)).map toNCNode).length = _
  rw [List.length_map]

theorem treeAt_mem (starts ends : List Int) (p : Nat)
    (hp : p < (layoutA (annForest starts ends)).length) :
    treeAt starts ends p ∈ layoutA (annForest starts ends) := by
  unfold treeAt
  rw [List.getD_eq_getElem _ _ hp]
  exact List.getElem_mem hp

theorem treeAt_mem_preA (starts ends : List Int) (p : Nat)
    (hp : p < (layoutA (annForest starts ends)).length) :
    treeAt starts ends p ∈ preA (annForest starts ends) :=
  (layoutA_perm (annForest starts ends)).mem_iff.1 (treeAt_mem starts ends p hp)


theorem eraseT_s (X : AnnTree) : (eraseT X).s = X.info.s := by
  cases X; rfl

theorem eraseT_e (X : AnnTree) : (eraseT X).e = X.info.e := by
  cases X; rfl

theorem eraseT_id (X : AnnTree) : (eraseT X).id = X.info.id := by
  cases X; rfl

theorem eraseT_dups (X : AnnTree) : (eraseT X).dups = X.info.dups := by
  cases X; rfl

theorem eraseT_children (X : AnnTree) : (eraseT X).children = eraseF X.children := by
  cases X; rfl

mutual

theorem preT_WF (starts ends : List Int) (u : AnnTree) :
    WFT starts ends (eraseT u) → ∀ X ∈ preT u, WFT starts ends (eraseT X) := by
  match u with
  | .node i c =>
    intro hwf X hX
    simp only [preT, List.mem_cons] at hX
    rcases hX with hX | hX
    · subst hX; exact hwf
    · refine preA_WF starts ends c ?_ X hX
      simp only [eraseT, WFT_node] at hwf
      exact hwf.2.2.2.2.2.2
  termination_by structural u

theorem preA_WF (starts ends : List Int) (us : List AnnTree) :
    WFL starts ends (eraseF us) → ∀ X ∈ preA us, WFT starts ends (eraseT X) := by
  match us with
  | [] => intro _ X hX; simp [preA] at hX
  | u :: rest =>
    intro hwf X hX
    simp only [preA, List.mem_append] at hX
    simp only [eraseF, WFL] at hwf
    rcases hX with hX | hX
    · exact preT_WF starts ends u hwf.1 X hX
    · exact preA_WF starts ends rest hwf.2 X hX
  termination_by structural us

end

theorem build_tree_WF (starts ends : List Int) :
    ∀ X ∈ preA (annForest starts ends), WFT starts ends (eraseT X) := by
  refine preA_WF starts ends (annForest starts ends) ?_
  have h1 : eraseF (annForest starts ends) = buildForest starts ends :=
    (annList_core _ _ _).1
  rw [h1]
  exact (buildForest_ok starts ends).1

/-! ## Claim C3: parent-child containment in the built index -/

/-- C3: for every node `A` of a built index and every node `B` in `A`'s child
slice, `starts[A] ≤ starts[B]` and `ends[B] ≤ ends[A]`, with at least one of
the two inequalities strict. -/
theorem build_child_slice_containment (starts ends : List Int)
    (h : ValidIntervals starts ends) (a b : Nat)
    (ha : a < (build starts ends).nodes.length)
    (hb1 : ((build starts ends).nodes.getD a default).children_start ≤ b)
    (hb2 : b < ((build starts ends).nodes.getD a default).children_end) :
    (build starts ends).starts.getD a 0 ≤ (build starts ends).starts.getD b 0 ∧
    (build starts ends).ends.getD b 0 ≤ (build starts ends).ends.getD a 0 ∧
    ((build starts ends).starts.getD a 0 < (build starts ends).starts.getD b 0 ∨
      (build starts ends).ends.getD b 0 < (build starts ends).ends.getD a 0) := by
  have haL : a < (layoutA (annForest starts ends)).length := by
    rw [← build_nodes_length]; exact ha
  have hXmem := treeAt_mem_preA starts ends a haL
  have hsl := build_slices starts ends (treeAt starts ends a) hXmem
  rw [build_nodes_getD] at hb1 hb2
  set X := treeAt starts ends a with hXdef
  by_cases hc : X.children = []
  · exfalso
    have h0 := hsl.2.1 hc
    simp only [toNCNode] at hb1 hb2
    omega
  · obtain ⟨hce, hbnd, hslice⟩ := hsl.1 hc
    simp only [toNCNode] at hb1 hb2
    have hj : b - X.info.cs < X.children.length := by omega
    have hbeq : X.info.cs + (b - X.info.cs) = b := by omega
    have hgot := hslice (b - X.info.cs) hj
    rw [hbeq] at hgot
    have hCmem : X.children.getD (b - X.info.cs) dummyA ∈ X.children := by
      rw [List.getD_eq_getElem _ _ hj]
      exact List.getElem_mem hj
    set C := X.children.getD (b - X.info.cs) dummyA with hCdef
    have htb : treeAt starts ends b = C := hgot
    have hwfX := build_tree_WF starts ends X hXmem
    have hcont : Contains (eraseT X).s (eraseT X).e (eraseT C) := by
      cases hXc : X with
      | node i c =>
        rw [hXc] at hwfX
        simp only [eraseT, WFT_node] at hwfX
        have hmem2 : eraseT C ∈ eraseF c := by
          rw [eraseF_map]
          refine List.mem_map_of_mem eraseT ?_
          rw [hXc] at hCmem
          exact hCmem
        have := hwfX.2.2.2.2.2.1 (eraseT C) hmem2
        simpa [eraseT] using this
    unfold Contains at hcont
    simp only [eraseT_s, eraseT_e] at hcont
    rw [build_starts_getD, build_starts_getD, build_ends_getD, build_ends_getD, htb]
    exact ⟨hcont.1, hcont.2.1, hcont.2.2⟩

/-- Witness for C3 at a concrete input. -/
theorem build_child_slice_containment_witness :
    (build [0, 2] [10, 8]).starts.getD 0 0 ≤ (build [0, 2] [10, 8]).starts.getD 1 0 ∧
    (build [0, 2] [10, 8]).ends.getD 1 0 ≤ (build [0, 2] [10, 8]).ends.getD 0 0 ∧
    ((build [0, 2] [10, 8]).starts.getD 0 0 < (build [0, 2] [10, 8]).starts.getD 1 0 ∨
      (build [0, 2] [10, 8]).ends.getD 1 0 < (build [0, 2] [10, 8]).ends.getD 0 0) :=
  build_child_slice_containment [0, 2] [10, 8] (by constructor <;> decide) 0 1
    (by decide) (by decide) (by decide)


theorem firstFromGo_bounds (p : Nat → Bool) (k i : Nat) :
    i ≤ firstFromGo p k i ∧ firstFromGo p k i ≤ i + k := by
  induction k generalizing i with
  | zero => simp [firstFromGo]
  | succ k ih =>
    simp only [firstFromGo]
    split
    · omega
    · have := ih (i + 1)
      omega

theorem firstFrom_bounds (p : Nat → Bool) (i e : Nat) (h : i ≤ e) :
    i ≤ firstFrom p i e ∧ firstFrom p i e ≤ e := by
  unfold firstFrom
  have := firstFromGo_bounds p (e - i) i
  omega

/-- Every node record of a built index has a well-bounded children slice. -/
theorem build_node_bounds (starts ends : List Int) (p : Nat)
    (hp : p < (build starts ends).nodes.length) :
    ((build starts ends).nodes.getD p default).children_start ≤
      ((build starts ends).nodes.getD p default).children_end ∧
    ((build starts ends).nodes.getD p default).children_end ≤
      (build starts ends).nodes.length := by
  have hpL : p < (layoutA (annForest starts ends)).length := by
    rw [← build_nodes_length]; exact hp
  have hsl := build_slices starts ends (treeAt starts ends p)
    (treeAt_mem_preA starts ends p hpL)
  rw [build_nodes_getD, build_nodes_length]
  set X := treeAt starts ends p with hX
  by_cases hc : X.children = []
  · have h0 := hsl.2.1 hc
    simp only [toNCNode, h0.1, h0.2]
    omega
  · obtain ⟨hce, hbnd, _⟩ := hsl.1 hc
    simp only [toNCNode]
    omega

/-- The duplicates slice named by a node record of a built index is exactly
the duplicate list of the corresponding tree node. -/
theorem build_dupSlice (starts ends : List Int) (p : Nat)
    (hp : p < (build starts ends).nodes.length) :
    dupSlice (build starts ends) ((build starts ends).nodes.getD p default) =
      (treeAt starts ends p).info.dups := by
  have hpL : p < (layoutA (annForest starts ends)).length := by
    rw [← build_nodes_length]; exact hp
  have hsl := build_slices starts ends (treeAt starts ends p)
    (treeAt_mem_preA starts ends p hpL)
  rw [build_nodes_getD]
  set X := treeAt starts ends p with hX
  by_cases hd : X.info.dups = []
  · have h0 := hsl.2.2.2 hd
    simp [dupSlice, toNCNode, h0.1, h0.2, hd]
  · obtain ⟨hde, hbnd, hslice⟩ := hsl.2.2.1 hd
    simp only [dupSlice, toNCNode, hde]
    have hlen1 : (((build starts ends).duplicates.drop X.info.ds).take
        (X.info.ds + X.info.dups.length - X.info.ds)).length = X.info.dups.length := by
      rw [List.length_take, List.length_drop]
      omega
    refine List.ext_getElem hlen1 ?_
    intro j hj1 hj2
    have hjlen : j < X.info.dups.length := by omega
    have := hslice j hjlen
    rw [List.getD_eq_getElem _ _ hj2] at this
    rw [← this]
    have hj3 : j < ((build starts ends).duplicates.drop X.info.ds).length := by
      rw [List.length_drop]; omega
    have hgoal : (((build starts ends).duplicates.drop X.info.ds).take
        (X.info.ds + X.info.dups.length - X.info.ds))[j] =
        ((build starts ends).duplicates.drop X.info.ds).get ⟨j, hj3⟩ := by
      rw [List.get_eq_getElem, List.getElem_take]
    rw [hgoal, List.get_eq_getElem]
    rw [List.getElem_drop]
    rw [List.getD_eq_getElem _ _ (by omega)]


/-- Bounds of the subject-id group stored at position `p` of a built index:
each id is in range, and its input interval is exactly the node's interval. -/
theorem build_group_bounds (starts ends : List Int) (p : Nat)
    (hp : p < (build starts ends).nodes.length) :
    ∀ i ∈ (treeAt starts ends p).info.id :: (treeAt starts ends p).info.dups,
      i < starts.length ∧ starts.getD i 0 = (treeAt starts ends p).info.s ∧
        ends.getD i 0 = (treeAt starts ends p).info.e := by
  have hpL : p < (layoutA (annForest starts ends)).length := by
    rw [← build_nodes_length]; exact hp
  have hwf := build_tree_WF starts ends (treeAt starts ends p)
    (treeAt_mem_preA starts ends p hpL)
  intro i hi
  cases hX : treeAt starts ends p with
  | node info c =>
    rw [hX] at hwf hi
    simp only [eraseT, WFT_node] at hwf
    simp only [AnnTree.info_node, List.mem_cons] at hi ⊢
    rcases hi with hi | hi
    · subst hi
      exact ⟨hwf.1, hwf.2.1.symm, hwf.2.2.1.symm⟩
    · obtain ⟨h1, h2, h3⟩ := hwf.2.2.2.1 i hi
      exact ⟨h1, h2, h3⟩

/-- Node intervals of a built index over valid input are themselves valid. -/
theorem build_pos_valid (starts ends : List Int) (h : ValidIntervals starts ends)
    (p : Nat) (hp : p < (build starts ends).nodes.length) :
    (build starts ends).starts.getD p 0 ≤ (build starts ends).ends.getD p 0 := by
  have hg := build_group_bounds starts ends p hp (treeAt starts ends p).info.id (by simp)
  rw [build_starts_getD, build_ends_getD, ← hg.2.1, ← hg.2.2]
  exact h.2 _ hg.1

/-- Generic soundness of the plain walk: any predicate on the matches list
preserved by the per-node body (at in-range nodes) holds of the result. -/
theorem walkPlain_sound (subject : Nclist) (ffc : Nat → Nat → Nat)
    (isFin : Int → Bool) (process : Nat → List Nat → StepRes)
    (P : List Nat → Prop)
    (hrc : subject.root_children ≤ subject.nodes.length)
    (hffc : ∀ cs ce, cs ≤ ce → cs ≤ ffc cs ce ∧ ffc cs ce ≤ ce)
    (hnode : ∀ p, p < subject.nodes.length →
      (subject.nodes.getD p default).children_start ≤
          (subject.nodes.getD p default).children_end ∧
        (subject.nodes.getD p default).children_end ≤ subject.nodes.length)
    (hproc : ∀ p m, p < subject.nodes.length →
      isFin (subject.starts.getD p 0) = false → P m →
      (∀ m2, process p m = .halt m2 → P m2) ∧
      (∀ m2 ds, process p m = .go m2 ds → P m2)) :
    ∀ fuel rootAt hist m, rootAt ≤ subject.root_children →
      (∀ f ∈ hist, f.childAt ≤ f.childEnd ∧ f.childEnd ≤ subject.nodes.length) →
      P m → P (walkPlain subject ffc isFin process fuel rootAt hist m) := by
  intro fuel
  induction fuel with
  | zero => intro rootAt hist m _ _ hP; exact hP
  | succ fuel ih =>
    intro rootAt hist m hroot hhist hP
    cases hist with
    | nil =>
      simp only [walkPlain]
      split
      · exact hP
      · next hcond =>
        push_neg at hcond
        have hplt : rootAt < subject.nodes.length := by
          have := lt_of_le_of_ne hroot hcond.1
          omega
        have hnf : isFin (subject.starts.getD rootAt 0) = false := by
          simpa using hcond.2
        cases hpr : process rootAt m with
        | halt m2 => exact (hproc rootAt m hplt hnf hP).1 m2 hpr
        | go m2 ds =>
          have hP2 := (hproc rootAt m hplt hnf hP).2 m2 ds hpr
          refine ih (rootAt + 1) _ m2 (by omega) ?_ hP2
          intro f hf
          split at hf
          · simp only [pushChildP] at hf
            split at hf
            · split at hf
              · simp only [List.mem_singleton] at hf
                subst hf
                have hn := hnode rootAt hplt
                have hb := hffc _ _ hn.1
                exact ⟨hb.2, hn.2⟩
              · simp at hf
            · simp at hf
          · simp at hf
    | cons fr rest =>
      simp only [walkPlain]
      split
      · exact ih rootAt rest m hroot (fun f hf => hhist f (by simp [hf])) hP
      · next hcond =>
        push_neg at hcond
        have hfr := hhist fr (by simp)
        have hplt : fr.childAt < subject.nodes.length := by
          have := lt_of_le_of_ne hfr.1 hcond.1
          omega
        have hnf : isFin (subject.starts.getD fr.childAt 0) = false := by
          simpa using hcond.2
        cases hpr : process fr.childAt m with
        | halt m2 => exact (hproc fr.childAt m hplt hnf hP).1 m2 hpr
        | go m2 ds =>
          have hP2 := (hproc fr.childAt m hplt hnf hP).2 m2 ds hpr
          refine ih rootAt _ m2 hroot ?_ hP2
          intro f hf
          have hbase : ∀ g, g ∈ ({ fr with childAt := fr.childAt + 1 } : PFrame) :: rest →
              g.childAt ≤ g.childEnd ∧ g.childEnd ≤ subject.nodes.length := by
            intro g hg
            rcases List.mem_cons.1 hg with hg | hg
            · subst hg
              refine ⟨?_, hfr.2⟩
              simp only
              omega
            · exact hhist g (by simp [hg])
          split at hf
          · simp only [pushChildP] at hf
            split at hf
            · split at hf
              · rcases List.mem_cons.1 hf with hf | hf
                · subst hf
                  have hn := hnode fr.childAt hplt
                  have hb := hffc _ _ hn.1
                  exact ⟨hb.2, hn.2⟩
                · exact hbase f (by simp [hf])
              · exact hbase f hf
            · exact hbase f hf
          · exact hbase f hf


/-- Generic soundness of the skip-flag walk: any predicate on the matches
list preserved by the per-node body (at in-range nodes) holds of the result. -/
theorem walkSkip_sound (subject : Nclist) (ffc : Nat → Nat → Nat)
    (canSkip : Int → Bool) (isFin : Int → Bool) (process : Nat → List Nat → StepRes)
    (P : List Nat → Prop)
    (hrc : subject.root_children ≤ subject.nodes.length)
    (hffc : ∀ cs ce, cs ≤ ce → cs ≤ ffc cs ce ∧ ffc cs ce ≤ ce)
    (hnode : ∀ p, p < subject.nodes.length →
      (subject.nodes.getD p default).children_start ≤
          (subject.nodes.getD p default).children_end ∧
        (subject.nodes.getD p default).children_end ≤ subject.nodes.length)
    (hproc : ∀ p m, p < subject.nodes.length →
      isFin (subject.starts.getD p 0) = false → P m →
      (∀ m2, process p m = .halt m2 → P m2) ∧
      (∀ m2 ds, process p m = .go m2 ds → P m2)) :
    ∀ fuel rootAt rootSkip hist m, rootAt ≤ subject.root_children →
      (∀ f ∈ hist, f.childAt ≤ f.childEnd ∧ f.childEnd ≤ subject.nodes.length) →
      P m → P (walkSkip subject ffc canSkip isFin process fuel rootAt rootSkip hist m) := by
  intro fuel
  induction fuel with
  | zero => intro rootAt rootSkip hist m _ _ hP; exact hP
  | succ fuel ih =>
    intro rootAt rootSkip hist m hroot hhist hP
    cases hist with
    | nil =>
      simp only [walkSkip]
      split
      · exact hP
      · next hcond =>
        push_neg at hcond
        have hplt : rootAt < subject.nodes.length := by
          have := lt_of_le_of_ne hroot hcond.1
          omega
        have hnf : isFin (subject.starts.getD rootAt 0) = false := by
          simpa using hcond.2
        cases hpr : process rootAt m with
        | halt m2 => exact (hproc rootAt m hplt hnf hP).1 m2 hpr
        | go m2 ds =>
          have hP2 := (hproc rootAt m hplt hnf hP).2 m2 ds hpr
          refine ih (rootAt + 1) rootSkip _ m2 (by omega) ?_ hP2
          intro f hf
          have hn := hnode rootAt hplt
          split at hf
          · simp only [pushChild] at hf
            split at hf
            · split at hf
              · simp only [List.mem_singleton] at hf
                subst hf
                exact ⟨hn.1, hn.2⟩
              · split at hf
                · simp only [List.mem_singleton] at hf
                  subst hf
                  have hb := hffc _ _ hn.1
                  exact ⟨hb.2, hn.2⟩
                · simp at hf
            · simp at hf
          · simp at hf
    | cons fr rest =>
      simp only [walkSkip]
      split
      · exact ih rootAt rootSkip rest m hroot (fun f hf => hhist f (by simp [hf])) hP
      · next hcond =>
        push_neg at hcond
        have hfr := hhist fr (by simp)
        have hplt : fr.childAt < subject.nodes.length := by
          have := lt_of_le_of_ne hfr.1 hcond.1
          omega
        have hnf : isFin (subject.starts.getD fr.childAt 0) = false := by
          simpa using hcond.2
        cases hpr : process fr.childAt m with
        | halt m2 => exact (hproc fr.childAt m hplt hnf hP).1 m2 hpr
        | go m2 ds =>
          have hP2 := (hproc fr.childAt m hplt hnf hP).2 m2 ds hpr
          refine ih rootAt rootSkip _ m2 hroot ?_ hP2
          intro f hf
          have hn := hnode fr.childAt hplt
          have hbase : ∀ g, g ∈ ({ fr with childAt := fr.childAt + 1 } : Frame) :: rest →
              g.childAt ≤ g.childEnd ∧ g.childEnd ≤ subject.nodes.length := by
            intro g hg
            rcases List.mem_cons.1 hg with hg | hg
            · subst hg
              refine ⟨?_, hfr.2⟩
              simp only
              omega
            · exact hhist g (by simp [hg])
          split at hf
          · simp only [pushChild] at hf
            split at hf
            · split at hf
              · rcases List.mem_cons.1 hf with hf | hf
                · subst hf
                  exact ⟨hn.1, hn.2⟩
                · exact hbase f (by simp [hf])
              · split at hf
                · rcases List.mem_cons.1 hf with hf | hf
                  · subst hf
                    have hb := hffc _ _ hn.1
                    exact ⟨hb.2, hn.2⟩
                  · exact hbase f (by simp [hf])
                · exact hbase f hf
            · exact hbase f hf
          · exact hbase f hf


theorem build_rc_le (starts ends : List Int) :
    (build starts ends).root_children ≤ (build starts ends).nodes.length := by
  rw [build_root_children, build_nodes_length]
  unfold layoutA annForest
  rw [List.length_append]
  rw [annList_length]
  omega

/-! ## Claim C5 (amended): inverted queries under `equal` and `extend` -/

/-- C5 amended: for a built index over valid intervals and an inverted query
(`q_end < q_start`), `overlaps_equal` and `overlaps_extend` with default
parameters return an empty matches vector (the other query kinds can return
matches, as the counterexample shows). -/
theorem inverted_query_equal_extend_empty (pmax : Int) (starts ends : List Int)
    (h : ValidIntervals starts ends) (qs qe : Int) (hq : qe < qs) :
    overlaps_equal (build starts ends) qs qe ⟨0, 0, false⟩ = [] ∧
    overlaps_extend pmax (build starts ends) qs qe ⟨none, 0, false⟩ = [] := by
  constructor
  · unfold overlaps_equal
    split
    · rfl
    · simp only [gt_iff_lt, lt_irrefl, false_and, if_false, lt_self_iff_false,
        if_neg (not_lt.2 (le_refl (0 : Int)))]
      refine walkPlain_sound (build starts ends) _ _ _ (fun m => m = [])
        (build_rc_le starts ends)
        (fun cs ce hle => firstFrom_bounds _ cs ce hle)
        (fun p hp => build_node_bounds starts ends p hp)
        ?_ _ _ [] [] (firstFrom_bounds _ 0 _ (Nat.zero_le _)).2
        (by intro f hf; simp at hf) rfl
      intro p m hp _ hP
      have hval := build_pos_valid starts ends h p hp
      constructor
      · intro m2 hpr
        exfalso
        split at hpr
        · next hok =>
          have := of_decide_eq_true hok
          rw [this.1, this.2] at hval
          omega
        · exact StepRes.noConfusion hpr
      · intro m2 ds hpr
        split at hpr
        · next hok =>
          exfalso
          have := of_decide_eq_true hok
          rw [this.1, this.2] at hval
          omega
        · cases hpr
          exact hP
  · unfold overlaps_extend
    split
    · rfl
    · simp only [gt_iff_lt, lt_irrefl, false_and, if_false, Option.isSome_none,
        Bool.false_eq_true]
      refine walkSkip_sound (build starts ends) _ _ _ _ (fun m => m = [])
        (build_rc_le starts ends)
        (fun cs ce hle => firstFrom_bounds _ cs ce hle)
        (fun p hp => build_node_bounds starts ends p hp)
        ?_ _ _ _ [] [] ?_ (by intro f hf; simp at hf) rfl
      · intro p m hp _ hP
        have hval := build_pos_valid starts ends h p hp
        have hss := build_starts_getD starts ends p
        have hse := build_ends_getD starts ends p
        constructor
        · intro m2 hpr
          exfalso
          split at hpr
          · next hok =>
            omega
          · exact StepRes.noConfusion hpr
        · intro m2 ds hpr
          split at hpr
          · next hok =>
            exfalso
            omega
          · cases hpr
            exact hP
      · split
        · exact Nat.zero_le _
        · exact (firstFrom_bounds _ 0 _ (Nat.zero_le _)).2


theorem inverted_query_equal_extend_empty_witness :
    (ValidIntervals [0] [10] ∧ (2 : Int) < 5) ∧
    overlaps_equal (build [0] [10]) 5 2 ⟨0, 0, false⟩ = [] ∧
    overlaps_extend 100 (build [0] [10]) 5 2 ⟨none, 0, false⟩ = [] :=
  ⟨⟨by unfold ValidIntervals; decide, by decide⟩,
    inverted_query_equal_extend_empty 100 [0] [10]
      (by unfold ValidIntervals; decide) 5 2 (by decide)⟩





/-! ## Claim C1: `overlaps_any` with default parameters is exact

The BASIC-mode walk of overlaps_any.hpp:219-266 is shown to return, in
preorder, exactly the groups (node id followed by its duplicates) of the
nodes whose interval overlaps the query.  `emitT`/`emitF` give that preorder
denotation; the master lemma `walkSkip_basic` relates the fuel-indexed loop
to it through a stack correspondence. -/

mutual

/-- Preorder node count of an annotated tree. -/
def sizeT : AnnTree → Nat
  | .node _ c => 1 + sizeF c
  termination_by structural t => t

/-- Preorder node count of an annotated forest. -/
def sizeF : List AnnTree → Nat
  | [] => 0
  | t :: ts => sizeT t + sizeF ts
  termination_by structural ts => ts

end

mutual

/-- BASIC-mode denotation of the `overlaps_any` walk on one subtree: emit the
node's group and recurse into the children exactly when the node's interval
overlaps the query `[qs, qe)`. -/
def emitT (qs qe : Int) : AnnTree → List Nat
  | .node info c =>
    if info.s < qe ∧ qs < info.e then (info.id :: info.dups) ++ emitF qs qe c else []
  termination_by structural t => t

/-- BASIC-mode denotation over a sibling list, left to right. -/
def emitF (qs qe : Int) : List AnnTree → List Nat
  | [] => []
  | t :: ts => emitT qs qe t ++ emitF qs qe ts
  termination_by structural ts => ts

end

theorem sizeT_node (i : AnnInfo) (c : List AnnTree) :
    sizeT (.node i c) = 1 + sizeF c := rfl

theorem sizeF_cons (t : AnnTree) (ts : List AnnTree) :
    sizeF (t :: ts) = sizeT t + sizeF ts := rfl

theorem sizeF_drop_le (ts : List AnnTree) : ∀ k, sizeF (ts.drop k) ≤ sizeF ts := by
  induction ts with
  | nil => intro k; simp [sizeF]
  | cons t ts ih =>
    intro k
    cases k with
    | zero => exact le_refl _
    | succ k =>
      simp only [List.drop_succ_cons]
      calc sizeF (ts.drop k) ≤ sizeF ts := ih k
        _ ≤ sizeF (t :: ts) := by rw [sizeF_cons]; omega

mutual

theorem sizeT_eq_preT_length (t : AnnTree) : sizeT t = (preT t).length := by
  match t with
  | .node i c =>
    rw [preT, sizeT, List.length_cons, sizeF_eq_preA_length c]
    omega
  termination_by structural t

theorem sizeF_eq_preA_length (ts : List AnnTree) : sizeF ts = (preA ts).length := by
  match ts with
  | [] => rfl
  | t :: rest =>
    rw [preA, sizeF, List.length_append, sizeT_eq_preT_length t,
      sizeF_eq_preA_length rest]
  termination_by structural ts

end

theorem emitT_node (qs qe : Int) (i : AnnInfo) (c : List AnnTree) :
    emitT qs qe (.node i c) =
      if i.s < qe ∧ qs < i.e then (i.id :: i.dups) ++ emitF qs qe c else [] := by
  rw [emitT]

theorem emitT_grp (qs qe : Int) (t : AnnTree) :
    emitT qs qe t =
      if t.info.s < qe ∧ qs < t.info.e then grp t ++ emitF qs qe t.children else [] := by
  cases t with
  | node i c => rw [emitT_node, AnnTree.info_node, AnnTree.children_node]; rfl

theorem emitF_cons (qs qe : Int) (t : AnnTree) (ts : List AnnTree) :
    emitF qs qe (t :: ts) = emitT qs qe t ++ emitF qs qe ts := rfl

theorem emitF_nil (qs qe : Int) : emitF qs qe [] = [] := rfl

theorem emitT_nil_of_e_le (qs qe : Int) (t : AnnTree) (h : t.info.e ≤ qs) :
    emitT qs qe t = [] := by
  rw [emitT_grp, if_neg]
  intro hc
  omega

theorem emitT_nil_of_s_ge (qs qe : Int) (t : AnnTree) (h : qe ≤ t.info.s) :
    emitT qs qe t = [] := by
  rw [emitT_grp, if_neg]
  intro hc
  omega

theorem emitF_nil_of_e_le (qs qe : Int) (ts : List AnnTree)
    (h : ∀ t ∈ ts, t.info.e ≤ qs) : emitF qs qe ts = [] := by
  induction ts with
  | nil => rfl
  | cons t rest ih =>
    rw [emitF_cons, emitT_nil_of_e_le qs qe t (h t (by simp)), List.nil_append]
    exact ih (fun x hx => h x (by simp [hx]))

theorem emitF_nil_of_s_ge (qs qe : Int) (ts : List AnnTree)
    (h : ∀ t ∈ ts, qe ≤ t.info.s) : emitF qs qe ts = [] := by
  induction ts with
  | nil => rfl
  | cons t rest ih =>
    rw [emitF_cons, emitT_nil_of_s_ge qs qe t (h t (by simp)), List.nil_append]
    exact ih (fun x hx => h x (by simp [hx]))

theorem emitF_drop (qs qe : Int) (ts : List AnnTree) : ∀ k,
    (∀ j < k, ∀ hj : j < ts.length, (ts.get ⟨j, hj⟩).info.e ≤ qs) →
    emitF qs qe ts = emitF qs qe (ts.drop k) := by
  induction ts with
  | nil => intro k _; simp
  | cons t rest ih =>
    intro k hk
    cases k with
    | zero => rfl
    | succ k =>
      simp only [List.drop_succ_cons]
      rw [emitF_cons, emitT_nil_of_e_le qs qe t (hk 0 (by omega) (by simp)),
        List.nil_append]
      refine ih k ?_
      intro j hj hlen
      exact hk (j + 1) (by omega) (by simp; omega)

/-- Sibling ordering on annotated nodes: starts weakly ascending, ends
strictly ascending (the flat counterpart of `SChain`). -/
def SibA (ts : List AnnTree) : Prop :=
  List.Pairwise (fun a b => a.info.s ≤ b.info.s ∧ a.info.e < b.info.e) ts

instance : IsTrans AnnTree (fun a b => a.info.s ≤ b.info.s ∧ a.info.e < b.info.e) where
  trans := by
    intro a b c hab hbc
    exact ⟨le_trans hab.1 hbc.1, lt_trans hab.2 hbc.2⟩

theorem SibA_of_SChain (ts : List AnnTree) (h : SChain (eraseF ts)) : SibA ts := by
  unfold SChain at h
  rw [eraseF_map] at h
  rw [List.chain'_map] at h
  simp only [eraseT_s, eraseT_e] at h
  refine List.chain'_iff_pairwise.1 ?_
  exact h

theorem SibA_drop (ts : List AnnTree) (k : Nat) (h : SibA ts) : SibA (ts.drop k) :=
  h.sublist (List.drop_sublist _ _)


theorem firstFromGo_spec (p : Nat → Bool) (k i : Nat) :
    (∀ j, i ≤ j → j < firstFromGo p k i → p j = false) ∧
    (firstFromGo p k i < i + k → p (firstFromGo p k i) = true) := by
  induction k generalizing i with
  | zero =>
    constructor
    · intro j hj1 hj2
      simp only [firstFromGo] at hj2
      omega
    · intro hlt
      simp only [firstFromGo] at hlt
      omega
  | succ k ih =>
    simp only [firstFromGo]
    split
    · next hp =>
      constructor
      · intro j hj1 hj2; omega
      · intro _; exact hp
    · next hp =>
      have hb := firstFromGo_bounds p k (i + 1)
      constructor
      · intro j hj1 hj2
        rcases Nat.eq_or_lt_of_le hj1 with hj | hj
        · subst hj
          exact Bool.of_not_eq_true hp
        · exact (ih (i + 1)).1 j hj hj2
      · intro hlt
        exact (ih (i + 1)).2 (by omega)

theorem firstFrom_spec (p : Nat → Bool) (i e : Nat) (h : i ≤ e) :
    (∀ j, i ≤ j → j < firstFrom p i e → p j = false) ∧
    (firstFrom p i e < e → p (firstFrom p i e) = true) := by
  unfold firstFrom
  have := firstFromGo_spec p (e - i) i
  constructor
  · exact this.1
  · intro hlt
    exact this.2 (by omega)

mutual

/-- Every preorder descendant of a well-formed tree lies inside its interval. -/
theorem preT_sub (starts ends : List Int) (t : AnnTree) :
    WFT starts ends (eraseT t) → ∀ X ∈ preT t,
      t.info.s ≤ X.info.s ∧ X.info.e ≤ t.info.e := by
  match t with
  | .node i c =>
    intro hwf X hX
    rw [preT] at hX
    rcases List.mem_cons.1 hX with hX | hX
    · subst hX
      exact ⟨le_refl _, le_refl _⟩
    · simp only [eraseT, WFT_node] at hwf
      have hsub := preA_sub starts ends c hwf.2.2.2.2.2.2 X hX
      obtain ⟨Y, hY, hYs, hYe⟩ := hsub
      have hcont := hwf.2.2.2.2.2.1 (eraseT Y) (by
        rw [eraseF_map]
        exact List.mem_map_of_mem _ hY)
      rw [Contains, eraseT_s, eraseT_e] at hcont
      simp only [AnnTree.info_node]
      exact ⟨le_trans hcont.1 hYs, le_trans hYe hcont.2.1⟩
  termination_by structural t

/-- Forest version of `preT_sub`: a preorder node of a well-formed forest is
inside the interval of the root it descends from. -/
theorem preA_sub (starts ends : List Int) (ts : List AnnTree) :
    WFL starts ends (eraseF ts) → ∀ X ∈ preA ts,
      ∃ Y ∈ ts, Y.info.s ≤ X.info.s ∧ X.info.e ≤ Y.info.e := by
  match ts with
  | [] => intro _ X hX; rw [preA] at hX; exact absurd hX (List.not_mem_nil X)
  | t :: rest =>
    intro hwf X hX
    rw [preA] at hX
    rw [eraseF] at hwf
    rcases List.mem_append.1 hX with hX | hX
    · exact ⟨t, by simp, preT_sub starts ends t hwf.1 X hX⟩
    · obtain ⟨Y, hY, hb⟩ := preA_sub starts ends rest hwf.2 X hX
      exact ⟨Y, by simp [hY], hb⟩
  termination_by structural ts

end

mutual

/-- Membership in the BASIC denotation: an id is emitted from a well-formed
subtree iff some preorder node overlapping the query carries it. -/
theorem emitT_mem (starts ends : List Int) (qs qe : Int) (t : AnnTree) :
    WFT starts ends (eraseT t) → ∀ i,
      (i ∈ emitT qs qe t ↔
        ∃ X ∈ preT t, (X.info.s < qe ∧ qs < X.info.e) ∧ i ∈ grp X) := by
  match t with
  | .node info c =>
    intro hwf i
    have hwfc : WFL starts ends (eraseF c) := by
      simp only [eraseT, WFT_node] at hwf
      exact hwf.2.2.2.2.2.2
    rw [emitT_node, preT]
    split
    · next hg =>
      simp only [List.mem_append, List.mem_cons]
      rw [emitF_mem starts ends qs qe c hwfc i]
      constructor
      · intro hi
        rcases hi with hi | hi
        · exact ⟨.node info c, by simp, by simpa using hg, by simpa [grp] using hi⟩
        · obtain ⟨X, hX, hgX, hiX⟩ := hi
          exact ⟨X, by simp [hX], hgX, hiX⟩
      · intro ⟨X, hX, hgX, hiX⟩
        rcases hX with hX | hX
        · subst hX
          left
          simpa [grp] using hiX
        · right
          exact ⟨X, hX, hgX, hiX⟩
    · next hg =>
      simp only [List.not_mem_nil, false_iff]
      intro ⟨X, hX, hgX, hiX⟩
      rcases List.mem_cons.1 hX with hX | hX
      · subst hX
        simp only [AnnTree.info_node] at hgX
        exact hg hgX
      · obtain ⟨Y, hY, hYs, hYe⟩ := preA_sub starts ends c hwfc X hX
        simp only [eraseT, WFT_node] at hwf
        have hcont := hwf.2.2.2.2.2.1 (eraseT Y) (by
          rw [eraseF_map]
          exact List.mem_map_of_mem _ hY)
        rw [Contains, eraseT_s, eraseT_e] at hcont
        simp only [AnnTree.info_node, not_and, not_lt] at hg
        rcases lt_or_le info.s qe with hs | hs
        · have := hg hs
          omega
        · omega
  termination_by structural t

/-- Forest version of `emitT_mem`. -/
theorem emitF_mem (starts ends : List Int) (qs qe : Int) (ts : List AnnTree) :
    WFL starts ends (eraseF ts) → ∀ i,
      (i ∈ emitF qs qe ts ↔
        ∃ X ∈ preA ts, (X.info.s < qe ∧ qs < X.info.e) ∧ i ∈ grp X) := by
  match ts with
  | [] =>
    intro _ i
    rw [emitF, preA]
    simp
  | t :: rest =>
    intro hwf i
    rw [eraseF] at hwf
    rw [emitF_cons, preA]
    simp only [List.mem_append]
    rw [emitT_mem starts ends qs qe t hwf.1 i,
      emitF_mem starts ends qs qe rest hwf.2 i]
    constructor
    · intro hi
      rcases hi with ⟨X, hX, hb⟩ | ⟨X, hX, hb⟩
      · exact ⟨X, Or.inl hX, hb⟩
      · exact ⟨X, Or.inr hX, hb⟩
    · intro ⟨X, hX, hb⟩
      rcases hX with hX | hX
      · exact Or.inl ⟨X, hX, hb⟩
      · exact Or.inr ⟨X, hX, hb⟩
  termination_by structural ts

end


theorem forest_length (starts ends : List Int) :
    (annForest starts ends).length = (buildForest starts ends).length :=
  annList_length _ _ _

theorem rc_eq_forest_length (starts ends : List Int) :
    (build starts ends).root_children = (annForest starts ends).length := by
  rw [build_root_children, forest_length]

theorem treeAt_root (starts ends : List Int) (j : Nat)
    (hj : j < (annForest starts ends).length) :
    treeAt starts ends j = (annForest starts ends).getD j dummyA := by
  unfold treeAt layoutA
  rw [List.getD_append _ _ _ _ hj]

theorem forest_SibA (starts ends : List Int) : SibA (annForest starts ends) := by
  refine SibA_of_SChain _ ?_
  have h1 : eraseF (annForest starts ends) = buildForest starts ends :=
    (annList_core _ _ _).1
  rw [h1]
  exact (buildForest_ok starts ends).2

theorem forest_WFL (starts ends : List Int) :
    WFL starts ends (eraseF (annForest starts ends)) := by
  have h1 : eraseF (annForest starts ends) = buildForest starts ends :=
    (annList_core _ _ _).1
  rw [h1]
  exact (buildForest_ok starts ends).1

theorem preA_valid (starts ends : List Int) (h : ValidIntervals starts ends)
    (X : AnnTree) (hX : X ∈ preA (annForest starts ends)) :
    X.info.s ≤ X.info.e := by
  have hwf := build_tree_WF starts ends X hX
  cases X with
  | node i c =>
    simp only [eraseT, WFT_node] at hwf
    simp only [AnnTree.info_node]
    rw [hwf.2.1, hwf.2.2.1]
    exact h.2 _ hwf.1

theorem all_of_getD {P : AnnTree → Prop} (l : List AnnTree)
    (h : ∀ j, j < l.length → P (l.getD j dummyA)) : ∀ t ∈ l, P t := by
  intro t ht
  obtain ⟨j, hj, rfl⟩ := List.mem_iff_getElem.1 ht
  have := h j hj
  rwa [List.getD_eq_getElem _ _ hj] at this

theorem SibA_cons_e (qs : Int) (t0 : AnnTree) (ts : List AnnTree)
    (h : SibA (t0 :: ts)) (h0 : qs < t0.info.e) :
    ∀ x ∈ t0 :: ts, qs < x.info.e := by
  intro x hx
  rcases List.mem_cons.1 hx with hx | hx
  · subst hx; exact h0
  · exact lt_trans h0 ((List.pairwise_cons.1 h).1 x hx).2

theorem SibA_cons_s (qs : Int) (t0 : AnnTree) (ts : List AnnTree)
    (h : SibA (t0 :: ts)) (h0 : qs < t0.info.s) :
    ∀ x ∈ t0 :: ts, qs < x.info.s := by
  intro x hx
  rcases List.mem_cons.1 hx with hx | hx
  · subst hx; exact h0
  · exact lt_of_lt_of_le h0 ((List.pairwise_cons.1 h).1 x hx).1

/-- Correspondence between a walk frame and the pending sibling subtrees it
still has to process: positions `[childAt, childEnd)` of the built layout
hold exactly the trees of `lvl`, siblings are ordered, every pending tree's
end is past `qs` (the window has been entered), and under `skip_search` every
pending start is past `qs`. -/
def LvlOK (starts ends : List Int) (qs : Int) (fr : Frame) (lvl : List AnnTree) : Prop :=
  fr.childEnd = fr.childAt + lvl.length ∧
  fr.childEnd ≤ (layoutA (annForest starts ends)).length ∧
  (∀ k, k < lvl.length → treeAt starts ends (fr.childAt + k) = lvl.getD k dummyA) ∧
  SibA lvl ∧
  (∀ t ∈ lvl, qs < t.info.e) ∧
  (fr.skip = true → ∀ t ∈ lvl, qs < t.info.s)

/-- The whole stack correspondence, innermost frame first. -/
def HistOK (starts ends : List Int) (qs : Int) : List Frame → List (List AnnTree) → Prop
  | [], [] => True
  | fr :: frs, lvl :: lvls => LvlOK starts ends qs fr lvl ∧ HistOK starts ends qs frs lvls
  | _, _ => False


/-- Case analysis of a BASIC-mode `pushChild` at a visited node `X` of the
built layout: either nothing is pushed and `X`'s children emit nothing, or
one frame is pushed whose pending-tree list accounts for the whole children
emission. -/
theorem pushChild_basic (starts ends : List Int) (h : ValidIntervals starts ends)
    (qs qe : Int) (ffc : Nat → Nat → Nat) (canSkip : Int → Bool)
    (hffc : ∀ cs ce, ffc cs ce = upperBound (build starts ends).ends cs ce qs)
    (hskip : ∀ s, canSkip s = decide (qs < s))
    (X : AnnTree) (hmem : X ∈ preA (annForest starts ends))
    (σ : Bool) (hσ : σ = true → qs < X.info.s)
    (hist : List Frame) :
    (pushChild (build starts ends) ffc canSkip (toNCNode X) σ hist = hist ∧
      emitF qs qe X.children = []) ∨
    (∃ fr2 lvl2,
      pushChild (build starts ends) ffc canSkip (toNCNode X) σ hist = fr2 :: hist ∧
      LvlOK starts ends qs fr2 lvl2 ∧
      emitF qs qe X.children = emitF qs qe lvl2 ∧
      sizeF lvl2 ≤ sizeF X.children) := by
  obtain ⟨i, c⟩ := X
  have hsl := build_slices starts ends (.node i c) hmem
  have hwf := build_tree_WF starts ends (.node i c) hmem
  simp only [eraseT, WFT_node] at hwf
  simp only [AnnTree.info_node, AnnTree.children_node] at hsl hσ ⊢
  have hndcs : (toNCNode (.node i c)).children_start = i.cs := rfl
  have hndce : (toNCNode (.node i c)).children_end = i.ce := rfl
  by_cases hcne : c = []
  · left
    constructor
    · unfold pushChild
      rw [hndcs, hndce]
      have h0 := hsl.2.1 (by rw [AnnTree.children_node]; exact hcne)
      simp only [AnnTree.info_node] at h0
      rw [h0.1, h0.2]
      simp
    · rw [hcne]; rfl
  · obtain ⟨hce, hbnd, hposC⟩ := hsl.1 (by rw [AnnTree.children_node]; exact hcne)
    simp only [AnnTree.info_node, AnnTree.children_node] at hce hbnd hposC
    have hclen : 0 < c.length := List.length_pos.2 hcne
    have hcslt : i.cs < i.ce := by omega
    have hSib : SibA c := SibA_of_SChain c hwf.2.2.2.2.1
    have hposT : ∀ j, j < c.length → treeAt starts ends (i.cs + j) = c.getD j dummyA := by
      intro j hj
      unfold treeAt
      rw [hposC j hj]
    have hval : ∀ t ∈ c, t.info.s ≤ t.info.e := by
      refine all_of_getD _ ?_
      intro j hj
      rw [← hposT j hj]
      refine preA_valid starts ends h _ (treeAt_mem_preA starts ends _ ?_)
      omega
    have hcont : ∀ t ∈ c, i.s ≤ t.info.s ∧ t.info.e ≤ i.e := by
      intro t ht
      have hmemC : eraseT t ∈ eraseF c := by
        rw [eraseF_map]
        exact List.mem_map_of_mem _ ht
      have := hwf.2.2.2.2.2.1 (eraseT t) hmemC
      rw [Contains, eraseT_s, eraseT_e] at this
      exact ⟨this.1, this.2.1⟩
    have hends : ∀ j, j < c.length →
        (build starts ends).ends.getD (i.cs + j) 0 = (c.getD j dummyA).info.e := by
      intro j hj
      rw [build_ends_getD, hposT j hj]
    unfold pushChild
    rw [hndcs, hndce]
    rw [if_pos (by omega)]
    cases σ with
    | true =>
      right
      refine ⟨⟨i.cs, i.ce, true⟩, c, by simp, ?_, rfl, le_refl _⟩
      have hsgt : ∀ t ∈ c, qs < t.info.s := by
        intro t ht
        exact lt_of_lt_of_le (hσ rfl) (hcont t ht).1
      refine ⟨hce, by show i.ce ≤ _; omega, ?_, hSib, ?_, ?_⟩
      · intro k hk; exact hposT k hk
      · intro t ht
        exact lt_of_lt_of_le (hsgt t ht) (hval t ht)
      · intro _; exact hsgt
    | false =>
      rw [if_neg (by simp)]
      have hcle : i.cs ≤ i.ce := le_of_lt hcslt
      rw [hffc]
      unfold upperBound
      set sp := firstFrom (fun j => decide (qs < (build starts ends).ends.getD j 0))
        i.cs i.ce with hsp
      have hb := firstFrom_bounds (fun j => decide (qs < (build starts ends).ends.getD j 0))
        i.cs i.ce hcle
      have hspec := firstFrom_spec (fun j => decide (qs < (build starts ends).ends.getD j 0))
        i.cs i.ce hcle
      rw [← hsp] at hb hspec
      by_cases hspe : sp = i.ce
      · left
        rw [if_neg (by simpa using hspe)]
        refine ⟨rfl, ?_⟩
        refine emitF_nil_of_e_le qs qe c (all_of_getD _ ?_)
        intro j hj
        have h2 : decide (qs < (build starts ends).ends.getD (i.cs + j) 0) = false :=
          hspec.1 (i.cs + j) (by omega) (by omega)
        rw [hends j hj] at h2
        simpa using of_decide_eq_false h2
      · right
        have hsplt : sp < i.ce := lt_of_le_of_ne hb.2 hspe
        have hpsp : decide (qs < (build starts ends).ends.getD sp 0) = true :=
          hspec.2 hsplt
        have hesp : qs < (build starts ends).ends.getD sp 0 := of_decide_eq_true hpsp
        rw [if_pos (by simpa using hspe)]
        have hk0lt : sp - i.cs < c.length := by omega
        have hlen2 : (c.drop (sp - i.cs)).length = c.length - (sp - i.cs) := by
          rw [List.length_drop]
        have hne2 : c.drop (sp - i.cs) ≠ [] := by
          intro hcon
          rw [hcon] at hlen2
          simp at hlen2
          omega
        have hpos2 : ∀ k, k < (c.drop (sp - i.cs)).length →
            treeAt starts ends (sp + k) = (c.drop (sp - i.cs)).getD k dummyA := by
          intro k hk
          rw [getD_drop]
          have heq : sp + k = i.cs + (sp - i.cs + k) := by omega
          rw [heq]
          exact hposT (sp - i.cs + k) (by omega)
        obtain ⟨t0, ts2, hcons⟩ := List.exists_cons_of_ne_nil hne2
        have het0 : qs < t0.info.e := by
          have heq := hends (sp - i.cs) hk0lt
          rw [show i.cs + (sp - i.cs) = sp by omega] at heq
          have hg : (c.drop (sp - i.cs)).getD 0 dummyA = t0 := by
            rw [hcons]; rfl
          rw [getD_drop] at hg
          rw [show sp - i.cs + 0 = sp - i.cs by omega] at hg
          rw [hg] at heq
          rw [heq] at hesp
          exact hesp
        have hSib2 : SibA (c.drop (sp - i.cs)) := SibA_drop c _ hSib
        refine ⟨⟨sp, i.ce, canSkip ((build starts ends).starts.getD sp 0)⟩,
          c.drop (sp - i.cs), rfl, ?_, ?_, sizeF_drop_le _ _⟩
        · refine ⟨by show i.ce = sp + _; rw [hlen2]; omega,
            by show i.ce ≤ _; omega, hpos2, hSib2, ?_, ?_⟩
          · rw [hcons]
            exact SibA_cons_e qs t0 ts2 (by rw [← hcons]; exact hSib2) het0
          · intro hskT
            have hskT2 : canSkip ((build starts ends).starts.getD sp 0) = true := hskT
            rw [hskip] at hskT2
            have hst0 : qs < t0.info.s := by
              have h1 := of_decide_eq_true hskT2
              rw [build_starts_getD] at h1
              have h2 := hpos2 0 (by rw [hcons]; simp)
              rw [show sp + 0 = sp by omega] at h2
              rw [h2, hcons] at h1
              simpa using h1
            rw [hcons]
            exact SibA_cons_s qs t0 ts2 (by rw [← hcons]; exact hSib2) hst0
        · refine emitF_drop qs qe c (sp - i.cs) ?_
          intro j hj hjlen
          have h3 : decide (qs < (build starts ends).ends.getD (i.cs + j) 0) = false :=
            hspec.1 (i.cs + j) (by omega) (by omega)
          rw [hends j hjlen] at h3
          have h2 := of_decide_eq_false h3
          rw [List.getD_eq_getElem _ _ hjlen] at h2
          exact not_lt.1 h2


theorem forest_le_layout (starts ends : List Int) :
    (annForest starts ends).length ≤ (layoutA (annForest starts ends)).length := by
  unfold layoutA
  rw [List.length_append]
  omega

theorem drop_cons_getD {α : Type} (l : List α) (n : Nat) (d : α) (h : n < l.length) :
    l.drop n = l.getD n d :: l.drop (n + 1) := by
  rw [List.getD_eq_getElem _ _ h]
  exact List.drop_eq_getElem_cons h

theorem mem_drop_of_mem_succ {α : Type} (l : List α) (n : Nat) (t : α)
    (h : t ∈ l.drop (n + 1)) : t ∈ l.drop n := by
  have he : l.drop (n + 1) = (l.drop n).drop 1 := by
    rw [List.drop_drop]
  rw [he] at h
  exact List.drop_subset _ _ h

theorem SibA_all_s_ge (qe : Int) (t0 : AnnTree) (ts : List AnnTree)
    (h : SibA (t0 :: ts)) (h0 : qe ≤ t0.info.s) :
    ∀ x ∈ t0 :: ts, qe ≤ x.info.s := by
  intro x hx
  rcases List.mem_cons.1 hx with hx | hx
  · subst hx; exact h0
  · exact le_trans h0 ((List.pairwise_cons.1 h).1 x hx).1

/-- Master correspondence for the BASIC-mode walk: from any state whose stack
matches a list of pending sibling lists and whose pending roots satisfy the
window conditions, the walk returns the matches accumulated so far followed by
the preorder emission of all pending subtrees, provided the fuel covers the
remaining work. -/
theorem walkSkip_basic (starts ends : List Int) (h : ValidIntervals starts ends)
    (qs qe : Int) (ffc : Nat → Nat → Nat) (canSkip isFin : Int → Bool)
    (process : Nat → List Nat → StepRes)
    (hffc : ∀ cs ce, ffc cs ce = upperBound (build starts ends).ends cs ce qs)
    (hskip : ∀ s, canSkip s = decide (qs < s))
    (hfin : ∀ s, isFin s = decide (qe ≤ s))
    (hproc : ∀ p m, process p m =
      .go ((m ++ [((build starts ends).nodes.getD p default).id]) ++
        dupSlice (build starts ends) ((build starts ends).nodes.getD p default)) true) :
    ∀ fuel hist lvls rootAt rootSkip m,
      HistOK starts ends qs hist lvls →
      rootAt ≤ (annForest starts ends).length →
      (∀ t ∈ (annForest starts ends).drop rootAt, qs < t.info.e) →
      (rootSkip = true → ∀ t ∈ (annForest starts ends).drop rootAt, qs < t.info.s) →
      3 * ((lvls.map sizeF).sum + sizeF ((annForest starts ends).drop rootAt)) +
        lvls.length + 1 ≤ fuel →
      walkSkip (build starts ends) ffc canSkip isFin process fuel rootAt rootSkip hist m =
        m ++ (lvls.map (emitF qs qe)).flatten ++
          emitF qs qe ((annForest starts ends).drop rootAt) := by
  intro fuel
  induction fuel with
  | zero =>
    intro hist lvls rootAt rootSkip m _ _ _ _ hfuel
    omega
  | succ fuel ih =>
    intro hist lvls rootAt rootSkip m hhist hroot hwine hwins hfuel
    cases hist with
    | nil =>
      cases lvls with
      | cons l ls => exact absurd hhist (by simp [HistOK])
      | nil =>
        simp only [walkSkip]
        split
        · next hcond =>
          have hnil : emitF qs qe ((annForest starts ends).drop rootAt) = [] := by
            rcases hcond with hcond | hcond
            · rw [rc_eq_forest_length] at hcond
              rw [hcond, List.drop_length, emitF_nil]
            · by_cases hrc : rootAt < (annForest starts ends).length
              · rw [hfin] at hcond
                have hqes : qe ≤ (build starts ends).starts.getD rootAt 0 :=
                  of_decide_eq_true hcond
                rw [build_starts_getD] at hqes
                rw [treeAt_root starts ends rootAt hrc] at hqes
                have hdc := drop_cons_getD (annForest starts ends) rootAt dummyA hrc
                rw [hdc]
                refine emitF_nil_of_s_ge qs qe _ ?_
                refine SibA_all_s_ge qe _ _ ?_ hqes
                rw [← hdc]
                exact SibA_drop _ _ (forest_SibA starts ends)
              · have h3 : rootAt = (annForest starts ends).length := by omega
                rw [h3, List.drop_length, emitF_nil]
          rw [hnil]
          simp
        · next hcond =>
          push_neg at hcond
          rw [rc_eq_forest_length] at hcond
          have hrc : rootAt < (annForest starts ends).length :=
            lt_of_le_of_ne hroot hcond.1
          have hrcL : rootAt < (layoutA (annForest starts ends)).length :=
            lt_of_lt_of_le hrc (forest_le_layout starts ends)
          have hrcN : rootAt < (build starts ends).nodes.length := by
            rw [build_nodes_length]; exact hrcL
          have hsq : (treeAt starts ends rootAt).info.s < qe := by
            have h1 := hcond.2
            rw [hfin] at h1
            have h2 : ¬ qe ≤ (build starts ends).starts.getD rootAt 0 := by
              simpa using h1
            rw [build_starts_getD] at h2
            omega
          have hdc := drop_cons_getD (annForest starts ends) rootAt dummyA hrc
          have htreeF : treeAt starts ends rootAt =
              (annForest starts ends).getD rootAt dummyA :=
            treeAt_root starts ends rootAt hrc
          have hmemd : treeAt starts ends rootAt ∈
              (annForest starts ends).drop rootAt := by
            rw [hdc, htreeF]
            simp
          have heq : qs < (treeAt starts ends rootAt).info.e := hwine _ hmemd
          cases hpr : process rootAt m with
          | halt m2 =>
            rw [hproc rootAt m] at hpr
            exact absurd hpr (by simp)
          | go m2 ds =>
            rw [hproc rootAt m] at hpr
            have hm2 : m2 = (m ++ [((build starts ends).nodes.getD rootAt default).id]) ++
                dupSlice (build starts ends) ((build starts ends).nodes.getD rootAt default) := by
              cases hpr; rfl
            have hds : ds = true := by cases hpr; rfl
            subst hds
            simp only [eq_self_iff_true, if_true]
            have hnd : (build starts ends).nodes.getD rootAt default =
                toNCNode (treeAt starts ends rootAt) := build_nodes_getD starts ends rootAt
            have hm2g : m2 = m ++ grp (treeAt starts ends rootAt) := by
              rw [hm2, build_dupSlice starts ends rootAt hrcN, hnd]
              simp [grp, toNCNode]
            have hpc := pushChild_basic starts ends h qs qe ffc canSkip hffc hskip
              (treeAt starts ends rootAt) (treeAt_mem_preA starts ends rootAt hrcL)
              rootSkip (fun hsk => (hwins hsk) _ hmemd) []
            rw [← hnd] at hpc
            have hsz : sizeF ((annForest starts ends).drop rootAt) =
                sizeT (treeAt starts ends rootAt) +
                  sizeF ((annForest starts ends).drop (rootAt + 1)) := by
              rw [hdc, htreeF, sizeF_cons]
            have hszT : sizeT (treeAt starts ends rootAt) =
                1 + sizeF (treeAt starts ends rootAt).children := by
              cases htr : treeAt starts ends rootAt with
              | node i c => rw [sizeT_node, AnnTree.children_node]
            have hemit : emitF qs qe ((annForest starts ends).drop rootAt) =
                grp (treeAt starts ends rootAt) ++
                  emitF qs qe (treeAt starts ends rootAt).children ++
                  emitF qs qe ((annForest starts ends).drop (rootAt + 1)) := by
              rw [hdc, ← htreeF, emitF_cons, emitT_grp, if_pos ⟨hsq, heq⟩]
            have hwine2 : ∀ t ∈ (annForest starts ends).drop (rootAt + 1),
                qs < t.info.e := fun t ht =>
              hwine t (mem_drop_of_mem_succ _ _ t ht)
            have hwins2 : rootSkip = true →
                ∀ t ∈ (annForest starts ends).drop (rootAt + 1), qs < t.info.s :=
              fun hsk t ht => hwins hsk t (mem_drop_of_mem_succ _ _ t ht)
            rcases hpc with ⟨hpeq, hpe⟩ | ⟨fr2, lvl2, hpeq, hL2, hpe, hsz2⟩
            · rw [hpeq]
              rw [ih [] [] (rootAt + 1) rootSkip m2 (by simp [HistOK]) (by omega)
                hwine2 hwins2 (by
                  simp only [List.map_nil, List.sum_nil, List.length_nil] at hfuel ⊢
                  omega)]
              rw [hm2g]
              simp only [List.map_nil, List.flatten_nil, hemit, hpe]
              simp [List.append_assoc]
            · rw [hpeq]
              rw [ih [fr2] [lvl2] (rootAt + 1) rootSkip m2
                (by exact ⟨hL2, by simp [HistOK]⟩) (by omega) hwine2 hwins2 (by
                  simp only [List.map_cons, List.map_nil, List.sum_cons, List.sum_nil,
                    List.length_cons, List.length_nil] at hfuel ⊢
                  omega)]
              rw [hm2g]
              simp only [List.map_cons, List.map_nil, List.flatten_cons,
                List.flatten_nil, hemit, hpe]
              simp [List.append_assoc]
    | cons fr rest =>
      cases lvls with
      | nil => exact absurd hhist (by simp [HistOK])
      | cons lvl lvls =>
        have hL : LvlOK starts ends qs fr lvl := hhist.1
        have hrest : HistOK starts ends qs rest lvls := hhist.2
        obtain ⟨hlen, hbnd, hpos, hSib, hwe, hws⟩ := hL
        simp only [walkSkip]
        split
        · next hcond =>
          have hemit0 : emitF qs qe lvl = [] := by
            rcases hcond with hcond | hcond
            · have hl0 : lvl.length = 0 := by omega
              rw [List.length_eq_zero.1 hl0, emitF_nil]
            · cases hlv : lvl with
              | nil => rfl
              | cons t0 ts =>
                have hlvlen : 0 < lvl.length := by rw [hlv]; simp
                have h0 : treeAt starts ends fr.childAt = t0 := by
                  have := hpos 0 (by omega)
                  rw [hlv] at this
                  simpa using this
                rw [hfin] at hcond
                have hqes : qe ≤ (build starts ends).starts.getD fr.childAt 0 :=
                  of_decide_eq_true hcond
                rw [build_starts_getD, h0] at hqes
                refine emitF_nil_of_s_ge qs qe _ ?_
                refine SibA_all_s_ge qe t0 ts ?_ hqes
                rw [← hlv]
                exact hSib
          rw [ih rest lvls rootAt rootSkip m hrest hroot hwine hwins (by
            simp only [List.map_cons, List.sum_cons, List.length_cons] at hfuel
            omega)]
          simp [hemit0]
        · next hcond =>
          push_neg at hcond
          have hlvne : lvl ≠ [] := by
            intro hcon
            rw [hcon] at hlen
            simp at hlen
            exact hcond.1 hlen.symm
          obtain ⟨t0, ts, hlv⟩ := List.exists_cons_of_ne_nil hlvne
          have hlvlen : 0 < lvl.length := by rw [hlv]; simp
          have h0 : treeAt starts ends fr.childAt = t0 := by
            have := hpos 0 (by omega)
            rw [hlv] at this
            simpa using this
          have hcaL : fr.childAt < (layoutA (annForest starts ends)).length := by
            omega
          have hcaN : fr.childAt < (build starts ends).nodes.length := by
            rw [build_nodes_length]; exact hcaL
          have hsq : t0.info.s < qe := by
            have h1 := hcond.2
            rw [hfin] at h1
            have h2 : ¬ qe ≤ (build starts ends).starts.getD fr.childAt 0 := by
              simpa using h1
            rw [build_starts_getD, h0] at h2
            omega
          have heq : qs < t0.info.e := hwe t0 (by rw [hlv]; simp)
          cases hpr : process fr.childAt m with
          | halt m2 =>
            rw [hproc fr.childAt m] at hpr
            exact absurd hpr (by simp)
          | go m2 ds =>
            rw [hproc fr.childAt m] at hpr
            have hm2 : m2 = (m ++ [((build starts ends).nodes.getD fr.childAt default).id]) ++
                dupSlice (build starts ends)
                  ((build starts ends).nodes.getD fr.childAt default) := by
              cases hpr; rfl
            have hds : ds = true := by cases hpr; rfl
            subst hds
            simp only [eq_self_iff_true, if_true]
            have hnd : (build starts ends).nodes.getD fr.childAt default =
                toNCNode t0 := by
              rw [build_nodes_getD, h0]
            have hm2g : m2 = m ++ grp t0 := by
              rw [hm2, build_dupSlice starts ends fr.childAt hcaN, hnd, h0]
              simp [grp, toNCNode]
            have hmem0 : t0 ∈ preA (annForest starts ends) := by
              rw [← h0]
              exact treeAt_mem_preA starts ends fr.childAt hcaL
            have hL2 : LvlOK starts ends qs { fr with childAt := fr.childAt + 1 } ts := by
              refine ⟨?_, ?_, ?_, ?_, ?_, ?_⟩
              · show fr.childEnd = fr.childAt + 1 + ts.length
                rw [hlv] at hlen
                simp only [List.length_cons] at hlen
                omega
              · exact hbnd
              · intro k hk
                show treeAt starts ends (fr.childAt + 1 + k) = ts.getD k dummyA
                have hp1 := hpos (k + 1) (by rw [hlv]; simp; omega)
                rw [hlv] at hp1
                rw [show fr.childAt + 1 + k = fr.childAt + (k + 1) by omega]
                rw [hp1]
                simp
              · rw [hlv] at hSib
                exact (List.pairwise_cons.1 hSib).2
              · intro t ht
                exact hwe t (by rw [hlv]; simp [ht])
              · intro hsk t ht
                exact hws hsk t (by rw [hlv]; simp [ht])
            have hpc := pushChild_basic starts ends h qs qe ffc canSkip hffc hskip
              t0 hmem0 fr.skip
              (fun hsk => hws hsk t0 (by rw [hlv]; simp))
              ({ fr with childAt := fr.childAt + 1 } :: rest)
            rw [← hnd] at hpc
            have hszT : sizeT t0 = 1 + sizeF t0.children := by
              cases t0 with
              | node i c => rw [sizeT_node, AnnTree.children_node]
            have hemit : emitF qs qe lvl =
                grp t0 ++ emitF qs qe t0.children ++ emitF qs qe ts := by
              rw [hlv, emitF_cons, emitT_grp, if_pos ⟨hsq, heq⟩]
            rcases hpc with ⟨hpeq, hpe⟩ | ⟨fr2, lvl2, hpeq, hL3, hpe, hsz2⟩
            · rw [hpeq]
              rw [ih ({ fr with childAt := fr.childAt + 1 } :: rest) (ts :: lvls)
                rootAt rootSkip m2 ⟨hL2, hrest⟩ hroot hwine hwins (by
                  simp only [List.map_cons, List.sum_cons, List.length_cons] at hfuel ⊢
                  rw [hlv, sizeF_cons] at hfuel
                  omega)]
              rw [hm2g]
              simp only [List.map_cons, List.flatten_cons, hemit, hpe]
              simp [List.append_assoc]
            · rw [hpeq]
              rw [ih (fr2 :: { fr with childAt := fr.childAt + 1 } :: rest)
                (lvl2 :: ts :: lvls) rootAt rootSkip m2 ⟨hL3, hL2, hrest⟩ hroot
                hwine hwins (by
                  simp only [List.map_cons, List.sum_cons, List.length_cons] at hfuel ⊢
                  rw [hlv, sizeF_cons] at hfuel
                  omega)]
              rw [hm2g]
              simp only [List.map_cons, List.flatten_cons, hemit, hpe]
              simp [List.append_assoc]


theorem preA_grp_perm (starts ends : List Int) :
    (((preA (annForest starts ends)).flatMap grp)).Perm (List.range starts.length) := by
  have h1 := annList_groups (buildForest starts ends) (buildForest starts ends).length 0
  show ((preA (annList (buildForest starts ends)
    (buildForest starts ends).length 0).1).flatMap grp).Perm _
  rw [h1]
  exact buildForest_ids starts ends

theorem grp_mem_bounds (starts ends : List Int) (X : AnnTree)
    (hX : X ∈ preA (annForest starts ends)) (i : Nat) (hi : i ∈ grp X) :
    i < starts.length ∧ starts.getD i 0 = X.info.s ∧ ends.getD i 0 = X.info.e := by
  have hwf := build_tree_WF starts ends X hX
  cases X with
  | node j c =>
    simp only [eraseT, WFT_node] at hwf
    simp only [grp, AnnTree.info_node, List.mem_cons] at hi ⊢
    rcases hi with hi | hi
    · subst hi
      exact ⟨hwf.1, hwf.2.1.symm, hwf.2.2.1.symm⟩
    · exact hwf.2.2.2.1 i hi

theorem forest_mem_valid (starts ends : List Int) (h : ValidIntervals starts ends) :
    ∀ t ∈ annForest starts ends, t.info.s ≤ t.info.e := by
  refine all_of_getD _ ?_
  intro j hj
  rw [← treeAt_root starts ends j hj]
  exact preA_valid starts ends h _
    (treeAt_mem_preA starts ends j (lt_of_lt_of_le hj (forest_le_layout starts ends)))

theorem sizeF_forest (starts ends : List Int) :
    sizeF (annForest starts ends) = (build starts ends).nodes.length := by
  rw [sizeF_eq_preA_length, build_nodes_length]
  exact ((layoutA_perm (annForest starts ends)).length_eq).symm

/-- The BASIC-mode `overlaps_any` walk over a built index equals the preorder
emission of the whole annotated forest. -/
theorem overlaps_any_basic_eq_emitF (pmax : Int) (starts ends : List Int)
    (h : ValidIntervals starts ends) (qs qe : Int)
    (hrc0 : ¬ (build starts ends).root_children = 0) :
    overlaps_any pmax (build starts ends) qs qe ⟨none, 0, false⟩ =
      emitF qs qe (annForest starts ends) := by
  have hun : overlaps_any pmax (build starts ends) qs qe ⟨none, 0, false⟩ =
      walkSkip (build starts ends)
        (fun cs ce => upperBound (build starts ends).ends cs ce qs)
        (fun s => decide (qs < s))
        (fun s => decide (qe ≤ s))
        (fun p m =>
          .go ((m ++ [((build starts ends).nodes.getD p default).id]) ++
            dupSlice (build starts ends) ((build starts ends).nodes.getD p default)) true)
        (walkFuel (build starts ends))
        (if decide (qs < (build starts ends).starts.getD 0 0) = true then 0
          else upperBound (build starts ends).ends 0 (build starts ends).root_children qs)
        (decide (qs < (build starts ends).starts.getD 0 0)) [] [] := by
    unfold overlaps_any
    rw [if_neg hrc0]
    rfl
  have hFlen : (annForest starts ends).length ≠ 0 := by
    rw [← rc_eq_forest_length]
    exact hrc0
  have hfuel0 : ∀ r0, 3 * ((([] : List (List AnnTree)).map sizeF).sum +
      sizeF ((annForest starts ends).drop r0)) + ([] : List (List AnnTree)).length + 1 ≤
      walkFuel (build starts ends) := by
    intro r0
    have h1 : sizeF ((annForest starts ends).drop r0) ≤ sizeF (annForest starts ends) :=
      sizeF_drop_le _ _
    have h2 := sizeF_forest starts ends
    unfold walkFuel
    simp only [List.map_nil, List.sum_nil, List.length_nil]
    omega
  rw [hun]
  cases hcs : decide (qs < (build starts ends).starts.getD 0 0) with
  | true =>
    rw [if_pos rfl]
    have hs0 : qs < ((annForest starts ends).getD 0 dummyA).info.s := by
      have h1 := of_decide_eq_true hcs
      rw [build_starts_getD] at h1
      rw [← treeAt_root starts ends 0 (by omega)]
      exact h1
    have hFne : annForest starts ends ≠ [] := by
      intro hc
      rw [hc] at hFlen
      exact hFlen rfl
    obtain ⟨t0, ts, hF⟩ := List.exists_cons_of_ne_nil hFne
    have ht0 : t0 = (annForest starts ends).getD 0 dummyA := by rw [hF]; rfl
    have hwins : ∀ t ∈ annForest starts ends, qs < t.info.s := by
      rw [hF]
      refine SibA_cons_s qs t0 ts ?_ (by rw [ht0]; exact hs0)
      rw [← hF]
      exact forest_SibA starts ends
    have hwine : ∀ t ∈ annForest starts ends, qs < t.info.e := by
      intro t ht
      exact lt_of_lt_of_le (hwins t ht) (forest_mem_valid starts ends h t ht)
    rw [walkSkip_basic starts ends h qs qe _ _ _ _
      (fun cs ce => rfl) (fun s => rfl) (fun s => rfl) (fun p m => rfl)
      (walkFuel (build starts ends)) [] [] 0 true []
      (by simp [HistOK]) (Nat.zero_le _)
      (by rw [List.drop_zero]; exact hwine)
      (fun _ => by rw [List.drop_zero]; exact hwins)
      (hfuel0 0)]
    simp
  | false =>
    rw [if_neg (by simp)]
    have hrcle : (build starts ends).root_children ≤ (annForest starts ends).length := by
      rw [rc_eq_forest_length]
    have hub := firstFrom_bounds
      (fun j => decide (qs < (build starts ends).ends.getD j 0)) 0
      (build starts ends).root_children (Nat.zero_le _)
    have hspec := firstFrom_spec
      (fun j => decide (qs < (build starts ends).ends.getD j 0)) 0
      (build starts ends).root_children (Nat.zero_le _)
    set r0 := upperBound (build starts ends).ends 0 (build starts ends).root_children qs
      with hr0
    have hr0u : r0 = firstFrom
        (fun j => decide (qs < (build starts ends).ends.getD j 0)) 0
        (build starts ends).root_children := rfl
    have hr0le : r0 ≤ (annForest starts ends).length := by
      rw [hr0u]
      omega
    have hends : ∀ j, j < (annForest starts ends).length →
        (build starts ends).ends.getD j 0 = ((annForest starts ends).getD j dummyA).info.e := by
      intro j hj
      rw [build_ends_getD, treeAt_root starts ends j hj]
    have hwine : ∀ t ∈ (annForest starts ends).drop r0, qs < t.info.e := by
      by_cases hr0lt : r0 < (annForest starts ends).length
      · have hp0 : decide (qs < (build starts ends).ends.getD r0 0) = true := by
          rw [hr0u]
          exact hspec.2 (by rw [← hr0u]; rw [← rc_eq_forest_length] at hr0lt; exact hr0lt)
        have he0 : qs < ((annForest starts ends).getD r0 dummyA).info.e := by
          have := of_decide_eq_true hp0
          rw [hends r0 hr0lt] at this
          exact this
        have hdc := drop_cons_getD (annForest starts ends) r0 dummyA hr0lt
        rw [hdc]
        refine SibA_cons_e qs _ _ ?_ he0
        rw [← hdc]
        exact SibA_drop _ _ (forest_SibA starts ends)
      · have : r0 = (annForest starts ends).length := by omega
        rw [this, List.drop_length]
        intro t ht
        exact absurd ht (List.not_mem_nil t)
    rw [walkSkip_basic starts ends h qs qe _ _ _ _
      (fun cs ce => rfl) (fun s => rfl) (fun s => rfl) (fun p m => rfl)
      (walkFuel (build starts ends)) [] [] r0 false []
      (by simp [HistOK]) hr0le hwine
      (by intro hcon; exact absurd hcon (by simp))
      (hfuel0 r0)]
    simp only [List.map_nil, List.flatten_nil, List.nil_append, List.append_nil]
    refine (emitF_drop qs qe (annForest starts ends) r0 ?_).symm
    intro j hj hjlen
    have hjrc : j < (build starts ends).root_children := by
      rw [rc_eq_forest_length]
      omega
    have hpj : decide (qs < (build starts ends).ends.getD j 0) = false := by
      rw [hr0u] at hj
      exact hspec.1 j (Nat.zero_le _) hj
    have h2 := of_decide_eq_false hpj
    rw [hends j hjlen] at h2
    rw [List.getD_eq_getElem _ _ hjlen] at h2
    exact not_lt.1 h2


/-- Membership characterization of the default `overlaps_any` over a built
index: exactly the subjects whose interval overlaps the query are reported. -/
theorem overlaps_any_default_mem (pmax : Int) (starts ends : List Int)
    (h : ValidIntervals starts ends) (qs qe : Int) (i : Nat) :
    i ∈ overlaps_any pmax (build starts ends) qs qe ⟨none, 0, false⟩ ↔
      i < starts.length ∧ starts.getD i 0 < qe ∧ qs < ends.getD i 0 := by
  by_cases hrc : (build starts ends).root_children = 0
  · have hmt : overlaps_any pmax (build starts ends) qs qe ⟨none, 0, false⟩ = [] := by
      unfold overlaps_any
      rw [if_pos hrc]
    have hF : annForest starts ends = [] := by
      have h1 := rc_eq_forest_length starts ends
      rw [hrc] at h1
      exact List.length_eq_zero.1 h1.symm
    have hperm := preA_grp_perm starts ends
    rw [hF] at hperm
    have h0 : (preA ([] : List AnnTree)).flatMap grp = [] := rfl
    rw [h0] at hperm
    have hn : starts.length = 0 :=
      List.range_eq_nil.1 (List.Perm.eq_nil hperm.symm)
    rw [hmt]
    simp [hn]
  · rw [overlaps_any_basic_eq_emitF pmax starts ends h qs qe hrc]
    rw [emitF_mem starts ends qs qe _ (forest_WFL starts ends) i]
    constructor
    · intro ⟨X, hX, hg, hi⟩
      obtain ⟨h1, h2, h3⟩ := grp_mem_bounds starts ends X hX i hi
      exact ⟨h1, by rw [h2]; exact hg.1, by rw [h3]; exact hg.2⟩
    · intro ⟨h1, h2, h3⟩
      have hiR : i ∈ List.range starts.length := List.mem_range.2 h1
      have himem : i ∈ (preA (annForest starts ends)).flatMap grp :=
        (preA_grp_perm starts ends).mem_iff.2 hiR
      obtain ⟨X, hX, hi⟩ := List.mem_flatMap.1 himem
      obtain ⟨hh1, hh2, hh3⟩ := grp_mem_bounds starts ends X hX i hi
      exact ⟨X, hX, ⟨by rw [← hh2]; exact h2, by rw [← hh3]; exact h3⟩, hi⟩

/-- C1: over a built index on intervals with `start ≤ end`, `overlaps_any`
with default parameters (`min_overlap = 0`, `max_gap` unset,
`quit_on_first = false`) reports exactly the input subjects `i` with
`starts[i] < q_end` and `q_start < ends[i]`. -/
theorem overlaps_any_default_exact (pmax : Int) (starts ends : List Int)
    (h : ValidIntervals starts ends) (qs qe : Int) (hq : qs ≤ qe) (i : Nat) :
    i ∈ overlaps_any pmax (build starts ends) qs qe ⟨none, 0, false⟩ ↔
      i < starts.length ∧ starts.getD i 0 < qe ∧ qs < ends.getD i 0 :=
  overlaps_any_default_mem pmax starts ends h qs qe i

theorem overlaps_any_default_exact_witness :
    (ValidIntervals [0] [10] ∧ (1 : Int) ≤ 3) ∧
    (0 ∈ overlaps_any 2147483647 (build [0] [10]) 1 3 ⟨none, 0, false⟩ ↔
      0 < ([0] : List Int).length ∧ ([0] : List Int).getD 0 0 < 3 ∧
        (1 : Int) < ([10] : List Int).getD 0 0) :=
  ⟨⟨by unfold ValidIntervals; decide, by decide⟩,
    overlaps_any_default_exact 2147483647 [0] [10]
      (by unfold ValidIntervals; decide) 1 3 (by decide) 0⟩


/-! ## Claim C4: the `nearest` query -/

/-- With `quit_on_first = false` and `adjacent_equals_overlap = false`, the
overlap phase of `nearest` is step-for-step the BASIC `overlaps_any` walk:
all `adjacent` hooks are disabled and only the matches component differs in
bookkeeping. -/
theorem nearestLoop_eq_walkSkip (subject : Nclist) (qs qe : Int) :
    ∀ fuel rootAt rootSkip hist m,
      (nearestLoop subject qs qe false false fuel rootAt rootSkip hist m).1 =
        walkSkip subject (fun cs ce => upperBound subject.ends cs ce qs)
          (fun s => decide (qs < s)) (fun s => decide (qe ≤ s))
          (fun p m2 => .go ((m2 ++ [(subject.nodes.getD p default).id]) ++
            dupSlice subject (subject.nodes.getD p default)) true)
          fuel rootAt rootSkip hist m := by
  intro fuel
  induction fuel with
  | zero => intro rootAt rootSkip hist m; rfl
  | succ fuel ih =>
    intro rootAt rootSkip hist m
    cases hist with
    | nil =>
      simp only [nearestLoop, walkSkip]
      by_cases h1 : rootAt = subject.root_children
      · rw [if_pos h1, if_pos (Or.inl h1)]
      · rw [if_neg h1]
        by_cases h2 : decide (qe ≤ subject.starts.getD rootAt 0) = true
        · rw [if_pos h2, if_pos (Or.inr h2)]
          simp
        · have hnor : ¬(rootAt = subject.root_children ∨
              decide (qe ≤ subject.starts.getD rootAt 0) = true) := by
            intro hc
            rcases hc with hc | hc
            · exact h1 hc
            · exact h2 hc
          rw [if_neg h2, if_neg hnor]
          simp only [Bool.false_eq_true, if_false, false_and, ite_self, pushChild,
            eq_self_iff_true, if_true]
          exact ih (rootAt + 1) rootSkip _ _
    | cons fr rest =>
      simp only [nearestLoop, walkSkip]
      by_cases h1 : fr.childAt = fr.childEnd
      · rw [if_pos h1, if_pos (Or.inl h1)]
        exact ih rootAt rootSkip rest m
      · rw [if_neg h1]
        by_cases h2 : decide (qe ≤ subject.starts.getD fr.childAt 0) = true
        · rw [if_pos h2, if_pos (Or.inr h2)]
          simp only [Bool.false_eq_true, false_and, if_false]
          exact ih rootAt rootSkip rest m
        · have hnor : ¬(fr.childAt = fr.childEnd ∨
              decide (qe ≤ subject.starts.getD fr.childAt 0) = true) := by
            intro hc
            rcases hc with hc | hc
            · exact h1 hc
            · exact h2 hc
          rw [if_neg h2, if_neg hnor]
          simp only [Bool.false_eq_true, if_false, false_and, ite_self, pushChild,
            eq_self_iff_true, if_true]
          exact ih rootAt rootSkip _ _


/-- With both `quit_on_first` and `adjacent_equals_overlap` false, the overlap
phase of `nearest` returns exactly the matches of the default
`overlaps_any`. -/
theorem nearest_overlaps_eq_any (pmax : Int) (subject : Nclist) (qs qe : Int)
    (hrc : ¬ subject.root_children = 0) :
    (nearest_overlaps subject qs qe false false).1 =
      overlaps_any pmax subject qs qe ⟨none, 0, false⟩ := by
  have hov : overlaps_any pmax subject qs qe ⟨none, 0, false⟩ =
      walkSkip subject
        (fun cs ce => upperBound subject.ends cs ce qs)
        (fun s => decide (qs < s))
        (fun s => decide (qe ≤ s))
        (fun p m =>
          .go ((m ++ [(subject.nodes.getD p default).id]) ++
            dupSlice subject (subject.nodes.getD p default)) true)
        (walkFuel subject)
        (if decide (qs < subject.starts.getD 0 0) = true then 0
          else upperBound subject.ends 0 subject.root_children qs)
        (decide (qs < subject.starts.getD 0 0)) [] [] := by
    unfold overlaps_any
    rw [if_neg hrc]
    rfl
  rw [hov]
  unfold nearest_overlaps
  simp only [Bool.false_eq_true, false_and, and_false, if_false, ne_eq,
    not_true_eq_false, not_false_eq_true]
  exact nearestLoop_eq_walkSkip subject qs qe (walkFuel subject) _ _ [] []


/-- C4 amended: with `quit_on_first = false` and
`adjacent_equals_overlap = false`, whenever some subject overlaps the query
(`starts[j] < q_end` and `q_start < ends[j]`), `nearest` reports exactly the
overlapping subjects.  Purely adjacent subjects — which also have gap `0`
under the metric `max(0, s_start − q_end) + max(0, q_start − s_end)` — are
not reported, as the counterexample shows, so the reported set is the argmin
of the gap metric restricted to positive-length overlaps, not the full
tie set of the metric. -/
theorem nearest_overlap_phase_exact (starts ends : List Int)
    (h : ValidIntervals starts ends) (qs qe : Int) (hq : qs ≤ qe)
    (j : Nat) (hj : j < starts.length ∧ starts.getD j 0 < qe ∧ qs < ends.getD j 0) :
    ∀ i, i ∈ nearest (build starts ends) qs qe ⟨false, false⟩ ↔
      (i < starts.length ∧ starts.getD i 0 < qe ∧ qs < ends.getD i 0) := by
  have hmemF : ∀ i, i < starts.length → starts.getD i 0 < qe → qs < ends.getD i 0 →
      i ∈ emitF qs qe (annForest starts ends) := by
    intro i h1 h2 h3
    rw [emitF_mem starts ends qs qe _ (forest_WFL starts ends) i]
    have hiR : i ∈ List.range starts.length := List.mem_range.2 h1
    have himem : i ∈ (preA (annForest starts ends)).flatMap grp :=
      (preA_grp_perm starts ends).mem_iff.2 hiR
    obtain ⟨X, hX, hi⟩ := List.mem_flatMap.1 himem
    obtain ⟨hh1, hh2, hh3⟩ := grp_mem_bounds starts ends X hX i hi
    exact ⟨X, hX, ⟨by rw [← hh2]; exact h2, by rw [← hh3]; exact h3⟩, hi⟩
  have hrc : ¬ (build starts ends).root_children = 0 := by
    intro hc
    have hF : annForest starts ends = [] := by
      have h1 := rc_eq_forest_length starts ends
      rw [hc] at h1
      exact List.length_eq_zero.1 h1.symm
    have hperm := preA_grp_perm starts ends
    rw [hF] at hperm
    have h0 : (preA ([] : List AnnTree)).flatMap grp = [] := rfl
    rw [h0] at hperm
    have hn : starts.length = 0 :=
      List.range_eq_nil.1 (List.Perm.eq_nil hperm.symm)
    omega
  have hany : (nearest_overlaps (build starts ends) qs qe false false).1 =
      emitF qs qe (annForest starts ends) := by
    rw [nearest_overlaps_eq_any 0 (build starts ends) qs qe hrc]
    exact overlaps_any_basic_eq_emitF 0 starts ends h qs qe hrc
  have hne : ¬ (nearest_overlaps (build starts ends) qs qe false false).1 = [] := by
    rw [hany]
    intro hc
    have := hmemF j hj.1 hj.2.1 hj.2.2
    rw [hc] at this
    exact absurd this (List.not_mem_nil j)
  have hnear : nearest (build starts ends) qs qe ⟨false, false⟩ =
      (nearest_overlaps (build starts ends) qs qe false false).1 := by
    simp only [nearest]
    rw [if_neg hrc, if_pos hne]
  intro i
  rw [hnear, hany]
  rw [emitF_mem starts ends qs qe _ (forest_WFL starts ends) i]
  constructor
  · intro ⟨X, hX, hg, hi⟩
    obtain ⟨h1, h2, h3⟩ := grp_mem_bounds starts ends X hX i hi
    exact ⟨h1, by rw [h2]; exact hg.1, by rw [h3]; exact hg.2⟩
  · intro ⟨h1, h2, h3⟩
    rw [← emitF_mem starts ends qs qe _ (forest_WFL starts ends) i]
    exact hmemF i h1 h2 h3


theorem nearest_overlap_phase_exact_witness :
    (ValidIntervals [0, 6] [5, 7] ∧ (5 : Int) ≤ 8 ∧
      1 < ([0, 6] : List Int).length ∧ ([0, 6] : List Int).getD 1 0 < 8 ∧
        (5 : Int) < ([5, 7] : List Int).getD 1 0) ∧
    (1 ∈ nearest (build [0, 6] [5, 7]) 5 8 ⟨false, false⟩ ↔
      1 < ([0, 6] : List Int).length ∧ ([0, 6] : List Int).getD 1 0 < 8 ∧
        (5 : Int) < ([5, 7] : List Int).getD 1 0) :=
  ⟨⟨by unfold ValidIntervals; decide, by decide, by decide, by decide, by decide⟩,
    nearest_overlap_phase_exact [0, 6] [5, 7] (by unfold ValidIntervals; decide)
      5 8 (by decide) 1 (by decide) 1⟩


/-! ## Claim C9 (amended): queries after an input shuffle -/

/-- C9 amended: re-ordering the input intervals relabels the output of the
default `overlaps_any` by the same index map, because membership depends only
on the subject's interval values.  The sorted outputs themselves differ, as
the counterexample shows, since reported indices refer to each input's own
ordering.  Here `f` carries a position of the shuffled input to the position
of the same interval in the original input. -/
theorem overlaps_any_default_shuffle_relabel (pmax : Int)
    (starts ends starts2 ends2 : List Int) (f : Nat → Nat)
    (h1 : ValidIntervals starts ends) (h2 : ValidIntervals starts2 ends2)
    (hf : ∀ k, k < starts2.length → f k < starts.length ∧
      starts2.getD k 0 = starts.getD (f k) 0 ∧ ends2.getD k 0 = ends.getD (f k) 0)
    (qs qe : Int) (hq : qs ≤ qe) (k : Nat) (hk : k < starts2.length) :
    k ∈ overlaps_any pmax (build starts2 ends2) qs qe ⟨none, 0, false⟩ ↔
      f k ∈ overlaps_any pmax (build starts ends) qs qe ⟨none, 0, false⟩ := by
  rw [overlaps_any_default_mem pmax starts ends h1 qs qe (f k),
    overlaps_any_default_mem pmax starts2 ends2 h2 qs qe k]
  obtain ⟨hfk, hs, he⟩ := hf k hk
  rw [hs, he]
  constructor
  · intro hc
    exact ⟨hfk, hc.2⟩
  · intro hc
    exact ⟨hk, hc.2⟩

theorem overlaps_any_default_shuffle_relabel_witness :
    (ValidIntervals [0, 20] [10, 30] ∧ ValidIntervals [20, 0] [30, 10] ∧
      (∀ k, k < ([20, 0] : List Int).length → 1 - k < ([0, 20] : List Int).length ∧
        ([20, 0] : List Int).getD k 0 = ([0, 20] : List Int).getD (1 - k) 0 ∧
        ([30, 10] : List Int).getD k 0 = ([10, 30] : List Int).getD (1 - k) 0) ∧
      (0 : Int) ≤ 5 ∧ 1 < ([20, 0] : List Int).length) ∧
    (1 ∈ overlaps_any 2147483647 (build [20, 0] [30, 10]) 0 5 ⟨none, 0, false⟩ ↔
      0 ∈ overlaps_any 2147483647 (build [0, 20] [10, 30]) 0 5 ⟨none, 0, false⟩) :=
  ⟨⟨by unfold ValidIntervals; decide, by unfold ValidIntervals; decide,
      by decide, by decide, by decide⟩,
    overlaps_any_default_shuffle_relabel 2147483647 [0, 20] [10, 30] [20, 0] [30, 10]
      (fun k => 1 - k) (by unfold ValidIntervals; decide)
      (by unfold ValidIntervals; decide) (by decide) 0 5 (by decide) 1 (by decide)⟩


/-! ## Exact characterization of default `overlaps_within`

The plain walk of overlaps_within.hpp:147-195 mirrors the BASIC `overlaps_any`
walk with the roles of the bounds exchanged: children are entered at the first
sibling whose end is at least `q_end` (`std::lower_bound`) and iteration stops
at the first sibling whose start exceeds `q_start`; every visited node is
emitted.  `emitWT`/`emitWF` give the corresponding preorder denotation. -/

mutual

/-- Denotation of the default `overlaps_within` walk on one subtree: emit the
node's group and recurse exactly when the query lies within the node. -/
def emitWT (qs qe : Int) : AnnTree → List Nat
  | .node info c =>
    if info.s ≤ qs ∧ qe ≤ info.e then (info.id :: info.dups) ++ emitWF qs qe c else []
  termination_by structural t => t

/-- Denotation of the default `overlaps_within` walk over a sibling list. -/
def emitWF (qs qe : Int) : List AnnTree → List Nat
  | [] => []
  | t :: ts => emitWT qs qe t ++ emitWF qs qe ts
  termination_by structural ts => ts

end

theorem emitWT_grp (qs qe : Int) (t : AnnTree) :
    emitWT qs qe t =
      if t.info.s ≤ qs ∧ qe ≤ t.info.e then grp t ++ emitWF qs qe t.children
      else [] := by
  cases t with
  | node i c => rw [emitWT, AnnTree.info_node, AnnTree.children_node]; rfl

theorem emitWF_cons (qs qe : Int) (t : AnnTree) (ts : List AnnTree) :
    emitWF qs qe (t :: ts) = emitWT qs qe t ++ emitWF qs qe ts := rfl

theorem emitWF_nil (qs qe : Int) : emitWF qs qe [] = [] := rfl

theorem emitWT_nil_of_e_lt (qs qe : Int) (t : AnnTree) (h : t.info.e < qe) :
    emitWT qs qe t = [] := by
  rw [emitWT_grp, if_neg]
  intro hc
  omega

theorem emitWT_nil_of_s_gt (qs qe : Int) (t : AnnTree) (h : qs < t.info.s) :
    emitWT qs qe t = [] := by
  rw [emitWT_grp, if_neg]
  intro hc
  omega

theorem emitWF_nil_of_s_gt (qs qe : Int) (ts : List AnnTree)
    (h : ∀ t ∈ ts, qs < t.info.s) : emitWF qs qe ts = [] := by
  induction ts with
  | nil => rfl
  | cons t rest ih =>
    rw [emitWF_cons, emitWT_nil_of_s_gt qs qe t (h t (by simp)), List.nil_append]
    exact ih (fun x hx => h x (by simp [hx]))

theorem emitWF_drop (qs qe : Int) (ts : List AnnTree) : ∀ k,
    (∀ j < k, ∀ hj : j < ts.length, (ts.get ⟨j, hj⟩).info.e < qe) →
    emitWF qs qe ts = emitWF qs qe (ts.drop k) := by
  induction ts with
  | nil => intro k _; simp
  | cons t rest ih =>
    intro k hk
    cases k with
    | zero => rfl
    | succ k =>
      simp only [List.drop_succ_cons]
      rw [emitWF_cons, emitWT_nil_of_e_lt qs qe t (hk 0 (by omega) (by simp)),
        List.nil_append]
      refine ih k ?_
      intro j hj hlen
      exact hk (j + 1) (by omega) (by simp; omega)

mutual

/-- Membership in the `within` denotation: an id is emitted from a
well-formed subtree iff some preorder node containing the query carries it. -/
theorem emitWT_mem (starts ends : List Int) (qs qe : Int) (t : AnnTree) :
    WFT starts ends (eraseT t) → ∀ i,
      (i ∈ emitWT qs qe t ↔
        ∃ X ∈ preT t, (X.info.s ≤ qs ∧ qe ≤ X.info.e) ∧ i ∈ grp X) := by
  match t with
  | .node info c =>
    intro hwf i
    have hwfc : WFL starts ends (eraseF c) := by
      simp only [eraseT, WFT_node] at hwf
      exact hwf.2.2.2.2.2.2
    rw [emitWT, preT]
    split
    · next hg =>
      simp only [List.mem_append, List.mem_cons]
      rw [emitWF_mem starts ends qs qe c hwfc i]
      constructor
      · intro hi
        rcases hi with hi | hi
        · exact ⟨.node info c, by simp, by simpa using hg, by simpa [grp] using hi⟩
        · obtain ⟨X, hX, hgX, hiX⟩ := hi
          exact ⟨X, by simp [hX], hgX, hiX⟩
      · intro ⟨X, hX, hgX, hiX⟩
        rcases hX with hX | hX
        · subst hX
          left
          simpa [grp] using hiX
        · right
          exact ⟨X, hX, hgX, hiX⟩
    · next hg =>
      simp only [List.not_mem_nil, false_iff]
      intro ⟨X, hX, hgX, hiX⟩
      rcases List.mem_cons.1 hX with hX | hX
      · subst hX
        simp only [AnnTree.info_node] at hgX
        exact hg hgX
      · obtain ⟨Y, hY, hYs, hYe⟩ := preA_sub starts ends c hwfc X hX
        simp only [eraseT, WFT_node] at hwf
        have hcont := hwf.2.2.2.2.2.1 (eraseT Y) (by
          rw [eraseF_map]
          exact List.mem_map_of_mem _ hY)
        rw [Contains, eraseT_s, eraseT_e] at hcont
        simp only [AnnTree.info_node, not_and, not_le] at hg
        rcases le_or_lt info.s qs with hs | hs
        · have := hg hs
          omega
        · omega
  termination_by structural t

/-- Forest version of `emitWT_mem`. -/
theorem emitWF_mem (starts ends : List Int) (qs qe : Int) (ts : List AnnTree) :
    WFL starts ends (eraseF ts) → ∀ i,
      (i ∈ emitWF qs qe ts ↔
        ∃ X ∈ preA ts, (X.info.s ≤ qs ∧ qe ≤ X.info.e) ∧ i ∈ grp X) := by
  match ts with
  | [] =>
    intro _ i
    rw [emitWF, preA]
    simp
  | t :: rest =>
    intro hwf i
    rw [eraseF] at hwf
    rw [emitWF_cons, preA]
    simp only [List.mem_append]
    rw [emitWT_mem starts ends qs qe t hwf.1 i,
      emitWF_mem starts ends qs qe rest hwf.2 i]
    constructor
    · intro hi
      rcases hi with ⟨X, hX, hb⟩ | ⟨X, hX, hb⟩
      · exact ⟨X, Or.inl hX, hb⟩
      · exact ⟨X, Or.inr hX, hb⟩
    · intro ⟨X, hX, hb⟩
      rcases hX with hX | hX
      · exact Or.inl ⟨X, hX, hb⟩
      · exact Or.inr ⟨X, hX, hb⟩
  termination_by structural ts

end


theorem SibA_all_e_ge (qe : Int) (t0 : AnnTree) (ts : List AnnTree)
    (h : SibA (t0 :: ts)) (h0 : qe ≤ t0.info.e) :
    ∀ x ∈ t0 :: ts, qe ≤ x.info.e := by
  intro x hx
  rcases List.mem_cons.1 hx with hx | hx
  · subst hx; exact h0
  · exact le_of_lt (lt_of_le_of_lt h0 ((List.pairwise_cons.1 h).1 x hx).2)

/-- Correspondence between a plain-walk frame and its pending sibling
subtrees: the positions hold the trees, siblings are ordered, and every
pending end is at least `q_end` (the `lower_bound` window has been
entered). -/
def PLvlOK (starts ends : List Int) (qe : Int) (fr : PFrame) (lvl : List AnnTree) : Prop :=
  fr.childEnd = fr.childAt + lvl.length ∧
  fr.childEnd ≤ (layoutA (annForest starts ends)).length ∧
  (∀ k, k < lvl.length → treeAt starts ends (fr.childAt + k) = lvl.getD k dummyA) ∧
  SibA lvl ∧
  (∀ t ∈ lvl, qe ≤ t.info.e)

/-- Stack correspondence for the plain walk, innermost frame first. -/
def PHistOK (starts ends : List Int) (qe : Int) : List PFrame → List (List AnnTree) → Prop
  | [], [] => True
  | fr :: frs, lvl :: lvls => PLvlOK starts ends qe fr lvl ∧ PHistOK starts ends qe frs lvls
  | _, _ => False

/-- Case analysis of a default-`within` `pushChildP` at a visited node. -/
theorem pushChildP_within (starts ends : List Int)
    (qs qe : Int) (ffc : Nat → Nat → Nat)
    (hffc : ∀ cs ce, ffc cs ce = lowerBound (build starts ends).ends cs ce qe)
    (X : AnnTree) (hmem : X ∈ preA (annForest starts ends))
    (hist : List PFrame) :
    (pushChildP ffc (toNCNode X) hist = hist ∧
      emitWF qs qe X.children = []) ∨
    (∃ fr2 lvl2,
      pushChildP ffc (toNCNode X) hist = fr2 :: hist ∧
      PLvlOK starts ends qe fr2 lvl2 ∧
      emitWF qs qe X.children = emitWF qs qe lvl2 ∧
      sizeF lvl2 ≤ sizeF X.children) := by
  obtain ⟨i, c⟩ := X
  have hsl := build_slices starts ends (.node i c) hmem
  have hwf := build_tree_WF starts ends (.node i c) hmem
  simp only [eraseT, WFT_node] at hwf
  simp only [AnnTree.info_node, AnnTree.children_node] at hsl ⊢
  have hndcs : (toNCNode (.node i c)).children_start = i.cs := rfl
  have hndce : (toNCNode (.node i c)).children_end = i.ce := rfl
  by_cases hcne : c = []
  · left
    constructor
    · unfold pushChildP
      rw [hndcs, hndce]
      have h0 := hsl.2.1 (by rw [AnnTree.children_node]; exact hcne)
      simp only [AnnTree.info_node] at h0
      rw [h0.1, h0.2]
      simp
    · rw [hcne]; rfl
  · obtain ⟨hce, hbnd, hposC⟩ := hsl.1 (by rw [AnnTree.children_node]; exact hcne)
    simp only [AnnTree.info_node, AnnTree.children_node] at hce hbnd hposC
    have hclen : 0 < c.length := List.length_pos.2 hcne
    have hcslt : i.cs < i.ce := by omega
    have hSib : SibA c := SibA_of_SChain c hwf.2.2.2.2.1
    have hposT : ∀ j, j < c.length → treeAt starts ends (i.cs + j) = c.getD j dummyA := by
      intro j hj
      unfold treeAt
      rw [hposC j hj]
    have hends : ∀ j, j < c.length →
        (build starts ends).ends.getD (i.cs + j) 0 = (c.getD j dummyA).info.e := by
      intro j hj
      rw [build_ends_getD, hposT j hj]
    unfold pushChildP
    rw [hndcs, hndce]
    rw [if_pos (by omega)]
    have hcle : i.cs ≤ i.ce := le_of_lt hcslt
    rw [hffc]
    unfold lowerBound
    set sp := firstFrom (fun j => decide (qe ≤ (build starts ends).ends.getD j 0))
      i.cs i.ce with hsp
    have hb := firstFrom_bounds (fun j => decide (qe ≤ (build starts ends).ends.getD j 0))
      i.cs i.ce hcle
    have hspec := firstFrom_spec (fun j => decide (qe ≤ (build starts ends).ends.getD j 0))
      i.cs i.ce hcle
    rw [← hsp] at hb hspec
    by_cases hspe : sp = i.ce
    · left
      rw [if_neg (by simpa using hspe)]
      refine ⟨rfl, ?_⟩
      have hall : emitWF qs qe c = emitWF qs qe (c.drop c.length) := by
        refine emitWF_drop qs qe c c.length ?_
        intro j hj hjlen
        have h3 : decide (qe ≤ (build starts ends).ends.getD (i.cs + j) 0) = false :=
          hspec.1 (i.cs + j) (by omega) (by omega)
        rw [hends j hjlen] at h3
        have h2 := of_decide_eq_false h3
        rw [List.getD_eq_getElem _ _ hjlen] at h2
        exact not_le.1 h2
      rw [hall, List.drop_length, emitWF_nil]
    · right
      have hsplt : sp < i.ce := lt_of_le_of_ne hb.2 hspe
      have hpsp : decide (qe ≤ (build starts ends).ends.getD sp 0) = true :=
        hspec.2 hsplt
      have hesp : qe ≤ (build starts ends).ends.getD sp 0 := of_decide_eq_true hpsp
      rw [if_pos (by simpa using hspe)]
      have hk0lt : sp - i.cs < c.length := by omega
      have hlen2 : (c.drop (sp - i.cs)).length = c.length - (sp - i.cs) := by
        rw [List.length_drop]
      have hne2 : c.drop (sp - i.cs) ≠ [] := by
        intro hcon
        rw [hcon] at hlen2
        simp at hlen2
        omega
      have hpos2 : ∀ k, k < (c.drop (sp - i.cs)).length →
          treeAt starts ends (sp + k) = (c.drop (sp - i.cs)).getD k dummyA := by
        intro k hk
        rw [getD_drop]
        have heq : sp + k = i.cs + (sp - i.cs + k) := by omega
        rw [heq]
        exact hposT (sp - i.cs + k) (by omega)
      obtain ⟨t0, ts2, hcons⟩ := List.exists_cons_of_ne_nil hne2
      have het0 : qe ≤ t0.info.e := by
        have heq := hends (sp - i.cs) hk0lt
        rw [show i.cs + (sp - i.cs) = sp by omega] at heq
        have hg : (c.drop (sp - i.cs)).getD 0 dummyA = t0 := by
          rw [hcons]; rfl
        rw [getD_drop] at hg
        rw [show sp - i.cs + 0 = sp - i.cs by omega] at hg
        rw [hg] at heq
        rw [heq] at hesp
        exact hesp
      have hSib2 : SibA (c.drop (sp - i.cs)) := SibA_drop c _ hSib
      refine ⟨⟨sp, i.ce⟩, c.drop (sp - i.cs), rfl, ?_, ?_, sizeF_drop_le _ _⟩
      · refine ⟨by show i.ce = sp + _; rw [hlen2]; omega,
          by show i.ce ≤ _; omega, hpos2, hSib2, ?_⟩
        rw [hcons]
        exact SibA_all_e_ge qe t0 ts2 (by rw [← hcons]; exact hSib2) het0
      · refine emitWF_drop qs qe c (sp - i.cs) ?_
        intro j hj hjlen
        have h3 : decide (qe ≤ (build starts ends).ends.getD (i.cs + j) 0) = false :=
          hspec.1 (i.cs + j) (by omega) (by omega)
        rw [hends j hjlen] at h3
        have h2 := of_decide_eq_false h3
        rw [List.getD_eq_getElem _ _ hjlen] at h2
        exact not_le.1 h2


/-- Master correspondence for the default `within` walk: from any state whose
stack matches its pending sibling lists and whose pending roots have entered
the `lower_bound` window, the plain walk returns the matches so far followed
by the preorder `within` emission of all pending subtrees. -/
theorem walkPlain_within (starts ends : List Int)
    (qs qe : Int) (ffc : Nat → Nat → Nat) (isFin : Int → Bool)
    (process : Nat → List Nat → StepRes)
    (hffc : ∀ cs ce, ffc cs ce = lowerBound (build starts ends).ends cs ce qe)
    (hfin : ∀ s, isFin s = decide (qs < s))
    (hproc : ∀ p m, process p m =
      .go ((m ++ [((build starts ends).nodes.getD p default).id]) ++
        dupSlice (build starts ends) ((build starts ends).nodes.getD p default)) true) :
    ∀ fuel hist lvls rootAt m,
      PHistOK starts ends qe hist lvls →
      rootAt ≤ (annForest starts ends).length →
      (∀ t ∈ (annForest starts ends).drop rootAt, qe ≤ t.info.e) →
      3 * ((lvls.map sizeF).sum + sizeF ((annForest starts ends).drop rootAt)) +
        lvls.length + 1 ≤ fuel →
      walkPlain (build starts ends) ffc isFin process fuel rootAt hist m =
        m ++ (lvls.map (emitWF qs qe)).flatten ++
          emitWF qs qe ((annForest starts ends).drop rootAt) := by
  intro fuel
  induction fuel with
  | zero =>
    intro hist lvls rootAt m _ _ _ hfuel
    omega
  | succ fuel ih =>
    intro hist lvls rootAt m hhist hroot hwine hfuel
    cases hist with
    | nil =>
      cases lvls with
      | cons l ls => exact absurd hhist (by simp [PHistOK])
      | nil =>
        simp only [walkPlain]
        split
        · next hcond =>
          have hnil : emitWF qs qe ((annForest starts ends).drop rootAt) = [] := by
            rcases hcond with hcond | hcond
            · rw [rc_eq_forest_length] at hcond
              rw [hcond, List.drop_length, emitWF_nil]
            · by_cases hrc : rootAt < (annForest starts ends).length
              · rw [hfin] at hcond
                have hqes : qs < (build starts ends).starts.getD rootAt 0 :=
                  of_decide_eq_true hcond
                rw [build_starts_getD] at hqes
                rw [treeAt_root starts ends rootAt hrc] at hqes
                have hdc := drop_cons_getD (annForest starts ends) rootAt dummyA hrc
                rw [hdc]
                refine emitWF_nil_of_s_gt qs qe _ ?_
                refine SibA_cons_s qs _ _ ?_ hqes
                rw [← hdc]
                exact SibA_drop _ _ (forest_SibA starts ends)
              · have h3 : rootAt = (annForest starts ends).length := by omega
                rw [h3, List.drop_length, emitWF_nil]
          rw [hnil]
          simp
        · next hcond =>
          push_neg at hcond
          rw [rc_eq_forest_length] at hcond
          have hrc : rootAt < (annForest starts ends).length :=
            lt_of_le_of_ne hroot hcond.1
          have hrcL : rootAt < (layoutA (annForest starts ends)).length :=
            lt_of_lt_of_le hrc (forest_le_layout starts ends)
          have hrcN : rootAt < (build starts ends).nodes.length := by
            rw [build_nodes_length]; exact hrcL
          have hsq : (treeAt starts ends rootAt).info.s ≤ qs := by
            have h1 := hcond.2
            rw [hfin] at h1
            have h2 : ¬ qs < (build starts ends).starts.getD rootAt 0 := by
              simpa using h1
            rw [build_starts_getD] at h2
            omega
          have hdc := drop_cons_getD (annForest starts ends) rootAt dummyA hrc
          have htreeF : treeAt starts ends rootAt =
              (annForest starts ends).getD rootAt dummyA :=
            treeAt_root starts ends rootAt hrc
          have hmemd : treeAt starts ends rootAt ∈
              (annForest starts ends).drop rootAt := by
            rw [hdc, htreeF]
            simp
          have heq : qe ≤ (treeAt starts ends rootAt).info.e := hwine _ hmemd
          cases hpr : process rootAt m with
          | halt m2 =>
            rw [hproc rootAt m] at hpr
            exact absurd hpr (by simp)
          | go m2 ds =>
            rw [hproc rootAt m] at hpr
            have hm2 : m2 = (m ++ [((build starts ends).nodes.getD rootAt default).id]) ++
                dupSlice (build starts ends) ((build starts ends).nodes.getD rootAt default) := by
              cases hpr; rfl
            have hds : ds = true := by cases hpr; rfl
            subst hds
            simp only [eq_self_iff_true, if_true]
            have hnd : (build starts ends).nodes.getD rootAt default =
                toNCNode (treeAt starts ends rootAt) := build_nodes_getD starts ends rootAt
            have hm2g : m2 = m ++ grp (treeAt starts ends rootAt) := by
              rw [hm2, build_dupSlice starts ends rootAt hrcN, hnd]
              simp [grp, toNCNode]
            have hpc := pushChildP_within starts ends qs qe ffc hffc
              (treeAt starts ends rootAt) (treeAt_mem_preA starts ends rootAt hrcL) []
            rw [← hnd] at hpc
            have hsz : sizeF ((annForest starts ends).drop rootAt) =
                sizeT (treeAt starts ends rootAt) +
                  sizeF ((annForest starts ends).drop (rootAt + 1)) := by
              rw [hdc, htreeF, sizeF_cons]
            have hszT : sizeT (treeAt starts ends rootAt) =
                1 + sizeF (treeAt starts ends rootAt).children := by
              cases htr : treeAt starts ends rootAt with
              | node i c => rw [sizeT_node, AnnTree.children_node]
            have hemit : emitWF qs qe ((annForest starts ends).drop rootAt) =
                grp (treeAt starts ends rootAt) ++
                  emitWF qs qe (treeAt starts ends rootAt).children ++
                  emitWF qs qe ((annForest starts ends).drop (rootAt + 1)) := by
              rw [hdc, ← htreeF, emitWF_cons, emitWT_grp, if_pos ⟨hsq, heq⟩]
            have hwine2 : ∀ t ∈ (annForest starts ends).drop (rootAt + 1),
                qe ≤ t.info.e := fun t ht =>
              hwine t (mem_drop_of_mem_succ _ _ t ht)
            rcases hpc with ⟨hpeq, hpe⟩ | ⟨fr2, lvl2, hpeq, hL2, hpe, hsz2⟩
            · rw [hpeq]
              rw [ih [] [] (rootAt + 1) m2 (by simp [PHistOK]) (by omega)
                hwine2 (by
                  simp only [List.map_nil, List.sum_nil, List.length_nil] at hfuel ⊢
                  omega)]
              rw [hm2g]
              simp only [List.map_nil, List.flatten_nil, hemit, hpe]
              simp [List.append_assoc]
            · rw [hpeq]
              rw [ih [fr2] [lvl2] (rootAt + 1) m2
                (by exact ⟨hL2, by simp [PHistOK]⟩) (by omega) hwine2 (by
                  simp only [List.map_cons, List.map_nil, List.sum_cons, List.sum_nil,
                    List.length_cons, List.length_nil] at hfuel ⊢
                  omega)]
              rw [hm2g]
              simp only [List.map_cons, List.map_nil, List.flatten_cons,
                List.flatten_nil, hemit, hpe]
              simp [List.append_assoc]
    | cons fr rest =>
      cases lvls with
      | nil => exact absurd hhist (by simp [PHistOK])
      | cons lvl lvls =>
        have hL : PLvlOK starts ends qe fr lvl := hhist.1
        have hrest : PHistOK starts ends qe rest lvls := hhist.2
        obtain ⟨hlen, hbnd, hpos, hSib, hwe⟩ := hL
        simp only [walkPlain]
        split
        · next hcond =>
          have hemit0 : emitWF qs qe lvl = [] := by
            rcases hcond with hcond | hcond
            · have hl0 : lvl.length = 0 := by omega
              rw [List.length_eq_zero.1 hl0, emitWF_nil]
            · cases hlv : lvl with
              | nil => rfl
              | cons t0 ts =>
                have hlvlen : 0 < lvl.length := by rw [hlv]; simp
                have h0 : treeAt starts ends fr.childAt = t0 := by
                  have := hpos 0 (by omega)
                  rw [hlv] at this
                  simpa using this
                rw [hfin] at hcond
                have hqes : qs < (build starts ends).starts.getD fr.childAt 0 :=
                  of_decide_eq_true hcond
                rw [build_starts_getD, h0] at hqes
                refine emitWF_nil_of_s_gt qs qe _ ?_
                refine SibA_cons_s qs t0 ts ?_ hqes
                rw [← hlv]
                exact hSib
          rw [ih rest lvls rootAt m hrest hroot hwine (by
            simp only [List.map_cons, List.sum_cons, List.length_cons] at hfuel
            omega)]
          simp [hemit0]
        · next hcond =>
          push_neg at hcond
          have hlvne : lvl ≠ [] := by
            intro hcon
            rw [hcon] at hlen
            simp at hlen
            exact hcond.1 hlen.symm
          obtain ⟨t0, ts, hlv⟩ := List.exists_cons_of_ne_nil hlvne
          have hlvlen : 0 < lvl.length := by rw [hlv]; simp
          have h0 : treeAt starts ends fr.childAt = t0 := by
            have := hpos 0 (by omega)
            rw [hlv] at this
            simpa using this
          have hcaL : fr.childAt < (layoutA (annForest starts ends)).length := by
            omega
          have hcaN : fr.childAt < (build starts ends).nodes.length := by
            rw [build_nodes_length]; exact hcaL
          have hsq : t0.info.s ≤ qs := by
            have h1 := hcond.2
            rw [hfin] at h1
            have h2 : ¬ qs < (build starts ends).starts.getD fr.childAt 0 := by
              simpa using h1
            rw [build_starts_getD, h0] at h2
            omega
          have heq : qe ≤ t0.info.e := hwe t0 (by rw [hlv]; simp)
          cases hpr : process fr.childAt m with
          | halt m2 =>
            rw [hproc fr.childAt m] at hpr
            exact absurd hpr (by simp)
          | go m2 ds =>
            rw [hproc fr.childAt m] at hpr
            have hm2 : m2 = (m ++ [((build starts ends).nodes.getD fr.childAt default).id]) ++
                dupSlice (build starts ends)
                  ((build starts ends).nodes.getD fr.childAt default) := by
              cases hpr; rfl
            have hds : ds = true := by cases hpr; rfl
            subst hds
            simp only [eq_self_iff_true, if_true]
            have hnd : (build starts ends).nodes.getD fr.childAt default =
                toNCNode t0 := by
              rw [build_nodes_getD, h0]
            have hm2g : m2 = m ++ grp t0 := by
              rw [hm2, build_dupSlice starts ends fr.childAt hcaN, hnd, h0]
              simp [grp, toNCNode]
            have hmem0 : t0 ∈ preA (annForest starts ends) := by
              rw [← h0]
              exact treeAt_mem_preA starts ends fr.childAt hcaL
            have hL2 : PLvlOK starts ends qe ⟨fr.childAt + 1, fr.childEnd⟩ ts := by
              refine ⟨?_, ?_, ?_, ?_, ?_⟩
              · show fr.childEnd = fr.childAt + 1 + ts.length
                rw [hlv] at hlen
                simp only [List.length_cons] at hlen
                omega
              · exact hbnd
              · intro k hk
                show treeAt starts ends (fr.childAt + 1 + k) = ts.getD k dummyA
                have hp1 := hpos (k + 1) (by rw [hlv]; simp; omega)
                rw [hlv] at hp1
                rw [show fr.childAt + 1 + k = fr.childAt + (k + 1) by omega]
                rw [hp1]
                simp
              · rw [hlv] at hSib
                exact (List.pairwise_cons.1 hSib).2
              · intro t ht
                exact hwe t (by rw [hlv]; simp [ht])
            have hpc := pushChildP_within starts ends qs qe ffc hffc
              t0 hmem0 (⟨fr.childAt + 1, fr.childEnd⟩ :: rest)
            rw [← hnd] at hpc
            have hszT : sizeT t0 = 1 + sizeF t0.children := by
              cases t0 with
              | node i c => rw [sizeT_node, AnnTree.children_node]
            have hemit : emitWF qs qe lvl =
                grp t0 ++ emitWF qs qe t0.children ++ emitWF qs qe ts := by
              rw [hlv, emitWF_cons, emitWT_grp, if_pos ⟨hsq, heq⟩]
            rcases hpc with ⟨hpeq, hpe⟩ | ⟨fr2, lvl2, hpeq, hL3, hpe, hsz2⟩
            · rw [hpeq]
              rw [ih (⟨fr.childAt + 1, fr.childEnd⟩ :: rest) (ts :: lvls)
                rootAt m2 ⟨hL2, hrest⟩ hroot hwine (by
                  simp only [List.map_cons, List.sum_cons, List.length_cons] at hfuel ⊢
                  rw [hlv, sizeF_cons] at hfuel
                  omega)]
              rw [hm2g]
              simp only [List.map_cons, List.flatten_cons, hemit, hpe]
              simp [List.append_assoc]
            · rw [hpeq]
              rw [ih (fr2 :: ⟨fr.childAt + 1, fr.childEnd⟩ :: rest)
                (lvl2 :: ts :: lvls) rootAt m2 ⟨hL3, hL2, hrest⟩ hroot
                hwine (by
                  simp only [List.map_cons, List.sum_cons, List.length_cons] at hfuel ⊢
                  rw [hlv, sizeF_cons] at hfuel
                  omega)]
              rw [hm2g]
              simp only [List.map_cons, List.flatten_cons, hemit, hpe]
              simp [List.append_assoc]


/-- The default `overlaps_within` over a built index equals the preorder
`within` emission of the whole annotated forest. -/
theorem overlaps_within_basic_eq_emitWF (starts ends : List Int) (qs qe : Int)
    (hrc0 : ¬ (build starts ends).root_children = 0) :
    overlaps_within (build starts ends) qs qe ⟨none, 0, false⟩ =
      emitWF qs qe (annForest starts ends) := by
  have hun : overlaps_within (build starts ends) qs qe ⟨none, 0, false⟩ =
      walkPlain (build starts ends)
        (fun cs ce => lowerBound (build starts ends).ends cs ce qe)
        (fun s => decide (qs < s))
        (fun p m => .go ((m ++ [((build starts ends).nodes.getD p default).id]) ++
          dupSlice (build starts ends) ((build starts ends).nodes.getD p default)) true)
        (walkFuel (build starts ends))
        (lowerBound (build starts ends).ends 0 (build starts ends).root_children qe)
        [] [] := by
    unfold overlaps_within
    rw [if_neg hrc0]
    rfl
  rw [hun]
  have hrcle : (build starts ends).root_children ≤ (annForest starts ends).length := by
    rw [rc_eq_forest_length]
  have hspec := firstFrom_spec
    (fun j => decide (qe ≤ (build starts ends).ends.getD j 0)) 0
    (build starts ends).root_children (Nat.zero_le _)
  have hub := firstFrom_bounds
    (fun j => decide (qe ≤ (build starts ends).ends.getD j 0)) 0
    (build starts ends).root_children (Nat.zero_le _)
  set r0 := lowerBound (build starts ends).ends 0 (build starts ends).root_children qe
    with hr0
  have hr0u : r0 = firstFrom
      (fun j => decide (qe ≤ (build starts ends).ends.getD j 0)) 0
      (build starts ends).root_children := rfl
  have hr0le : r0 ≤ (annForest starts ends).length := by
    rw [hr0u]
    omega
  have hends : ∀ j, j < (annForest starts ends).length →
      (build starts ends).ends.getD j 0 = ((annForest starts ends).getD j dummyA).info.e := by
    intro j hj
    rw [build_ends_getD, treeAt_root starts ends j hj]
  have hwine : ∀ t ∈ (annForest starts ends).drop r0, qe ≤ t.info.e := by
    by_cases hr0lt : r0 < (annForest starts ends).length
    · have hp0 : decide (qe ≤ (build starts ends).ends.getD r0 0) = true := by
        rw [hr0u]
        exact hspec.2 (by rw [← hr0u]; rw [← rc_eq_forest_length] at hr0lt; exact hr0lt)
      have he0 : qe ≤ ((annForest starts ends).getD r0 dummyA).info.e := by
        have := of_decide_eq_true hp0
        rw [hends r0 hr0lt] at this
        exact this
      have hdc := drop_cons_getD (annForest starts ends) r0 dummyA hr0lt
      rw [hdc]
      refine SibA_all_e_ge qe _ _ ?_ he0
      rw [← hdc]
      exact SibA_drop _ _ (forest_SibA starts ends)
    · have hr0e : r0 = (annForest starts ends).length := by omega
      rw [hr0e, List.drop_length]
      intro t ht
      exact absurd ht (List.not_mem_nil t)
  have hfuel0 : 3 * ((([] : List (List AnnTree)).map sizeF).sum +
      sizeF ((annForest starts ends).drop r0)) + ([] : List (List AnnTree)).length + 1 ≤
      walkFuel (build starts ends) := by
    have h1 : sizeF ((annForest starts ends).drop r0) ≤ sizeF (annForest starts ends) :=
      sizeF_drop_le _ _
    have h2 := sizeF_forest starts ends
    unfold walkFuel
    simp only [List.map_nil, List.sum_nil, List.length_nil]
    omega
  rw [walkPlain_within starts ends qs qe _ _ _
    (fun cs ce => rfl) (fun s => rfl) (fun p m => rfl)
    (walkFuel (build starts ends)) [] [] r0 []
    (by simp [PHistOK]) hr0le hwine hfuel0]
  simp only [List.map_nil, List.flatten_nil, List.nil_append, List.append_nil]
  refine (emitWF_drop qs qe (annForest starts ends) r0 ?_).symm
  intro j hj hjlen
  have hjrc : j < (build starts ends).root_children := by
    rw [rc_eq_forest_length]
    omega
  have hpj : decide (qe ≤ (build starts ends).ends.getD j 0) = false := by
    rw [hr0u] at hj
    exact hspec.1 j (Nat.zero_le _) hj
  have h2 := of_decide_eq_false hpj
  rw [hends j hjlen] at h2
  rw [List.getD_eq_getElem _ _ hjlen] at h2
  exact not_le.1 h2

/-- Membership characterization of the default `overlaps_within` over a built
index: exactly the subjects whose interval contains the query are reported. -/
theorem overlaps_within_default_mem (starts ends : List Int)
    (h : ValidIntervals starts ends) (qs qe : Int) (i : Nat) :
    i ∈ overlaps_within (build starts ends) qs qe ⟨none, 0, false⟩ ↔
      i < starts.length ∧ starts.getD i 0 ≤ qs ∧ qe ≤ ends.getD i 0 := by
  by_cases hrc : (build starts ends).root_children = 0
  · have hmt : overlaps_within (build starts ends) qs qe ⟨none, 0, false⟩ = [] := by
      unfold overlaps_within
      rw [if_pos hrc]
    have hF : annForest starts ends = [] := by
      have h1 := rc_eq_forest_length starts ends
      rw [hrc] at h1
      exact List.length_eq_zero.1 h1.symm
    have hperm := preA_grp_perm starts ends
    rw [hF] at hperm
    have h0 : (preA ([] : List AnnTree)).flatMap grp = [] := rfl
    rw [h0] at hperm
    have hn : starts.length = 0 :=
      List.range_eq_nil.1 (List.Perm.eq_nil hperm.symm)
    rw [hmt]
    simp [hn]
  · rw [overlaps_within_basic_eq_emitWF starts ends qs qe hrc]
    rw [emitWF_mem starts ends qs qe _ (forest_WFL starts ends) i]
    constructor
    · intro ⟨X, hX, hg, hi⟩
      obtain ⟨h1, h2, h3⟩ := grp_mem_bounds starts ends X hX i hi
      exact ⟨h1, by rw [h2]; exact hg.1, by rw [h3]; exact hg.2⟩
    · intro ⟨h1, h2, h3⟩
      have hiR : i ∈ List.range starts.length := List.mem_range.2 h1
      have himem : i ∈ (preA (annForest starts ends)).flatMap grp :=
        (preA_grp_perm starts ends).mem_iff.2 hiR
      obtain ⟨X, hX, hi⟩ := List.mem_flatMap.1 himem
      obtain ⟨hh1, hh2, hh3⟩ := grp_mem_bounds starts ends X hX i hi
      exact ⟨X, hX, ⟨by rw [← hh2]; exact h2, by rw [← hh3]; exact h3⟩, hi⟩


/-! ## Claim C6 (amended): zero-width `within` queries -/

/-- C6 amended: `overlaps_within` uses `std::lower_bound` against `q_end`
unconditionally, with no `upper_bound` case for zero-width queries, so a
zero-width query `q` reports exactly the subjects whose interval contains
`q` — including those whose end position equals `q_end` (the counterexample
exhibits one), contrary to the claimed exclusion. -/
theorem zero_width_within_exact (starts ends : List Int)
    (h : ValidIntervals starts ends) (q : Int) (i : Nat) :
    i ∈ overlaps_within (build starts ends) q q ⟨none, 0, false⟩ ↔
      i < starts.length ∧ starts.getD i 0 ≤ q ∧ q ≤ ends.getD i 0 :=
  overlaps_within_default_mem starts ends h q q i

theorem zero_width_within_exact_witness :
    ValidIntervals [0] [5] ∧
    (0 ∈ overlaps_within (build [0] [5]) 5 5 ⟨none, 0, false⟩ ↔
      0 < ([0] : List Int).length ∧ ([0] : List Int).getD 0 0 ≤ 5 ∧
        (5 : Int) ≤ ([5] : List Int).getD 0 0) :=
  ⟨by unfold ValidIntervals; decide,
    zero_width_within_exact [0] [5] (by unfold ValidIntervals; decide) 5 0⟩

end NclistSpec
